import Mathlib

/-!
# StaticScript: the IR generator (`lib/CodeGen/IRGenerator.cpp`)

A shallow embedding of the tree-walking lowering pass.  The generator's mutable
members (the module under construction, the builder's insertion point, `curFn`,
`mainFn`) and the annotations it writes onto AST nodes (`code`, `condBB`,
`updateBB`, `endBB`) are the fields of one record, `IRGenerator`, threaded
through every visitor.  A visitor that throws `CodeGenException`, or that would
dereference a null pointer, returns `Except.error`.

The builder is modelled at the level the source uses it: every `Create*` call
appends one instruction at the insertion point (or leaves it detached when the
insertion point is cleared), except that operations on constant operands are
folded by the builder into a constant and produce no instruction.

The base-class traversal `ASTVisitor::visit`, the helpers `createBasicBlock`
and `setFuncInsertPoint`, the node classes and the lexer's token codes are
declared outside `IRGenerator.cpp`.  The traversal is taken to visit a node's
children in source order; the helpers are modelled from the specification; the
token codes are a parameter.
-/

namespace StaticScript

/-! ## Token codes -/

/-- Token codes of the generated lexer that the operator switches name.  The
generated lexer is not part of the sources at hand, so the codes are a
parameter of the embedding. -/
structure StaticScriptLexer where
  Assign : Nat
  Plus : Nat
  Minus : Nat
  Multiply : Nat
  Divide : Nat
  LessThan : Nat
  GreaterThan : Nat
  LessThanEquals : Nat
  GreaterThanEquals : Nat
  Equals : Nat
  NotEquals : Nat
  deriving DecidableEq, Repr

/-- The ten operator codes the source's comment `// Plus...NotEquals` puts in
the range `22..31`. -/
def StaticScriptLexer.rangeOperators (t : StaticScriptLexer) : List Nat :=
  [t.Plus, t.Minus, t.Multiply, t.Divide, t.LessThan, t.GreaterThan,
   t.LessThanEquals, t.GreaterThanEquals, t.Equals, t.NotEquals]

/-- The case labels of the switch in `visit(BinaryOperatorExprNode)`. -/
def StaticScriptLexer.binaryOperators (t : StaticScriptLexer) : List Nat :=
  t.Assign :: t.rangeOperators

/-- What the source relies on about the token codes: the case labels of one
switch are pairwise distinct, and the operators `Plus...NotEquals` lie in the
range `22..31` tested before the operands are visited. -/
structure StaticScriptLexer.WellFormed (t : StaticScriptLexer) : Prop where
  nodup : t.binaryOperators.Nodup
  range : ∀ c ∈ t.rangeOperators, 22 ≤ c ∧ c ≤ 31

/-- A token table that satisfies `WellFormed`, used to run the embedding on
concrete programs. -/
def sampleLexer : StaticScriptLexer :=
  { Assign := 21, Plus := 22, Minus := 23, Multiply := 24, Divide := 25,
    LessThan := 26, GreaterThan := 27, LessThanEquals := 28,
    GreaterThanEquals := 29, Equals := 30, NotEquals := 31 }

/-! ## Backend values -/

/-- Builtin type singletons `BuiltinTypeNode::BOOLEAN_TYPE`, `INTEGER_TYPE`,
`STRING_TYPE`.  A null type pointer is `none : Option BuiltinTypeNode`. -/
inductive BuiltinTypeNode
  | boolean
  | integer
  | string
  deriving DecidableEq, Repr

/-- Backend types the generator asks the builder for. -/
inductive LLVMType
  | voidTy
  | int1Ty
  | int32Ty
  | int64Ty
  | int8PtrTy
  | stringTy
  | arrayTy (length : Nat)
  deriving DecidableEq, Repr

/-- Alignment in bytes that the data layout of the module (the default one:
the source sets none) prefers for a type, `DataLayout::getPrefTypeAlign`. -/
def LLVMType.prefTypeAlign : LLVMType → Nat
  | .voidTy => 1
  | .int1Ty => 1
  | .int32Ty => 4
  | .int64Ty => 8
  | .int8PtrTy => 8
  | .stringTy => 8
  | .arrayTy _ => 1

/-- Two-operand builder operations used by the source. -/
inductive BinaryOp
  | nswAdd
  | nswSub
  | nswMul
  | sdiv
  | icmpSLT
  | icmpSGT
  | icmpSLE
  | icmpSGE
  | icmpEQ
  | icmpNE
  deriving DecidableEq, Repr

/-- An `llvm::Value *`.  Basic blocks, functions and globals are referred to by
their position in the generator's tables; an instruction by the number it got
when it was created. -/
inductive LLVMValue
  | constantInt (type : LLVMType) (value : Int)
  | constantPointerNull (type : LLVMType)
  | constantNeg (operand : LLVMValue)
  | constantBinary (op : BinaryOp) (lhs rhs : LLVMValue)
  | constantCast (operand : LLVMValue) (type : LLVMType)
  | constantDataArray (bytes : String)
  | globalVariable (index : Nat)
  | argument (function : Nat) (index : Nat)
  | instruction (id : Nat)
  deriving DecidableEq, Repr

/-- Whether the value is an `llvm::Constant` (so that the builder folds
operations on it). -/
def LLVMValue.isConstant : LLVMValue → Bool
  | .argument _ _ => false
  | .instruction _ => false
  | _ => true

/-- Callee of a call instruction: one of the three `BuiltinString` entry points
or a function of the module. -/
inductive Callee
  | createFunc
  | concatFunc
  | equalsFunc
  | function (index : Nat)
  deriving DecidableEq, Repr

/-- Instructions the generator creates. -/
inductive Instruction
  | alloca (type : LLVMType) (align : Option Nat)
  | store (value pointer : LLVMValue)
  | load (pointer : LLVMValue)
  | call (callee : Callee) (args : List LLVMValue)
  | neg (operand : LLVMValue)
  | binary (op : BinaryOp) (lhs rhs : LLVMValue)
  | br (dest : Nat)
  | condBr (cond : LLVMValue) (ifTrue ifFalse : Nat)
  | ret (value : LLVMValue)
  | retVoid
  deriving DecidableEq, Repr

/-- Branches and returns end a block. -/
def Instruction.isTerminator : Instruction → Bool
  | .br _ => true
  | .condBr _ _ _ => true
  | .ret _ => true
  | .retVoid => true
  | _ => false

/-- Whether the instruction has basic block `bb` among its operands. -/
def Instruction.usesBlock (bb : Nat) : Instruction → Bool
  | .br dest => dest == bb
  | .condBr _ ifTrue ifFalse => ifTrue == bb || ifFalse == bb
  | _ => false

/-- A basic block: `parent` is `getParent()`, `insts` pairs every instruction
with its number, `erased` records `delete bb`. -/
structure LLVMBasicBlock where
  name : String
  parent : Option Nat
  insts : List (Nat × Instruction)
  erased : Bool
  deriving DecidableEq, Repr

/-- A function of the module with its `getBasicBlockList()`. -/
structure LLVMFunction where
  name : String
  returnType : LLVMType
  argTypes : List LLVMType
  blocks : List Nat
  deriving DecidableEq, Repr

/-- A global variable of the module. -/
structure LLVMGlobalVariable where
  name : String
  type : LLVMType
  isConstant : Bool
  initializer : LLVMValue
  alignment : Option Nat
  deriving DecidableEq, Repr

/-- Block handles a `WhileStmtNode` or `ForStmtNode` carries once visited; a
handle is null until the visitor assigns it. -/
structure IterationStmtNode where
  isWhile : Bool
  condBB : Option Nat
  updateBB : Option Nat
  endBB : Option Nat
  deriving DecidableEq, Repr

/-- Ways a visitor can fail: the four `CodeGenException`s the source throws, and
`undefinedBehaviour` for a null pointer dereference or an invalid cast. -/
inductive Failure
  | undefinedFunction
  | argumentCountMismatch
  | unsupportedUnaryOperator
  | unsupportedBinaryOperator
  | undefinedBehaviour
  deriving DecidableEq, Repr

/-- The generator: module contents, builder insertion point, current and entry
function, and the annotations written onto declaration and loop nodes.
`lastUnique` is the counter from which the module's symbol table takes the
suffix of a value it has to rename. -/
structure IRGenerator where
  functions : List LLVMFunction
  globals : List LLVMGlobalVariable
  blocks : List LLVMBasicBlock
  detached : List (Nat × Instruction)
  insertBlock : Option Nat
  curFn : Nat
  mainFn : Nat
  nextValue : Nat
  declCode : List (Nat × LLVMValue)
  iterationStmts : List (Nat × IterationStmtNode)
  lastUnique : Nat
  deriving DecidableEq, Repr

/-! ## Builder primitives -/

/-- Replace the element at position `n` by its image under `f`. -/
def updateAt {α : Type} (f : α → α) : Nat → List α → List α
  | _, [] => []
  | 0, x :: xs => f x :: xs
  | n + 1, x :: xs => x :: updateAt f n xs

/-- First entry stored under `key` in an association list. -/
def lookup {α : Type} (key : Nat) : List (Nat × α) → Option α
  | [] => none
  | (k, v) :: rest => if k = key then some v else lookup key rest

namespace IRGenerator

/-- Instructions of block `bb` (empty when there is no such block). -/
def instsOf (g : IRGenerator) (bb : Nat) : List (Nat × Instruction) :=
  match g.blocks[bb]? with
  | some b => b.insts
  | none => []

/-- The instruction stream new instructions are appended to: the block under
the insertion point, or the detached instructions when it is cleared. -/
def stream (g : IRGenerator) : List (Nat × Instruction) :=
  match g.insertBlock with
  | some bb => g.instsOf bb
  | none => g.detached

/-- Result of `bb->getTerminator()`: the last instruction of the block when it
is a terminator. -/
def getTerminator (g : IRGenerator) (bb : Nat) : Option Instruction :=
  match (g.instsOf bb).getLast? with
  | some (_, i) => if i.isTerminator then some i else none
  | none => none

/-- Result of `bb->use_empty()`: no instruction in existence names `bb`. -/
def useEmpty (g : IRGenerator) (bb : Nat) : Bool :=
  !(g.blocks.any (fun b => b.insts.any (fun i => i.2.usesBlock bb))
    || g.detached.any (fun i => i.2.usesBlock bb))

/-- The builder's `Insert`: number the instruction, append it at the insertion
point, and return it as a value. -/
def insert (g : IRGenerator) (i : Instruction) : IRGenerator × LLVMValue :=
  match g.insertBlock with
  | some bb =>
    ({ g with
        blocks := updateAt (fun b => { b with insts := b.insts ++ [(g.nextValue, i)] }) bb g.blocks,
        nextValue := g.nextValue + 1 },
     .instruction g.nextValue)
  | none =>
    ({ g with detached := g.detached ++ [(g.nextValue, i)], nextValue := g.nextValue + 1 },
     .instruction g.nextValue)

/-- Builder call `CreateNSWNeg`: folded on a constant operand. -/
def createNeg (g : IRGenerator) (v : LLVMValue) : IRGenerator × LLVMValue :=
  if v.isConstant then (g, .constantNeg v) else g.insert (.neg v)

/-- Builder calls `CreateNSWAdd` ... `CreateICmpNE`: folded when both operands
are constants. -/
def createBinary (g : IRGenerator) (op : BinaryOp) (lhs rhs : LLVMValue) :
    IRGenerator × LLVMValue :=
  if lhs.isConstant && rhs.isConstant then (g, .constantBinary op lhs rhs)
  else g.insert (.binary op lhs rhs)

/-- Whether the insertion point lies in a block that belongs to a function; the
builder reaches the module through it (`BB->getParent()->getParent()`). -/
def insertModule (g : IRGenerator) : Bool :=
  match g.insertBlock with
  | some bb =>
    match g.blocks[bb]? with
    | some b => b.parent.isSome
    | none => false
  | none => false

/-- Builder call `CreateAlloca(type)`: reads the module's data layout through
the insertion block, then inserts an alloca whose alignment is the one the
data layout prefers for `type`. -/
def createAlloca (g : IRGenerator) (type : LLVMType) : Except Failure (IRGenerator × LLVMValue) :=
  if g.insertModule then .ok (g.insert (.alloca type (some type.prefTypeAlign)))
  else .error .undefinedBehaviour

/-- Builder call `CreateGlobalString(str)`: adds a private, unnamed constant
byte array (the bytes of `str` and a terminating zero) to the module reached
through the insertion block. -/
def createGlobalString (g : IRGenerator) (str : String) : Except Failure (IRGenerator × LLVMValue) :=
  if g.insertModule then
    .ok ({ g with
            globals := g.globals ++
              [{ name := "", type := .arrayTy (str.utf8ByteSize + 1), isConstant := true,
                 initializer := .constantDataArray str, alignment := some 1 }] },
         .globalVariable g.globals.length)
  else .error .undefinedBehaviour

/-- Names that values of the module hold in its symbol table: those of the
functions and of the named global variables. -/
def valueNames (g : IRGenerator) : List String :=
  (g.functions.map (fun f => f.name) ++ g.globals.map (fun v => v.name)).filter
    (fun n => n != "")

/-- The loop of `ValueSymbolTable::makeUniqueName` for a global value: the
counter is advanced, and `name`, a dot and the counter are tried until no
value holds the result.  The loop is bounded by `tries`, the number of names
held: after that many candidates that are held, the next one cannot be. -/
def makeUniqueName (taken : List String) (name : String) : Nat → Nat → String × Nat
  | 0, lastUnique => (name ++ "." ++ toString (lastUnique + 1), lastUnique + 1)
  | tries + 1, lastUnique =>
    if name ++ "." ++ toString (lastUnique + 1) ∈ taken then
      makeUniqueName taken name tries (lastUnique + 1)
    else (name ++ "." ++ toString (lastUnique + 1), lastUnique + 1)

/-- The name under which the symbol table enters a new global value that asks
for `name`, and the counter afterwards: `name` itself when no value of the
module holds it, otherwise the name `makeUniqueName` finds. -/
def uniqueName (g : IRGenerator) (name : String) : String × Nat :=
  if name ∈ g.valueNames then makeUniqueName g.valueNames name g.valueNames.length g.lastUnique
  else (name, g.lastUnique)

/-- Module call `LLVMFunction::Create(type, ExternalLinkage, name, module)`:
the function is appended to the module.  It keeps `name` when no value of
the module holds it; otherwise the symbol table renames the new function. -/
def createFunction (g : IRGenerator) (name : String) (returnType : LLVMType)
    (argTypes : List LLVMType) : IRGenerator × Nat :=
  ({ g with
      functions := g.functions ++
        [{ name := (g.uniqueName name).1, returnType := returnType, argTypes := argTypes,
           blocks := [] }],
      lastUnique := (g.uniqueName name).2 },
   g.functions.length)

/-- Module lookup `llvmModule->getFunction(name)`: position of the function
that holds `name`.  A function that was renamed when it was created does not
hold the name it was declared with. -/
def getFunction (g : IRGenerator) (name : String) : Option Nat :=
  let i := g.functions.findIdx (fun f => f.name == name)
  if i < g.functions.length then some i else none

/-- Number of formal parameters, `arg_size()`, of function `f`. -/
def argSize (g : IRGenerator) (f : Nat) : Nat :=
  match g.functions[f]? with
  | some fn => fn.argTypes.length
  | none => 0

/-- The `code` annotation of the declaration node `decl`. -/
def codeOf (g : IRGenerator) (decl : Nat) : Option LLVMValue :=
  lookup decl g.declCode

/-- Assignment `decl->code = v`. -/
def setCode (g : IRGenerator) (decl : Nat) (v : LLVMValue) : IRGenerator :=
  { g with declCode := (decl, v) :: g.declCode }

end IRGenerator

/-- Source function `IRGenerator::getType`. -/
def getType : Option BuiltinTypeNode → LLVMType
  | some .boolean => .int1Ty
  | some .integer => .int64Ty
  | some .string => .stringTy
  | none => .voidTy

/-- All values of a list of `code` annotations, or `none` if one is null. -/
def allCodes : List (Option LLVMValue) → Option (List LLVMValue)
  | [] => some []
  | none :: _ => none
  | some v :: rest =>
    match allCodes rest with
    | some vs => some (v :: vs)
    | none => none

/-! ## Expressions -/

/-- Expression nodes.  Every node carries `inferType`, the static type the
upstream pass annotated; an identifier carries `refVarDecl`, the declaration
node it was resolved to. -/
inductive ExprNode
  | booleanLiteral (inferType : Option BuiltinTypeNode) (literal : Bool)
  | integerLiteral (inferType : Option BuiltinTypeNode) (literal : Int)
  | stringLiteral (inferType : Option BuiltinTypeNode) (literal : String)
  | identifier (inferType : Option BuiltinTypeNode) (refVarDecl : Nat)
  | call (inferType : Option BuiltinTypeNode) (calleeName : String) (args : List ExprNode)
  | unaryOperator (inferType : Option BuiltinTypeNode) (opCode : Nat) (subExpr : ExprNode)
  | binaryOperator (inferType : Option BuiltinTypeNode) (opCode : Nat) (lhs rhs : ExprNode)
  deriving Repr

/-- The annotation `expr->inferType`. -/
def ExprNode.inferType : ExprNode → Option BuiltinTypeNode
  | .booleanLiteral ty _ => ty
  | .integerLiteral ty _ => ty
  | .stringLiteral ty _ => ty
  | .identifier ty _ => ty
  | .call ty _ _ => ty
  | .unaryOperator ty _ _ => ty
  | .binaryOperator ty _ _ _ => ty

/-- Whether `dynPtrCast<LiteralExprNode>` succeeds on the node: the boolean,
integer and string literal nodes are the literal expressions. -/
def ExprNode.isLiteral : ExprNode → Bool
  | .booleanLiteral _ _ => true
  | .integerLiteral _ _ => true
  | .stringLiteral _ _ => true
  | _ => false

/-- A native two-operand instruction on the operands' `code`, as in
`bopExpr->code = llvmIRBuilder.CreateNSWSub(bopExpr->lhs->code, bopExpr->rhs->code)`. -/
def nativeOperation (g : IRGenerator) (op : BinaryOp) (lhs rhs : Option LLVMValue) :
    Except Failure (IRGenerator × Option LLVMValue) :=
  match lhs, rhs with
  | some a, some b => .ok ((g.createBinary op a b).1, some (g.createBinary op a b).2)
  | _, _ => .error .undefinedBehaviour

/-- The string branch of `Plus`: a call of `BuiltinString::concatFunc` on the
operands' `code`. -/
def concatOperation (g : IRGenerator) (lhs rhs : Option LLVMValue) :
    Except Failure (IRGenerator × Option LLVMValue) :=
  match lhs, rhs with
  | some a, some b =>
    .ok ((g.insert (.call .concatFunc [a, b])).1, some (g.insert (.call .concatFunc [a, b])).2)
  | _, _ => .error .undefinedBehaviour

/-- The string branch of `Equals` and `NotEquals`: a call of
`BuiltinString::equalsFunc` whose result is compared with the 32-bit zero. -/
def equalsOperation (g : IRGenerator) (op : BinaryOp) (lhs rhs : Option LLVMValue) :
    Except Failure (IRGenerator × Option LLVMValue) :=
  match lhs, rhs with
  | some a, some b =>
    let relationship := g.insert (.call .equalsFunc [a, b])
    .ok ((relationship.1.createBinary op relationship.2 (.constantInt .int32Ty 0)).1,
         some (relationship.1.createBinary op relationship.2 (.constantInt .int32Ty 0)).2)
  | _, _ => .error .undefinedBehaviour

/-- The part of the switch in `visit(BinaryOperatorExprNode)` after `Assign`:
given the operands' `code`, create the operation.  `Plus` on a left type that
is neither string nor integer creates nothing and leaves the node's `code`
null. -/
def binaryOperation (t : StaticScriptLexer) (g : IRGenerator) (opCode : Nat)
    (leftType : Option BuiltinTypeNode) (lhs rhs : Option LLVMValue) :
    Except Failure (IRGenerator × Option LLVMValue) :=
  if opCode = t.Plus then
    if leftType = some .string then concatOperation g lhs rhs
    else if leftType = some .integer then nativeOperation g .nswAdd lhs rhs
    else .ok (g, none)
  else if opCode = t.Minus then nativeOperation g .nswSub lhs rhs
  else if opCode = t.Multiply then nativeOperation g .nswMul lhs rhs
  else if opCode = t.Divide then nativeOperation g .sdiv lhs rhs
  else if opCode = t.LessThan then nativeOperation g .icmpSLT lhs rhs
  else if opCode = t.GreaterThan then nativeOperation g .icmpSGT lhs rhs
  else if opCode = t.LessThanEquals then nativeOperation g .icmpSLE lhs rhs
  else if opCode = t.GreaterThanEquals then nativeOperation g .icmpSGE lhs rhs
  else if opCode = t.Equals then
    if leftType = some .string then equalsOperation g .icmpEQ lhs rhs
    else nativeOperation g .icmpEQ lhs rhs
  else if opCode = t.NotEquals then
    if leftType = some .string then equalsOperation g .icmpNE lhs rhs
    else nativeOperation g .icmpNE lhs rhs
  else .error .unsupportedBinaryOperator

mutual
/-- The expression visitors of `IRGenerator`, dispatched on the node kind as
`accept` does.  The result is the generator after the visit and the node's
`code`.  Where the source calls `ASTVisitor::visit(node)` the children are
visited in source order. -/
def visitExpr (t : StaticScriptLexer) (g : IRGenerator) :
    ExprNode → Except Failure (IRGenerator × Option LLVMValue)
  | .booleanLiteral _ literal =>
    .ok (g, some (.constantInt .int1Ty (if literal then 1 else 0)))
  | .integerLiteral _ literal =>
    .ok (g, some (.constantInt .int64Ty literal))
  | .stringLiteral _ literal =>
    match g.createGlobalString literal with
    | .error e => .error e
    | .ok (g1, lit) =>
      let r := g1.insert (.call .createFunc [.constantCast lit .int8PtrTy])
      .ok (r.1, some r.2)
  | .identifier _ refVarDecl =>
    match g.codeOf refVarDecl with
    | none => .error .undefinedBehaviour
    | some ptr => let r := g.insert (.load ptr); .ok (r.1, some r.2)
  | .call _ calleeName args =>
    match visitExprs t g args with
    | .error e => .error e
    | .ok (g1, codes) =>
      match g1.getFunction calleeName with
      | none => .error .undefinedFunction
      | some calleeFunc =>
        if g1.argSize calleeFunc ≠ args.length then .error .argumentCountMismatch
        else
          match allCodes codes with
          | none => .error .undefinedBehaviour
          | some argsV =>
            let r := g1.insert (.call (.function calleeFunc) argsV)
            .ok (r.1, some r.2)
  | .unaryOperator _ opCode subExpr =>
    match visitExpr t g subExpr with
    | .error e => .error e
    | .ok (g1, code) =>
      if opCode = t.Minus then
        match code with
        | none => .error .undefinedBehaviour
        | some v => let r := g1.createNeg v; .ok (r.1, some r.2)
      else .error .unsupportedUnaryOperator
  | .binaryOperator _ opCode lhs rhs =>
    let operands : Except Failure (IRGenerator × Option LLVMValue × Option LLVMValue) :=
      if 22 ≤ opCode ∧ opCode ≤ 31 then
        match visitExpr t g lhs with
        | .error e => .error e
        | .ok (g1, lcode) =>
          match visitExpr t g1 rhs with
          | .error e => .error e
          | .ok (g2, rcode) => .ok (g2, lcode, rcode)
      else .ok (g, none, none)
    match operands with
    | .error e => .error e
    | .ok (g2, lcode, rcode) =>
      if opCode = t.Assign then
        match visitExpr t g2 rhs with
        | .error e => .error e
        | .ok (g3, rcode3) =>
          match lhs with
          | .identifier _ refVarDecl =>
            match rcode3, g3.codeOf refVarDecl with
            | some v, some ptr => .ok ((g3.insert (.store v ptr)).1, none)
            | _, _ => .error .undefinedBehaviour
          | _ => .error .undefinedBehaviour
      else binaryOperation t g2 opCode lhs.inferType lcode rcode
/-- Modelled from the spec: `ASTVisitor::visit` is declared outside the sources
at hand; on a list of child expressions (`args`, `initExprs`, `updates`) it
visits them in source order.  The result collects each node's `code`. -/
def visitExprs (t : StaticScriptLexer) (g : IRGenerator) :
    List ExprNode → Except Failure (IRGenerator × List (Option LLVMValue))
  | [] => .ok (g, [])
  | e :: es =>
    match visitExpr t g e with
    | .error err => .error err
    | .ok (g1, code) =>
      match visitExprs t g1 es with
      | .error err => .error err
      | .ok (g2, codes) => .ok (g2, code :: codes)
end

/-! ## Block splicing -/

/-- Insert `bb` right after `curBB` in a block list. -/
def insertAfter (curBB bb : Nat) : List Nat → List Nat
  | [] => []
  | x :: xs => if x = curBB then x :: bb :: xs else x :: insertAfter curBB bb xs

namespace IRGenerator

/-- Modelled from the spec: `createBasicBlock(name, parent)` is declared outside
the sources at hand; blocks are created in advance, detached unless a parent
function is given, in which case the block is appended to that function. -/
def createBasicBlock (g : IRGenerator) (name : String) (parent : Option Nat) :
    IRGenerator × Nat :=
  let bb := g.blocks.length
  let blocks := g.blocks ++ [{ name := name, parent := parent, insts := [], erased := false }]
  match parent with
  | none => ({ g with blocks := blocks }, bb)
  | some f =>
    ({ g with
        blocks := blocks,
        functions := updateAt (fun fn => { fn with blocks := fn.blocks ++ [bb] }) f g.functions },
     bb)

/-- Modelled from the spec: `setFuncInsertPoint(func)` is declared outside the
sources at hand; it resets the build cursor (current function, current open
block) to the end of the function's current block, taken to be the last block
of the function since the function is all the call is given. -/
def setFuncInsertPoint (g : IRGenerator) (func : Nat) : Except Failure IRGenerator :=
  match g.functions[func]? with
  | none => .error .undefinedBehaviour
  | some fn =>
    match fn.blocks.getLast? with
    | none => .error .undefinedBehaviour
    | some bb => .ok { g with curFn := func, insertBlock := some bb }

/-- Source function `IRGenerator::emitBranch`. -/
def emitBranch (g : IRGenerator) (targetBB : Nat) : IRGenerator :=
  let g1 :=
    match g.insertBlock with
    | none => g
    | some curBB =>
      if (g.getTerminator curBB).isSome then g else (g.insert (.br targetBB)).1
  { g1 with insertBlock := none }

/-- Whether `curBB && curBB->getParent()` holds. -/
def hasParent (g : IRGenerator) (curBB : Option Nat) : Bool :=
  match curBB with
  | none => false
  | some c =>
    match g.blocks[c]? with
    | some b => b.parent.isSome
    | none => false

/-- Source function `IRGenerator::emitBlock`.  `insertAfter` links `bb` behind
`curBB` in the list that holds `curBB`; `push_back` appends to `curFn`; either
way `bb` becomes a block of `curFn`. -/
def emitBlock (g : IRGenerator) (bb : Nat) (isFinished : Bool) : IRGenerator :=
  let curBB := g.insertBlock
  let g1 := g.emitBranch bb
  if isFinished && g1.useEmpty bb then
    { g1 with blocks := updateAt (fun b => { b with erased := true }) bb g1.blocks }
  else
    let functions :=
      match curBB with
      | some c =>
        if g1.hasParent curBB then
          g1.functions.map (fun fn => { fn with blocks := insertAfter c bb fn.blocks })
        else updateAt (fun fn => { fn with blocks := fn.blocks ++ [bb] }) g1.curFn g1.functions
      | none => updateAt (fun fn => { fn with blocks := fn.blocks ++ [bb] }) g1.curFn g1.functions
    { g1 with
        functions := functions,
        blocks := updateAt (fun b => { b with parent := some g1.curFn }) bb g1.blocks,
        insertBlock := some bb }

/-- Write the block handles of the loop node `node`. -/
def setIteration (g : IRGenerator) (node : Nat) (it : IterationStmtNode) : IRGenerator :=
  { g with iterationStmts := (node, it) :: g.iterationStmts }

end IRGenerator

/-! ## Declarations -/

/-- Variable declaration node: `id` identifies the node (identifiers refer to
it), `isTopLevel` is `scope->isTopLevel()`. -/
structure VarDeclNode where
  id : Nat
  name : String
  type : BuiltinTypeNode
  initVal : Option ExprNode
  isTopLevel : Bool
  deriving Repr

/-- Parameter declaration node. -/
structure ParmVarDeclNode where
  id : Nat
  name : String
  type : BuiltinTypeNode
  deriving Repr

/-- The cast `LLVMCast<LLVMConstantInt>(code)`, which is only defined on an
integer constant. -/
def castConstantInt : Option LLVMValue → Except Failure LLVMValue
  | some (.constantInt type value) => .ok (.constantInt type value)
  | _ => .error .undefinedBehaviour

/-- Source function `IRGenerator::visit(VarDeclNode)`.  The call of
`ASTVisitor::visit(varDecl)` visits the initial value when there is one;
`initCode` is then `varDecl->initVal->code`. -/
def visitVarDecl (t : StaticScriptLexer) (g : IRGenerator) (varDecl : VarDeclNode) :
    Except Failure IRGenerator :=
  let visited : Except Failure (IRGenerator × Option LLVMValue) :=
    match varDecl.initVal with
    | some e => visitExpr t g e
    | none => .ok (g, none)
  match visited with
  | .error e => .error e
  | .ok (g1, initCode) =>
    let type := getType (some varDecl.type)
    let hasInitVal := varDecl.initVal.isSome
    if varDecl.isTopLevel then
      let isLiteralInit :=
        match varDecl.initVal with
        | some e => e.isLiteral
        | none => false
      let isStringVar := decide (varDecl.type = .string)
      let initializer : Except Failure LLVMValue :=
        if isStringVar then .ok (.constantPointerNull type)
        else if isLiteralInit then castConstantInt initCode
        else .ok (.constantInt type 0)
      match initializer with
      | .error e => .error e
      | .ok init =>
        let gVar := LLVMValue.globalVariable g1.globals.length
        let alignment := if varDecl.type = .boolean then 1 else 8
        let g2 : IRGenerator := { g1 with
          globals := g1.globals ++
            [{ name := varDecl.name, type := type, isConstant := false,
               initializer := init, alignment := some alignment }] }
        if isStringVar || (hasInitVal && !isLiteralInit) then
          match varDecl.initVal, initCode with
          | some _, some v => .ok (((g2.insert (.store v gVar)).1).setCode varDecl.id gVar)
          | _, _ => .error .undefinedBehaviour
        else .ok (g2.setCode varDecl.id gVar)
    else
      match g1.createAlloca type with
      | .error e => .error e
      | .ok (g2, alloca) =>
        if hasInitVal then
          match initCode with
          | some v => .ok (((g2.insert (.store v alloca)).1).setCode varDecl.id alloca)
          | none => .error .undefinedBehaviour
        else .ok (g2.setCode varDecl.id alloca)

/-- Modelled from the spec: `ASTVisitor::visit(VarDeclStmtNode)` is declared
outside the sources at hand; it visits the declarations of the statement in
source order. -/
def visitVarDecls (t : StaticScriptLexer) (g : IRGenerator) :
    List VarDeclNode → Except Failure IRGenerator
  | [] => .ok g
  | d :: ds =>
    match visitVarDecl t g d with
    | .error e => .error e
    | .ok g1 => visitVarDecls t g1 ds

/-- Visit expressions in order, as `visitExprs` does, keeping only the
generator. -/
def visitExprList (t : StaticScriptLexer) (g : IRGenerator) (es : List ExprNode) :
    Except Failure IRGenerator :=
  match visitExprs t g es with
  | .error e => .error e
  | .ok (g1, _) => .ok g1

/-! ## Statements -/

/-- Statement nodes.  The loop nodes carry an `id`; `break` and `continue`
carry `refIterationStmt`, the loop node the upstream pass bound them to (or
`none` for a null reference).  A function declaration statement carries the
fields of its `FunctionDeclNode`. -/
inductive StmtNode
  | exprStmt (expr : ExprNode)
  | compoundStmt (childStmts : List StmtNode)
  | varDeclStmt (childVarDecls : List VarDeclNode)
  | functionDeclStmt (name : String) (params : List ParmVarDeclNode)
      (returnType : Option BuiltinTypeNode) (body : StmtNode)
  | ifStmt (condition : ExprNode) (thenBody : StmtNode) (elseBody : Option StmtNode)
  | whileStmt (id : Nat) (condition : ExprNode) (body : StmtNode)
  | forStmt (id : Nat) (initVarStmt : Option (List VarDeclNode)) (initExprs : List ExprNode)
      (condition : Option ExprNode) (updates : List ExprNode) (body : StmtNode)
  | continueStmt (refIterationStmt : Option Nat)
  | breakStmt (refIterationStmt : Option Nat)
  | returnStmt (returnExpr : Option ExprNode)
  deriving Repr

/-- Builder call `CreateCondBr(code, ifTrue, ifFalse)` on a condition's `code`. -/
def createCondBr (g : IRGenerator) (code : Option LLVMValue) (ifTrue ifFalse : Nat) :
    Except Failure IRGenerator :=
  match code with
  | some c => .ok (g.insert (.condBr c ifTrue ifFalse)).1
  | none => .error .undefinedBehaviour

/-- Builder call `CreateBr(dest)` on a block handle read from a loop node. -/
def createBr (g : IRGenerator) (dest : Option Nat) : Except Failure IRGenerator :=
  match dest with
  | some bb => .ok (g.insert (.br bb)).1
  | none => .error .undefinedBehaviour

/-- Source function `IRGenerator::visit(ContinueStmtNode)`. -/
def visitContinue (g : IRGenerator) (refIterationStmt : Option Nat) : Except Failure IRGenerator :=
  match refIterationStmt with
  | none => .error .undefinedBehaviour
  | some node =>
    match lookup node g.iterationStmts with
    | none => .error .undefinedBehaviour
    | some it =>
      if it.isWhile then createBr g it.condBB
      else
        match it.updateBB with
        | some updateBB => createBr g (some updateBB)
        | none => createBr g it.condBB

/-- Source function `IRGenerator::visit(BreakStmtNode)`. -/
def visitBreak (g : IRGenerator) (refIterationStmt : Option Nat) : Except Failure IRGenerator :=
  match refIterationStmt with
  | none => .error .undefinedBehaviour
  | some node =>
    match lookup node g.iterationStmts with
    | none => .error .undefinedBehaviour
    | some it => createBr g it.endBB

/-- Source function `IRGenerator::visit(ReturnStmtNode)`.  A null `code`
handed to `CreateRet` makes a void return. -/
def visitReturn (t : StaticScriptLexer) (g : IRGenerator) (returnExpr : Option ExprNode) :
    Except Failure IRGenerator :=
  match returnExpr with
  | none => .ok (g.insert .retVoid).1
  | some e =>
    match visitExpr t g e with
    | .error err => .error err
    | .ok (g1, some v) => .ok (g1.insert (.ret v)).1
    | .ok (g1, none) => .ok (g1.insert .retVoid).1

/-- Block handles of an `IfStmtNode`. -/
structure IfBlocks where
  thenBB : Nat
  elseBB : Nat
  endBB : Nat
  deriving DecidableEq, Repr

/-- The part of `IRGenerator::visit(IfStmtNode)` before the then-body: visit the
condition, create the blocks, branch on the condition and open `if.then`. -/
def ifHead (t : StaticScriptLexer) (g : IRGenerator) (condition : ExprNode) (hasElse : Bool) :
    Except Failure (IRGenerator × IfBlocks) :=
  match visitExpr t g condition with
  | .error e => .error e
  | .ok (g1, code) =>
    let thenBB := g1.createBasicBlock "if.then" none
    let endBB := thenBB.1.createBasicBlock "if.end" none
    let elseBB := if hasElse then endBB.1.createBasicBlock "if.else" none else endBB
    match createCondBr elseBB.1 code thenBB.2 elseBB.2 with
    | .error e => .error e
    | .ok g2 =>
      .ok (g2.emitBlock thenBB.2 false,
           { thenBB := thenBB.2, elseBB := elseBB.2, endBB := endBB.2 })

/-- Block handles of a loop node. -/
structure LoopBlocks where
  condBB : Nat
  updateBB : Option Nat
  endBB : Nat
  deriving DecidableEq, Repr

/-- The part of `IRGenerator::visit(WhileStmtNode)` before the body. -/
def whileHead (t : StaticScriptLexer) (g : IRGenerator) (id : Nat) (condition : ExprNode) :
    Except Failure (IRGenerator × LoopBlocks) :=
  let condBB := g.createBasicBlock "while.cond" none
  let bodyBB := condBB.1.createBasicBlock "while.body" none
  let endBB := bodyBB.1.createBasicBlock "while.end" none
  let g1 := endBB.1.setIteration id
    { isWhile := true, condBB := some condBB.2, updateBB := none, endBB := some endBB.2 }
  match visitExpr t (g1.emitBlock condBB.2 false) condition with
  | .error e => .error e
  | .ok (g2, code) =>
    match createCondBr g2 code bodyBB.2 endBB.2 with
    | .error e => .error e
    | .ok g3 =>
      .ok (g3.emitBlock bodyBB.2 false,
           { condBB := condBB.2, updateBB := none, endBB := endBB.2 })

/-- The part of `IRGenerator::visit(WhileStmtNode)` and of
`IRGenerator::visit(ForStmtNode)` after the body and the updates. -/
def loopTail (g : IRGenerator) (blocks : LoopBlocks) : IRGenerator :=
  (g.emitBranch blocks.condBB).emitBlock blocks.endBB true

/-- The part of `IRGenerator::visit(ForStmtNode)` before the body. -/
def forHead (t : StaticScriptLexer) (g : IRGenerator) (id : Nat)
    (initVarStmt : Option (List VarDeclNode)) (initExprs : List ExprNode)
    (condition : Option ExprNode) (updates : List ExprNode) :
    Except Failure (IRGenerator × LoopBlocks) :=
  let init : Except Failure IRGenerator :=
    match initVarStmt with
    | some decls => visitVarDecls t g decls
    | none => visitExprList t g initExprs
  match init with
  | .error e => .error e
  | .ok g1 =>
    let condBB := g1.createBasicBlock "for.cond" none
    let endBB := condBB.1.createBasicBlock "for.end" none
    let g2 := (endBB.1.setIteration id
      { isWhile := false, condBB := some condBB.2, updateBB := none, endBB := some endBB.2 }).emitBlock
        condBB.2 false
    let updateBB : IRGenerator × Option Nat :=
      if updates.isEmpty then (g2, none)
      else
        let bb := g2.createBasicBlock "for.update" none
        (bb.1.setIteration id
          { isWhile := false, condBB := some condBB.2, updateBB := some bb.2,
            endBB := some endBB.2 },
         some bb.2)
    let blocks : LoopBlocks := { condBB := condBB.2, updateBB := updateBB.2, endBB := endBB.2 }
    match condition with
    | some cond =>
      let bodyBB := updateBB.1.createBasicBlock "for.body" none
      match visitExpr t bodyBB.1 cond with
      | .error e => .error e
      | .ok (g3, code) =>
        match createCondBr g3 code bodyBB.2 endBB.2 with
        | .error e => .error e
        | .ok g4 => .ok (g4.emitBlock bodyBB.2 false, blocks)
    | none => .ok (updateBB.1, blocks)

/-- The part of `IRGenerator::visit(ForStmtNode)` after the body: open the
update block and visit the updates when there are any, then close the loop. -/
def forTail (t : StaticScriptLexer) (g : IRGenerator) (updates : List ExprNode)
    (blocks : LoopBlocks) : Except Failure IRGenerator :=
  if updates.isEmpty then .ok (loopTail g blocks)
  else
    match blocks.updateBB with
    | none => .error .undefinedBehaviour
    | some updateBB =>
      match visitExprList t (g.emitBlock updateBB false) updates with
      | .error e => .error e
      | .ok g1 => .ok (loopTail g1 blocks)

/-- The loop over `func->args()` in `IRGenerator::visit(FunctionDeclNode)`: a
stack slot per parameter, initialised from the incoming argument. -/
def paramAllocas (g : IRGenerator) (func : Nat) :
    Nat → List ParmVarDeclNode → Except Failure IRGenerator
  | _, [] => .ok g
  | i, p :: ps =>
    match g.createAlloca (getType (some p.type)) with
    | .error e => .error e
    | .ok (g1, paramAlloca) =>
      paramAllocas (((g1.insert (.store (.argument func i) paramAlloca)).1).setCode p.id paramAlloca)
        func (i + 1) ps

/-- The part of `IRGenerator::visit(FunctionDeclNode)` before the body: create
the function, make it current, open its entry block and spill the parameters. -/
def functionHead (g : IRGenerator) (name : String) (params : List ParmVarDeclNode)
    (returnType : Option BuiltinTypeNode) : Except Failure IRGenerator :=
  let func := g.createFunction name (getType returnType)
    (params.map (fun p => getType (some p.type)))
  let g1 : IRGenerator := { func.1 with curFn := func.2 }
  let entryBlock := g1.createBasicBlock "entry" (some func.2)
  paramAllocas { entryBlock.1 with insertBlock := some entryBlock.2 } func.2 0 params

/-- The part of `IRGenerator::visit(FunctionDeclNode)` after the body: with no
declared return type, read the terminator of the block under the insertion
point and append a void return when there is none. -/
def functionTail (g : IRGenerator) (returnType : Option BuiltinTypeNode) :
    Except Failure IRGenerator :=
  match returnType with
  | some _ => .ok g
  | none =>
    match g.insertBlock with
    | none => .error .undefinedBehaviour
    | some curBB =>
      if (g.getTerminator curBB).isSome then .ok g else .ok (g.insert .retVoid).1

mutual
/-- The statement visitors of `IRGenerator`, dispatched on the node kind as
`accept` does. -/
def visitStmt (t : StaticScriptLexer) (g : IRGenerator) : StmtNode → Except Failure IRGenerator
  | .exprStmt expr =>
    match visitExpr t g expr with
    | .error e => .error e
    | .ok (g1, _) => .ok g1
  | .compoundStmt childStmts => visitStmts t g childStmts
  | .varDeclStmt childVarDecls => visitVarDecls t g childVarDecls
  | .functionDeclStmt name params returnType body =>
    match functionHead g name params returnType with
    | .error e => .error e
    | .ok g1 =>
      match visitStmt t g1 body with
      | .error e => .error e
      | .ok g2 =>
        match functionTail g2 returnType with
        | .error e => .error e
        | .ok g3 => g3.setFuncInsertPoint g3.mainFn
  | .ifStmt condition thenBody elseBody =>
    match ifHead t g condition elseBody.isSome with
    | .error e => .error e
    | .ok (g1, blocks) =>
      match visitStmt t g1 thenBody with
      | .error e => .error e
      | .ok g2 =>
        match visitElse t (g2.emitBranch blocks.endBB) blocks elseBody with
        | .error e => .error e
        | .ok g3 => .ok (g3.emitBlock blocks.endBB true)
  | .whileStmt id condition body =>
    match whileHead t g id condition with
    | .error e => .error e
    | .ok (g1, blocks) =>
      match visitStmt t g1 body with
      | .error e => .error e
      | .ok g2 => .ok (loopTail g2 blocks)
  | .forStmt id initVarStmt initExprs condition updates body =>
    match forHead t g id initVarStmt initExprs condition updates with
    | .error e => .error e
    | .ok (g1, blocks) =>
      match visitStmt t g1 body with
      | .error e => .error e
      | .ok g2 => forTail t g2 updates blocks
  | .continueStmt refIterationStmt => visitContinue g refIterationStmt
  | .breakStmt refIterationStmt => visitBreak g refIterationStmt
  | .returnStmt returnExpr => visitReturn t g returnExpr
/-- The else part of `IRGenerator::visit(IfStmtNode)`: when there is an else
body, open `if.else`, visit the body and branch to `if.end`. -/
def visitElse (t : StaticScriptLexer) (g : IRGenerator) (blocks : IfBlocks) :
    Option StmtNode → Except Failure IRGenerator
  | none => .ok g
  | some body =>
    match visitStmt t (g.emitBlock blocks.elseBB false) body with
    | .error e => .error e
    | .ok g1 => .ok (g1.emitBranch blocks.endBB)
/-- Modelled from the spec: `ASTVisitor::visit` is declared outside the sources
at hand; on a module or compound statement it visits `childStmts` in source
order. -/
def visitStmts (t : StaticScriptLexer) (g : IRGenerator) :
    List StmtNode → Except Failure IRGenerator
  | [] => .ok g
  | s :: rest =>
    match visitStmt t g s with
    | .error e => .error e
    | .ok g1 => visitStmts t g1 rest
end

/-- The part of `IRGenerator::visit(ModuleNode)` before the walk: create the
entry function `main`, make it current and open its entry block. -/
def openMain (g : IRGenerator) : IRGenerator :=
  let mainFn := g.createFunction "main" .int64Ty []
  let g1 : IRGenerator := { mainFn.1 with mainFn := mainFn.2, curFn := mainFn.2 }
  let mainEntryBlock := g1.createBasicBlock "entry" (some mainFn.2)
  { mainEntryBlock.1 with insertBlock := some mainEntryBlock.2 }

/-- Source function `IRGenerator::visit(ModuleNode)`: open `main`, walk the
top-level statements, then reset the insertion point to `main` and return 0. -/
def visitModule (t : StaticScriptLexer) (g : IRGenerator) (childStmts : List StmtNode) :
    Except Failure IRGenerator :=
  match visitStmts t (openMain g) childStmts with
  | .error e => .error e
  | .ok g2 =>
    match g2.setFuncInsertPoint g2.mainFn with
    | .error e => .error e
    | .ok g3 => .ok (g3.insert (.ret (.constantInt .int64Ty 0))).1

/-- The generator right after `Builtin` has registered its declarations
`builtins` in a fresh module, before anything is visited. -/
def freshGenerator (builtins : List LLVMFunction) : IRGenerator :=
  { functions := builtins, globals := [], blocks := [], detached := [], insertBlock := none,
    curFn := 0, mainFn := 0, nextValue := 0, declCode := [], iterationStmts := [],
    lastUnique := 0 }

/-- Source function `IRGenerator::resolve`, up to verification and the
optimisation passes. -/
def resolve (t : StaticScriptLexer) (builtins : List LLVMFunction) (childStmts : List StmtNode) :
    Except Failure IRGenerator :=
  visitModule t (freshGenerator builtins) childStmts

/-! ## Predicates used in the statements -/

/-- The insertion point, when set, is a block that exists. -/
def IRGenerator.cursorValid (g : IRGenerator) : Bool :=
  match g.insertBlock with
  | some bb => decide (bb < g.blocks.length)
  | none => true

/-- The second generator is the first one after instructions were appended at
the insertion point and globals were added to the module: nothing else
differs. -/
structure Appends (g g1 : IRGenerator) : Prop where
  functions : g1.functions = g.functions
  insertBlock : g1.insertBlock = g.insertBlock
  curFn : g1.curFn = g.curFn
  mainFn : g1.mainFn = g.mainFn
  declCode : g1.declCode = g.declCode
  iterationStmts : g1.iterationStmts = g.iterationStmts
  blocksLength : g1.blocks.length = g.blocks.length
  globals : ∃ l, g1.globals = g.globals ++ l
  stream : g.cursorValid = true → ∃ l, g1.stream = g.stream ++ l
  others : ∀ b, g.insertBlock ≠ some b → g1.blocks[b]? = g.blocks[b]?

/-- The terminators among the instructions of block `bb`. -/
def IRGenerator.terminatorsOf (g : IRGenerator) (bb : Nat) : List Instruction :=
  ((g.instsOf bb).map (fun i => i.2)).filter (fun i => i.isTerminator)

/-- The generator in which a module's top-level statements are visited when
no builtin is registered: `main` exists and its empty entry block is open. -/
def mainOpened : IRGenerator :=
  openMain (freshGenerator [])

/-- The generator `mainOpened` of a module that already holds declarations of
a function `f` without parameters and a function `h` with two. -/
def mainOpenedWithF : IRGenerator :=
  openMain (freshGenerator
    [{ name := "f", returnType := .int64Ty, argTypes := [], blocks := [] },
     { name := "h", returnType := .int64Ty, argTypes := [.int64Ty, .int64Ty], blocks := [] }])

mutual
/-- The loop nodes inside a statement. -/
def StmtNode.loopIds : StmtNode → List Nat
  | .exprStmt _ => []
  | .compoundStmt childStmts => loopIdsList childStmts
  | .varDeclStmt _ => []
  | .functionDeclStmt _ _ _ body => body.loopIds
  | .ifStmt _ thenBody elseBody => thenBody.loopIds ++ loopIdsOption elseBody
  | .whileStmt id _ body => id :: body.loopIds
  | .forStmt id _ _ _ _ body => id :: body.loopIds
  | .continueStmt _ => []
  | .breakStmt _ => []
  | .returnStmt _ => []
/-- The loop nodes inside a list of statements. -/
def loopIdsList : List StmtNode → List Nat
  | [] => []
  | s :: rest => s.loopIds ++ loopIdsList rest
/-- The loop nodes inside an optional statement. -/
def loopIdsOption : Option StmtNode → List Nat
  | none => []
  | some s => s.loopIds
end

/-- The generator a successful visit returns (the fresh generator when the
visit fails). -/
def generatorOf {α : Type} : Except Failure (IRGenerator × α) → IRGenerator
  | .ok (g, _) => g
  | .error _ => freshGenerator []

/-- The literal `true`. -/
def trueLiteral : ExprNode :=
  .booleanLiteral (some .boolean) true

/-- The statement `while (true) { break; break; }`, the loop being node 0. -/
def whileBreakBreak : StmtNode :=
  .whileStmt 0 trueLiteral (.compoundStmt [.breakStmt (some 0), .breakStmt (some 0)])

/-- The generator `mainOpened` after the top-level declaration `boolean b;`
(declaration node 0) has been visited. -/
def mainWithGlobalB : IRGenerator :=
  { mainOpened with
      globals := [{ name := "b", type := .int1Ty, isConstant := false,
                    initializer := .constantInt .int1Ty 0, alignment := some 1 }],
      declCode := [(0, .globalVariable 0)] }

/-- The blocks of function `f` that hold a branch to `bb`. -/
def IRGenerator.predecessors (g : IRGenerator) (f bb : Nat) : List Nat :=
  match g.functions[f]? with
  | some fn => fn.blocks.filter (fun c => (g.instsOf c).any (fun i => i.2.usesBlock bb))
  | none => []

/-- The block list of function `f`. -/
def IRGenerator.blocksOf (g : IRGenerator) (f : Nat) : List Nat :=
  match g.functions[f]? with
  | some fn => fn.blocks
  | none => []

/-- The literal `1`. -/
def oneLiteral : ExprNode :=
  .integerLiteral (some .integer) 1

/-- The statement `while (true) { break; }`, the loop being node 0. -/
def whileBreak : StmtNode :=
  .whileStmt 0 trueLiteral (.compoundStmt [.breakStmt (some 0)])

/-- The statement `for (;;) { }`, the loop being node 0. -/
def forEver : StmtNode :=
  .forStmt 0 none [] none [] (.compoundStmt [])

/-- The declaration `function f() { if (true) { return; } else { return; } }`. -/
def functionIfElseReturn : StmtNode :=
  .functionDeclStmt "f" [] none
    (.compoundStmt [.ifStmt trueLiteral (.compoundStmt [.returnStmt none])
      (some (.compoundStmt [.returnStmt none]))])
/-- The generator a successful statement visit returns (the fresh generator
when the visit fails). -/
def resultOf : Except Failure IRGenerator → IRGenerator
  | .ok g => g
  | .error _ => freshGenerator []

/-- The declaration `function f() { }`. -/
def functionEmpty : StmtNode :=
  .functionDeclStmt "f" [] none (.compoundStmt [])

/-- The declaration `function f() { for (;;) { } }`, the loop being node 0. -/
def functionForEver : StmtNode :=
  .functionDeclStmt "f" [] none (.compoundStmt [forEver])

/-- The generator `mainOpened` after a void return was appended to the entry
block: the block under the insertion point has a terminator. -/
def mainReturned : IRGenerator :=
  (mainOpened.insert .retVoid).1

/-- The generator `mainOpened` after a detached block (block 1) was created. -/
def mainWithBlock : IRGenerator :=
  (mainOpened.createBasicBlock "if.then" none).1

/-- The generator `mainReturned` after a detached block (block 1) was created. -/
def mainReturnedWithBlock : IRGenerator :=
  (mainReturned.createBasicBlock "if.end" none).1

/-- The generator `mainOpened` after the local declaration `integer x;`
(declaration node 0): the stack slot of `x` is instruction 0. -/
def mainWithLocalX : IRGenerator :=
  resultOf (visitVarDecl sampleLexer mainOpened
    { id := 0, name := "x", type := .integer, initVal := none, isTopLevel := false })

/-- The expression `x = 5`, `x` being declaration node 0. -/
def assignX : ExprNode :=
  .binaryOperator (some .integer) sampleLexer.Assign (.identifier (some .integer) 0)
    (.integerLiteral (some .integer) 5)

/-- The parameter `a` of type integer (declaration node 1). -/
def paramA : ParmVarDeclNode :=
  { id := 1, name := "a", type := .integer }

/-- The basic blocks an instruction has as operands. -/
def Instruction.blockOperands : Instruction → List Nat
  | .br dest => [dest]
  | .condBr _ ifTrue ifFalse => [ifTrue, ifFalse]
  | _ => []

/-- The block handles a loop node holds. -/
def IterationStmtNode.handles (it : IterationStmtNode) : List Nat :=
  it.condBB.toList ++ it.updateBB.toList ++ it.endBB.toList

/-- Whether block `b` is in the block list of a function of the module. -/
def IRGenerator.listed (g : IRGenerator) (b : Nat) : Bool :=
  g.functions.any (fun fn => decide (b ∈ fn.blocks))

/-- Nothing in the generator names block `b`: no instruction has it as an
operand, no loop node holds it as a handle and no function lists it. -/
structure Unreferenced (g : IRGenerator) (b : Nat) : Prop where
  blocks : ∀ blk ∈ g.blocks, ∀ i ∈ blk.insts, i.2.usesBlock b = false
  detached : ∀ i ∈ g.detached, i.2.usesBlock b = false
  handles : ∀ p ∈ g.iterationStmts, b ∉ p.2.handles
  lists : ∀ fn ∈ g.functions, b ∉ fn.blocks

/-- The current function exists, and the block under the insertion point, when
there is one, is in a function's block list. -/
def IRGenerator.attached (g : IRGenerator) : Bool :=
  decide (g.curFn < g.functions.length) &&
    match g.insertBlock with
    | some c => g.listed c
    | none => true

/-- Every block an instruction, a loop node or a function's block list names
has been created, and the insertion point is `attached`. -/
def IRGenerator.wellFormed (g : IRGenerator) : Bool :=
  g.blocks.all (fun blk => blk.insts.all (fun i =>
    i.2.blockOperands.all (fun x => decide (x < g.blocks.length)))) &&
  g.detached.all (fun i => i.2.blockOperands.all (fun x => decide (x < g.blocks.length))) &&
  g.iterationStmts.all (fun p => p.2.handles.all (fun x => decide (x < g.blocks.length))) &&
  g.functions.all (fun fn => fn.blocks.all (fun x => decide (x < g.blocks.length))) &&
  g.attached

/-- The code under the insertion point has ended: there is no current block,
or the current block has a terminator. -/
def IRGenerator.cursorTerminated (g : IRGenerator) : Bool :=
  match g.insertBlock with
  | some curBB => (g.getTerminator curBB).isSome
  | none => true

/-- The second generator is the first one after visits that may have created
blocks and that name, in what they add, only blocks for which `touched` holds
and blocks the first generator names already: a block outside `touched` that
nothing names stays so.  Blocks stay in the block lists, and the insertion
point stays `attached`. -/
structure Touches (touched : Nat → Prop) (g g1 : IRGenerator) : Prop where
  blocksLength : g.blocks.length ≤ g1.blocks.length
  unreferenced : ∀ b, ¬ touched b → Unreferenced g b → Unreferenced g1 b
  listed : ∀ b, g.listed b = true → g1.listed b = true
  attached : g.attached = true → g1.attached = true

/-- The parameter `b` of type integer (declaration node 2). -/
def paramB : ParmVarDeclNode :=
  { id := 2, name := "b", type := .integer }

/-- The condition `a > b`, with `a` and `b` the declaration nodes 1 and 2. -/
def aGreaterB : ExprNode :=
  .binaryOperator (some .boolean) sampleLexer.GreaterThan
    (.identifier (some .integer) 1) (.identifier (some .integer) 2)

/-- The block `{ return 1; }`. -/
def returnOne : StmtNode :=
  .compoundStmt [.returnStmt (some oneLiteral)]

/-- The block `{ return 2; }`. -/
def returnTwo : StmtNode :=
  .compoundStmt [.returnStmt (some (.integerLiteral (some .integer) 2))]

/-- Scenario C, the statement `if (a > b) { return 1; } else { return 2; }`. -/
def ifElseReturn : StmtNode :=
  .ifStmt aGreaterB returnOne (some returnTwo)

/-- The generator inside `function f(a, b)` of an otherwise empty module,
before the body is visited: block 0 is the entry block of `main`, block 1 the
entry block of `f` (function 1). -/
def insideF : IRGenerator :=
  resultOf (functionHead mainOpened "f" [paramA, paramB] (some .integer))

/-- Whether a block holds a branch to `bb`: `bb` has an incoming edge. -/
def IRGenerator.hasIncomingEdge (g : IRGenerator) (bb : Nat) : Bool :=
  g.blocks.any (fun b => b.insts.any (fun i => i.2.usesBlock bb))

/-- The statement `for (;;) { for (;;) { } break; }`: the outer loop is node 0,
the inner loop node 1, and the break is bound to the outer loop. -/
def forForBreak : StmtNode :=
  .forStmt 0 none [] none []
    (.compoundStmt [.forStmt 1 none [] none [] (.compoundStmt []), .breakStmt (some 0)])

/-- The generator in which `for (;;) { for (;;) { } break; }`, lowered at the
start of the entry function, activates the end block of the outer loop (block
2): the body has been lowered and the branch back to the condition block has
been asked for. -/
def beforeSeal : IRGenerator :=
  (resultOf (visitStmt sampleLexer
    (generatorOf (forHead sampleLexer mainOpened 0 none [] none []))
    (.compoundStmt [.forStmt 1 none [] none [] (.compoundStmt []), .breakStmt (some 0)]))).emitBranch 1

mutual
/-- Whether a statement holds no nested control flow: it is an expression
statement, a variable declaration statement, a `break`, `continue` or `return`,
or a block of such statements. -/
def StmtNode.straight : StmtNode → Bool
  | .exprStmt _ => true
  | .compoundStmt childStmts => straightList childStmts
  | .varDeclStmt _ => true
  | .functionDeclStmt _ _ _ _ => false
  | .ifStmt _ _ _ => false
  | .whileStmt _ _ _ => false
  | .forStmt _ _ _ _ _ _ => false
  | .continueStmt _ => true
  | .breakStmt _ => true
  | .returnStmt _ => true
/-- Whether every statement of a list is `straight`. -/
def straightList : List StmtNode → Bool
  | [] => true
  | s :: rest => s.straight && straightList rest
end

/-- The second generator is the first one after instructions were inserted at
the insertion point (and globals or annotations added): no block was created,
the block lists, the current function and the insertion point are the same,
and every block other than the one under the insertion point is unchanged. -/
structure Inserts (g g1 : IRGenerator) : Prop where
  functions : g1.functions = g.functions
  insertBlock : g1.insertBlock = g.insertBlock
  curFn : g1.curFn = g.curFn
  blocksLength : g1.blocks.length = g.blocks.length
  others : ∀ b, g.insertBlock ≠ some b → g1.blocks[b]? = g.blocks[b]?

/-- The statement `if (a > b) { while (true) { } return 1; } else { return 2; }`,
the loop being node 0. -/
def ifWhileReturn : StmtNode :=
  .ifStmt aGreaterB
    (.compoundStmt [.whileStmt 0 trueLiteral (.compoundStmt []), .returnStmt (some oneLiteral)])
    (some returnTwo)

/-! ## Lemmas on the builder primitives -/

theorem updateAt_length {α : Type} (f : α → α) (n : Nat) (l : List α) :
    (updateAt f n l).length = l.length := by
  induction l generalizing n with
  | nil => cases n <;> rfl
  | cons x xs ih => cases n <;> simp [updateAt, ih]

theorem updateAt_getElem?_self {α : Type} (f : α → α) (n : Nat) (l : List α) :
    (updateAt f n l)[n]? = l[n]?.map f := by
  induction l generalizing n with
  | nil => cases n <;> rfl
  | cons x xs ih => cases n <;> simp [updateAt, ih]

theorem updateAt_getElem?_ne {α : Type} (f : α → α) (n m : Nat) (l : List α) (h : m ≠ n) :
    (updateAt f n l)[m]? = l[m]? := by
  induction l generalizing n m with
  | nil => cases n <;> rfl
  | cons x xs ih =>
    cases n with
    | zero =>
      cases m with
      | zero => exact absurd rfl h
      | succ m => simp [updateAt]
    | succ n =>
      cases m with
      | zero => simp [updateAt]
      | succ m => simpa [updateAt] using ih n m (by omega)

theorem IRGenerator.stream_insert (g : IRGenerator) (i : Instruction) (h : g.cursorValid = true) :
    (g.insert i).1.stream = g.stream ++ [(g.nextValue, i)] := by
  unfold IRGenerator.cursorValid at h
  unfold IRGenerator.insert IRGenerator.stream
  cases hb : g.insertBlock with
  | none => simp
  | some bb =>
    simp only [hb, decide_eq_true_eq] at h
    simp only [IRGenerator.instsOf, updateAt_getElem?_self]
    have : g.blocks[bb]? = some g.blocks[bb] := List.getElem?_eq_getElem h
    simp [this]

theorem IRGenerator.insert_snd (g : IRGenerator) (i : Instruction) :
    (g.insert i).2 = .instruction g.nextValue := by
  unfold IRGenerator.insert; cases g.insertBlock <;> rfl

theorem Appends.refl (g : IRGenerator) : Appends g g :=
  ⟨rfl, rfl, rfl, rfl, rfl, rfl, rfl, ⟨[], by simp⟩, fun _ => ⟨[], by simp⟩, fun _ _ => rfl⟩

theorem cursorValid_of_appends {g g1 : IRGenerator} (h : Appends g g1)
    (hv : g.cursorValid = true) : g1.cursorValid = true := by
  unfold IRGenerator.cursorValid at *
  rw [h.insertBlock, h.blocksLength]; exact hv

theorem Appends.trans {g g1 g2 : IRGenerator} (h1 : Appends g g1) (h2 : Appends g1 g2) :
    Appends g g2 where
  functions := h2.functions.trans h1.functions
  insertBlock := h2.insertBlock.trans h1.insertBlock
  curFn := h2.curFn.trans h1.curFn
  mainFn := h2.mainFn.trans h1.mainFn
  declCode := h2.declCode.trans h1.declCode
  iterationStmts := h2.iterationStmts.trans h1.iterationStmts
  blocksLength := h2.blocksLength.trans h1.blocksLength
  globals := by
    obtain ⟨l1, e1⟩ := h1.globals
    obtain ⟨l2, e2⟩ := h2.globals
    exact ⟨l1 ++ l2, by rw [e2, e1, List.append_assoc]⟩
  stream := fun hv => by
    obtain ⟨l1, e1⟩ := h1.stream hv
    obtain ⟨l2, e2⟩ := h2.stream (cursorValid_of_appends h1 hv)
    exact ⟨l1 ++ l2, by rw [e2, e1, List.append_assoc]⟩
  others := fun b hb => by
    rw [h2.others b (by rw [h1.insertBlock]; exact hb), h1.others b hb]

theorem IRGenerator.appends_insert (g : IRGenerator) (i : Instruction) :
    Appends g (g.insert i).1 where
  functions := by unfold IRGenerator.insert; cases g.insertBlock <;> rfl
  insertBlock := by unfold IRGenerator.insert; cases h : g.insertBlock <;> simp [h]
  curFn := by unfold IRGenerator.insert; cases g.insertBlock <;> rfl
  mainFn := by unfold IRGenerator.insert; cases g.insertBlock <;> rfl
  declCode := by unfold IRGenerator.insert; cases g.insertBlock <;> rfl
  iterationStmts := by unfold IRGenerator.insert; cases g.insertBlock <;> rfl
  blocksLength := by
    unfold IRGenerator.insert; cases g.insertBlock <;> simp [updateAt_length]
  globals := ⟨[], by unfold IRGenerator.insert; cases g.insertBlock <;> simp⟩
  stream := fun hv => ⟨_, g.stream_insert i hv⟩
  others := fun b hb => by
    unfold IRGenerator.insert
    cases h : g.insertBlock with
    | none => rfl
    | some bb =>
      have hne : b ≠ bb := by
        intro e; apply hb; rw [h, e]
      simp [updateAt_getElem?_ne _ _ _ _ hne]

theorem IRGenerator.appends_createBinary (g : IRGenerator) (op : BinaryOp) (a b : LLVMValue) :
    Appends g (g.createBinary op a b).1 := by
  unfold IRGenerator.createBinary; split
  · exact Appends.refl g
  · exact g.appends_insert _

theorem IRGenerator.appends_createNeg (g : IRGenerator) (a : LLVMValue) :
    Appends g (g.createNeg a).1 := by
  unfold IRGenerator.createNeg; split
  · exact Appends.refl g
  · exact g.appends_insert _

theorem IRGenerator.appends_createGlobalString (g g1 : IRGenerator) (s : String) (v : LLVMValue)
    (h : g.createGlobalString s = .ok (g1, v)) : Appends g g1 := by
  unfold IRGenerator.createGlobalString at h
  split at h
  · simp only [Except.ok.injEq, Prod.mk.injEq] at h
    obtain ⟨rfl, -⟩ := h
    exact ⟨rfl, rfl, rfl, rfl, rfl, rfl, rfl, ⟨_, rfl⟩, fun _ => ⟨[], by simp [IRGenerator.stream, IRGenerator.instsOf]⟩, fun _ _ => rfl⟩
  · exact absurd h (by simp)

theorem nativeOperation_appends (g g1 : IRGenerator) (op : BinaryOp)
    (a b : Option LLVMValue) (c : Option LLVMValue)
    (h : nativeOperation g op a b = .ok (g1, c)) : Appends g g1 := by
  unfold nativeOperation at h
  split at h
  · simp only [Except.ok.injEq, Prod.mk.injEq] at h
    obtain ⟨rfl, -⟩ := h
    exact g.appends_createBinary _ _ _
  · exact absurd h (by simp)

theorem concatOperation_appends (g g1 : IRGenerator)
    (a b : Option LLVMValue) (c : Option LLVMValue)
    (h : concatOperation g a b = .ok (g1, c)) : Appends g g1 := by
  unfold concatOperation at h
  split at h
  · simp only [Except.ok.injEq, Prod.mk.injEq] at h
    obtain ⟨rfl, -⟩ := h
    exact g.appends_insert _
  · exact absurd h (by simp)

theorem equalsOperation_appends (g g1 : IRGenerator) (op : BinaryOp)
    (a b : Option LLVMValue) (c : Option LLVMValue)
    (h : equalsOperation g op a b = .ok (g1, c)) : Appends g g1 := by
  unfold equalsOperation at h
  split at h
  · simp only [Except.ok.injEq, Prod.mk.injEq] at h
    obtain ⟨rfl, -⟩ := h
    exact (g.appends_insert _).trans (IRGenerator.appends_createBinary _ _ _ _)
  · exact absurd h (by simp)

theorem binaryOperation_cases (t : StaticScriptLexer) (g : IRGenerator) (op : Nat)
    (ty : Option BuiltinTypeNode) (a b : Option LLVMValue) :
    (op ∈ t.rangeOperators ∧
      (binaryOperation t g op ty a b = concatOperation g a b ∨
       (∃ o, binaryOperation t g op ty a b = nativeOperation g o a b) ∨
       (∃ o, binaryOperation t g op ty a b = equalsOperation g o a b) ∨
       binaryOperation t g op ty a b = .ok (g, none))) ∨
    (op ∉ t.rangeOperators ∧
      binaryOperation t g op ty a b = .error .unsupportedBinaryOperator) := by
  unfold binaryOperation
  by_cases h1 : op = t.Plus
  · rw [if_pos h1]
    refine Or.inl ⟨by simp [StaticScriptLexer.rangeOperators, h1], ?_⟩
    by_cases hs : ty = some .string
    · rw [if_pos hs]; exact Or.inl rfl
    · rw [if_neg hs]
      by_cases hi : ty = some .integer
      · rw [if_pos hi]; exact Or.inr (Or.inl ⟨_, rfl⟩)
      · rw [if_neg hi]; exact Or.inr (Or.inr (Or.inr rfl))
  rw [if_neg h1]
  by_cases h2 : op = t.Minus
  · rw [if_pos h2]
    exact Or.inl ⟨by simp [StaticScriptLexer.rangeOperators, h2], Or.inr (Or.inl ⟨_, rfl⟩)⟩
  rw [if_neg h2]
  by_cases h3 : op = t.Multiply
  · rw [if_pos h3]
    exact Or.inl ⟨by simp [StaticScriptLexer.rangeOperators, h3], Or.inr (Or.inl ⟨_, rfl⟩)⟩
  rw [if_neg h3]
  by_cases h4 : op = t.Divide
  · rw [if_pos h4]
    exact Or.inl ⟨by simp [StaticScriptLexer.rangeOperators, h4], Or.inr (Or.inl ⟨_, rfl⟩)⟩
  rw [if_neg h4]
  by_cases h5 : op = t.LessThan
  · rw [if_pos h5]
    exact Or.inl ⟨by simp [StaticScriptLexer.rangeOperators, h5], Or.inr (Or.inl ⟨_, rfl⟩)⟩
  rw [if_neg h5]
  by_cases h6 : op = t.GreaterThan
  · rw [if_pos h6]
    exact Or.inl ⟨by simp [StaticScriptLexer.rangeOperators, h6], Or.inr (Or.inl ⟨_, rfl⟩)⟩
  rw [if_neg h6]
  by_cases h7 : op = t.LessThanEquals
  · rw [if_pos h7]
    exact Or.inl ⟨by simp [StaticScriptLexer.rangeOperators, h7], Or.inr (Or.inl ⟨_, rfl⟩)⟩
  rw [if_neg h7]
  by_cases h8 : op = t.GreaterThanEquals
  · rw [if_pos h8]
    exact Or.inl ⟨by simp [StaticScriptLexer.rangeOperators, h8], Or.inr (Or.inl ⟨_, rfl⟩)⟩
  rw [if_neg h8]
  by_cases h9 : op = t.Equals
  · rw [if_pos h9]
    refine Or.inl ⟨by simp [StaticScriptLexer.rangeOperators, h9], ?_⟩
    by_cases hs : ty = some .string
    · rw [if_pos hs]; exact Or.inr (Or.inr (Or.inl ⟨_, rfl⟩))
    · rw [if_neg hs]; exact Or.inr (Or.inl ⟨_, rfl⟩)
  rw [if_neg h9]
  by_cases h10 : op = t.NotEquals
  · rw [if_pos h10]
    refine Or.inl ⟨by simp [StaticScriptLexer.rangeOperators, h10], ?_⟩
    by_cases hs : ty = some .string
    · rw [if_pos hs]; exact Or.inr (Or.inr (Or.inl ⟨_, rfl⟩))
    · rw [if_neg hs]; exact Or.inr (Or.inl ⟨_, rfl⟩)
  rw [if_neg h10]
  exact Or.inr ⟨by simp [StaticScriptLexer.rangeOperators, h1, h2, h3, h4, h5, h6, h7, h8, h9, h10], rfl⟩

theorem binaryOperation_appends (t : StaticScriptLexer) (g g1 : IRGenerator) (op : Nat)
    (ty : Option BuiltinTypeNode) (a b : Option LLVMValue) (c : Option LLVMValue)
    (h : binaryOperation t g op ty a b = .ok (g1, c)) : Appends g g1 := by
  rcases binaryOperation_cases t g op ty a b with ⟨-, hc | ⟨o, hn⟩ | ⟨o, he⟩ | hk⟩ | ⟨-, hu⟩
  · rw [hc] at h; exact concatOperation_appends _ _ _ _ _ h
  · rw [hn] at h; exact nativeOperation_appends _ _ _ _ _ _ h
  · rw [he] at h; exact equalsOperation_appends _ _ _ _ _ _ h
  · rw [hk] at h
    simp only [Except.ok.injEq, Prod.mk.injEq] at h
    obtain ⟨rfl, -⟩ := h
    exact Appends.refl _
  · rw [hu] at h; exact absurd h (by simp)

mutual
theorem visitExpr_appends (t : StaticScriptLexer) :
    ∀ (e : ExprNode) (g g1 : IRGenerator) (c : Option LLVMValue),
      visitExpr t g e = .ok (g1, c) → Appends g g1
  | .booleanLiteral _ _, g, g1, c, h => by
    simp only [visitExpr, Except.ok.injEq, Prod.mk.injEq] at h
    obtain ⟨rfl, -⟩ := h
    exact Appends.refl _
  | .integerLiteral _ _, g, g1, c, h => by
    simp only [visitExpr, Except.ok.injEq, Prod.mk.injEq] at h
    obtain ⟨rfl, -⟩ := h
    exact Appends.refl _
  | .stringLiteral _ lit, g, g1, c, h => by
    simp only [visitExpr] at h
    split at h
    · exact absurd h (by simp)
    · rename_i g2 v hg
      simp only [Except.ok.injEq, Prod.mk.injEq] at h
      obtain ⟨rfl, -⟩ := h
      exact (IRGenerator.appends_createGlobalString _ _ _ _ hg).trans (IRGenerator.appends_insert _ _)
  | .identifier _ r, g, g1, c, h => by
    simp only [visitExpr] at h
    split at h
    · exact absurd h (by simp)
    · simp only [Except.ok.injEq, Prod.mk.injEq] at h
      obtain ⟨rfl, -⟩ := h
      exact IRGenerator.appends_insert _ _
  | .call _ name args, g, g1, c, h => by
    simp only [visitExpr] at h
    split at h
    · exact absurd h (by simp)
    · rename_i g2 codes hargs
      have ih := visitExprs_appends t args g g2 codes hargs
      split at h
      · exact absurd h (by simp)
      · split at h
        · exact absurd h (by simp)
        · split at h
          · exact absurd h (by simp)
          · simp only [Except.ok.injEq, Prod.mk.injEq] at h
            obtain ⟨rfl, -⟩ := h
            exact ih.trans (IRGenerator.appends_insert _ _)
  | .unaryOperator _ op sub, g, g1, c, h => by
    simp only [visitExpr] at h
    split at h
    · exact absurd h (by simp)
    · rename_i g2 code hsub
      have ih := visitExpr_appends t sub g g2 code hsub
      split at h
      · split at h
        · exact absurd h (by simp)
        · simp only [Except.ok.injEq, Prod.mk.injEq] at h
          obtain ⟨rfl, -⟩ := h
          exact ih.trans (IRGenerator.appends_createNeg _ _)
      · exact absurd h (by simp)
  | .binaryOperator _ op lhs rhs, g, g1, c, h => by
    simp only [visitExpr] at h
    split at h
    · exact absurd h (by simp)
    · rename_i g2 lcode rcode hops
      have hops' : Appends g g2 := by
        split at hops
        · split at hops
          · exact absurd hops (by simp)
          · rename_i ga la hl
            split at hops
            · exact absurd hops (by simp)
            · rename_i gb rb hr
              simp only [Except.ok.injEq, Prod.mk.injEq] at hops
              obtain ⟨rfl, -, -⟩ := hops
              exact (visitExpr_appends t lhs g ga la hl).trans (visitExpr_appends t rhs ga _ rb hr)
        · simp only [Except.ok.injEq, Prod.mk.injEq] at hops
          obtain ⟨rfl, -, -⟩ := hops
          exact Appends.refl _
      split at h
      · split at h
        · exact absurd h (by simp)
        · rename_i g3 rcode3 hr3
          have ih3 := visitExpr_appends t rhs g2 g3 rcode3 hr3
          split at h
          · split at h
            · simp only [Except.ok.injEq, Prod.mk.injEq] at h
              obtain ⟨rfl, -⟩ := h
              exact (hops'.trans ih3).trans (IRGenerator.appends_insert _ _)
            · exact absurd h (by simp)
          · exact absurd h (by simp)
      · exact hops'.trans (binaryOperation_appends _ _ _ _ _ _ _ _ h)
theorem visitExprs_appends (t : StaticScriptLexer) :
    ∀ (es : List ExprNode) (g g1 : IRGenerator) (cs : List (Option LLVMValue)),
      visitExprs t g es = .ok (g1, cs) → Appends g g1
  | [], g, g1, cs, h => by
    simp only [visitExprs, Except.ok.injEq, Prod.mk.injEq] at h
    obtain ⟨rfl, -⟩ := h
    exact Appends.refl _
  | e :: es, g, g1, cs, h => by
    simp only [visitExprs] at h
    split at h
    · exact absurd h (by simp)
    · rename_i g2 code he
      have ih1 := visitExpr_appends t e g g2 code he
      split at h
      · exact absurd h (by simp)
      · rename_i g3 codes hes
        have ih2 := visitExprs_appends t es g2 g3 codes hes
        simp only [Except.ok.injEq, Prod.mk.injEq] at h
        obtain ⟨rfl, -⟩ := h
        exact ih1.trans ih2
end

/-! ## Variable declarations -/

theorem IRGenerator.stream_setCode (g : IRGenerator) (d : Nat) (v : LLVMValue) :
    (g.setCode d v).stream = g.stream := rfl

theorem IRGenerator.codeOf_setCode (g : IRGenerator) (d : Nat) (v : LLVMValue) :
    (g.setCode d v).codeOf d = some v := by
  simp [IRGenerator.setCode, IRGenerator.codeOf, lookup]

/-- C1: a top-level declaration of non-string type whose initial value is a
boolean or integer literal gets one global of the mapped type whose static
initializer is the literal's constant, and no instruction is created: every
block, the detached instructions and the insertion point are unchanged, so no
store targets the global. -/
theorem visitVarDecl_global_literal (t : StaticScriptLexer) (g : IRGenerator) (d : VarDeclNode)
    (init : ExprNode) (c : LLVMValue) (hTop : d.isTopLevel = true) (hTy : d.type ≠ .string)
    (hInit : d.initVal = some init)
    (hLit : (∃ ty b, init = .booleanLiteral ty b ∧ c = .constantInt .int1Ty (if b then 1 else 0)) ∨
            (∃ ty n, init = .integerLiteral ty n ∧ c = .constantInt .int64Ty n)) :
    ∃ g', visitVarDecl t g d = .ok g' ∧
      g'.globals = g.globals ++
        [{ name := d.name, type := getType (some d.type), isConstant := false, initializer := c,
           alignment := some (if d.type = .boolean then 1 else 8) }] ∧
      g'.codeOf d.id = some (.globalVariable g.globals.length) ∧
      g'.blocks = g.blocks ∧ g'.detached = g.detached ∧ g'.insertBlock = g.insertBlock ∧
      g'.functions = g.functions := by
  rcases hLit with ⟨ty, b, rfl, rfl⟩ | ⟨ty, n, rfl, rfl⟩
  · simp [visitVarDecl, hInit, hTop, hTy, visitExpr, ExprNode.isLiteral, castConstantInt,
      IRGenerator.setCode, IRGenerator.codeOf, lookup]
  · simp [visitVarDecl, hInit, hTop, hTy, visitExpr, ExprNode.isLiteral, castConstantInt,
      IRGenerator.setCode, IRGenerator.codeOf, lookup]

/-- Scenario A: the top-level declaration `integer x = 5;` gives a 64-bit global
with initializer 5 and creates no instruction. -/
theorem visitVarDecl_global_literal_witness :
    ∃ g', visitVarDecl sampleLexer mainOpened
        { id := 0, name := "x", type := .integer,
          initVal := some (.integerLiteral (some .integer) 5), isTopLevel := true } = .ok g' ∧
      g'.globals = mainOpened.globals ++
        [{ name := "x", type := .int64Ty, isConstant := false,
           initializer := .constantInt .int64Ty 5, alignment := some 8 }] ∧
      g'.codeOf 0 = some (.globalVariable mainOpened.globals.length) ∧
      g'.blocks = mainOpened.blocks ∧ g'.detached = mainOpened.detached ∧
      g'.insertBlock = mainOpened.insertBlock ∧ g'.functions = mainOpened.functions :=
  visitVarDecl_global_literal sampleLexer mainOpened
    { id := 0, name := "x", type := .integer,
      initVal := some (.integerLiteral (some .integer) 5), isTopLevel := true }
    (.integerLiteral (some .integer) 5) (.constantInt .int64Ty 5) rfl (by decide) rfl
    (Or.inr ⟨_, _, rfl, rfl⟩)

/-- C2: a top-level declaration of non-string type whose initial value is
present and not a literal, and lowers to a value `v`, gets a global with a
zero static initializer, and exactly one instruction is appended at the
insertion point after the instructions that computed the initial value: the
store of `v` into the global.  No other block changes. -/
theorem visitVarDecl_global_computed (t : StaticScriptLexer) (g g1 : IRGenerator)
    (d : VarDeclNode) (init : ExprNode) (v : LLVMValue)
    (hTop : d.isTopLevel = true) (hTy : d.type ≠ .string)
    (hInit : d.initVal = some init) (hNotLit : init.isLiteral = false)
    (hLower : visitExpr t g init = .ok (g1, some v)) (hCur : g.cursorValid = true) :
    ∃ g', visitVarDecl t g d = .ok g' ∧
      g'.globals = g1.globals ++
        [{ name := d.name, type := getType (some d.type), isConstant := false,
           initializer := .constantInt (getType (some d.type)) 0,
           alignment := some (if d.type = .boolean then 1 else 8) }] ∧
      g'.codeOf d.id = some (.globalVariable g1.globals.length) ∧
      g'.insertBlock = g.insertBlock ∧
      (∃ l, g1.stream = g.stream ++ l) ∧
      g'.stream = g1.stream ++ [(g1.nextValue, .store v (.globalVariable g1.globals.length))] ∧
      (∀ b, g.insertBlock ≠ some b → g'.blocks[b]? = g.blocks[b]?) := by
  have hA := visitExpr_appends t init g g1 (some v) hLower
  have hCur1 := cursorValid_of_appends hA hCur
  let g2 : IRGenerator := { g1 with
    globals := g1.globals ++
      [{ name := d.name, type := getType (some d.type), isConstant := false,
         initializer := .constantInt (getType (some d.type)) 0,
         alignment := some (if d.type = .boolean then 1 else 8) }] }
  have hA2 : Appends g1 g2 :=
    ⟨rfl, rfl, rfl, rfl, rfl, rfl, rfl, ⟨_, rfl⟩, fun _ => ⟨[], by simp [g2, IRGenerator.stream, IRGenerator.instsOf]⟩, fun _ _ => rfl⟩
  have hA3 := g2.appends_insert (.store v (.globalVariable g1.globals.length))
  refine ⟨((g2.insert (.store v (.globalVariable g1.globals.length))).1).setCode d.id
    (.globalVariable g1.globals.length), ?_, ?_, ?_, ?_, hA.stream hCur, ?_, ?_⟩
  · simp [visitVarDecl, hInit, hLower, hTop, hTy, hNotLit, g2]
  · obtain ⟨l, hl⟩ := hA3.globals
    show (g2.insert _).1.globals = _
    unfold IRGenerator.insert; cases g2.insertBlock <;> rfl
  · exact IRGenerator.codeOf_setCode _ _ _
  · show (g2.insert _).1.insertBlock = _
    rw [hA3.insertBlock]; exact hA.insertBlock
  · rw [IRGenerator.stream_setCode, IRGenerator.stream_insert g2 _ hCur1]
    rfl
  · intro b hb
    show (g2.insert _).1.blocks[b]? = _
    rw [hA3.others b (by show g1.insertBlock ≠ some b; rw [hA.insertBlock]; exact hb)]
    show g1.blocks[b]? = _
    exact hA.others b hb


/-- Scenario B: the top-level declaration `integer y = f();` gives a 64-bit
global with initializer 0 and, after the call of `f`, one store of the call's
result into it. -/
theorem visitVarDecl_global_computed_witness :
    ∃ g', visitVarDecl sampleLexer mainOpenedWithF
        { id := 0, name := "y", type := .integer,
          initVal := some (.call (some .integer) "f" []), isTopLevel := true } = .ok g' ∧
      g'.globals = (mainOpenedWithF.insert (.call (.function 0) [])).1.globals ++
        [{ name := "y", type := .int64Ty, isConstant := false,
           initializer := .constantInt .int64Ty 0, alignment := some 8 }] ∧
      g'.codeOf 0 = some (.globalVariable 0) ∧
      g'.insertBlock = some 0 ∧
      (∃ l, (mainOpenedWithF.insert (.call (.function 0) [])).1.stream =
        mainOpenedWithF.stream ++ l) ∧
      g'.stream = (mainOpenedWithF.insert (.call (.function 0) [])).1.stream ++
        [(1, .store (.instruction 0) (.globalVariable 0))] ∧
      (∀ b, mainOpenedWithF.insertBlock ≠ some b → g'.blocks[b]? = mainOpenedWithF.blocks[b]?) :=
  visitVarDecl_global_computed sampleLexer mainOpenedWithF
    (mainOpenedWithF.insert (.call (.function 0) [])).1
    { id := 0, name := "y", type := .integer,
      initVal := some (.call (some .integer) "f" []), isTopLevel := true }
    (.call (some .integer) "f" []) (.instruction 0) rfl (by decide) rfl rfl rfl rfl

/-- C3: at a top-level declaration of string type without an initial value
(`string s;`) the visitor takes the store branch and reads
`varDecl->initVal->code` through the null `initVal`: no store of a
well-defined value is emitted. -/
theorem visitVarDecl_global_string_without_initVal (t : StaticScriptLexer) (g : IRGenerator)
    (id : Nat) (name : String) :
    visitVarDecl t g
      { id := id, name := name, type := .string, initVal := none, isTopLevel := true } =
      .error .undefinedBehaviour := by
  simp [visitVarDecl]

/-- A top-level declaration of string type whose initial value lowers to a
value `v` (a literal or not) gets a global initialised with the null handle
and one store of `v` into it at the insertion point. -/
theorem visitVarDecl_global_string_with_initVal (t : StaticScriptLexer) (g g1 : IRGenerator)
    (d : VarDeclNode) (init : ExprNode) (v : LLVMValue)
    (hTop : d.isTopLevel = true) (hTy : d.type = .string) (hInit : d.initVal = some init)
    (hLower : visitExpr t g init = .ok (g1, some v)) (hCur : g.cursorValid = true) :
    ∃ g', visitVarDecl t g d = .ok g' ∧
      g'.globals = g1.globals ++
        [{ name := d.name, type := .stringTy, isConstant := false,
           initializer := .constantPointerNull .stringTy, alignment := some 8 }] ∧
      g'.codeOf d.id = some (.globalVariable g1.globals.length) ∧
      g'.stream = g1.stream ++ [(g1.nextValue, .store v (.globalVariable g1.globals.length))] := by
  have hA := visitExpr_appends t init g g1 (some v) hLower
  have hCur1 := cursorValid_of_appends hA hCur
  let g2 : IRGenerator := { g1 with
    globals := g1.globals ++
      [{ name := d.name, type := .stringTy, isConstant := false,
         initializer := .constantPointerNull .stringTy, alignment := some 8 }] }
  refine ⟨((g2.insert (.store v (.globalVariable g1.globals.length))).1).setCode d.id
    (.globalVariable g1.globals.length), ?_, ?_, ?_, ?_⟩
  · simp [visitVarDecl, hInit, hLower, hTop, hTy, g2, getType]
  · show (g2.insert _).1.globals = _
    unfold IRGenerator.insert; cases g2.insertBlock <;> rfl
  · exact IRGenerator.codeOf_setCode _ _ _
  · rw [IRGenerator.stream_setCode, IRGenerator.stream_insert g2 _ hCur1]
    rfl

/-- C4, as amended: a top-level declaration of boolean or integer type without
an initial value gets a global with a zero static initializer and no
instruction is created: every block, the detached instructions and the
insertion point are unchanged. -/
theorem visitVarDecl_global_without_initVal (t : StaticScriptLexer) (g : IRGenerator)
    (d : VarDeclNode) (hTop : d.isTopLevel = true) (hTy : d.type ≠ .string)
    (hInit : d.initVal = none) :
    ∃ g', visitVarDecl t g d = .ok g' ∧
      g'.globals = g.globals ++
        [{ name := d.name, type := getType (some d.type), isConstant := false,
           initializer := .constantInt (getType (some d.type)) 0,
           alignment := some (if d.type = .boolean then 1 else 8) }] ∧
      g'.codeOf d.id = some (.globalVariable g.globals.length) ∧
      g'.blocks = g.blocks ∧ g'.detached = g.detached ∧ g'.insertBlock = g.insertBlock := by
  simp [visitVarDecl, hInit, hTop, hTy, IRGenerator.setCode, IRGenerator.codeOf, lookup]

/-- The top-level declaration `boolean b;` gives a 1-bit global with
initializer 0 and creates no instruction. -/
theorem visitVarDecl_global_without_initVal_witness :
    ∃ g', visitVarDecl sampleLexer mainOpened
        { id := 0, name := "b", type := .boolean, initVal := none, isTopLevel := true } = .ok g' ∧
      g'.globals = mainOpened.globals ++
        [{ name := "b", type := .int1Ty, isConstant := false,
           initializer := .constantInt .int1Ty 0, alignment := some 1 }] ∧
      g'.codeOf 0 = some (.globalVariable mainOpened.globals.length) ∧
      g'.blocks = mainOpened.blocks ∧ g'.detached = mainOpened.detached ∧
      g'.insertBlock = mainOpened.insertBlock :=
  visitVarDecl_global_without_initVal sampleLexer mainOpened
    { id := 0, name := "b", type := .boolean, initVal := none, isTopLevel := true }
    rfl (by decide) rfl

/-- C4 fails as stated: for the top-level declaration `string s;` the visitor
does not return a generator at all, let alone one with the instruction lists
unchanged. -/
theorem visitVarDecl_global_string_no_initVal_counterexample :
    ¬ ∃ g', visitVarDecl sampleLexer mainOpened
        { id := 0, name := "s", type := .string, initVal := none, isTopLevel := true } = .ok g' ∧
      g'.blocks = mainOpened.blocks ∧ g'.detached = mainOpened.detached := by
  rintro ⟨g', h, -⟩
  simp [visitVarDecl] at h

theorem IRGenerator.cursorValid_of_insertModule (g : IRGenerator) (h : g.insertModule = true) :
    g.cursorValid = true := by
  unfold IRGenerator.insertModule at h
  unfold IRGenerator.cursorValid
  cases hb : g.insertBlock with
  | none => rfl
  | some bb =>
    rw [hb] at h
    simp only at h
    simp only [decide_eq_true_eq]
    by_contra hge
    rw [List.getElem?_eq_none (by omega)] at h
    exact absurd h (by simp)

theorem getType_prefTypeAlign (ty : BuiltinTypeNode) :
    (getType (some ty)).prefTypeAlign = if ty = .boolean then 1 else 8 := by
  cases ty <;> rfl

/-- C5: the storage slot of every variable declaration that is lowered has
alignment 1 when the declared type is boolean and 8 for integer and string.
A top-level declaration gets a global on which the source sets this alignment;
a local declaration gets a stack slot from `CreateAlloca(type)`, whose
alignment is the one the data layout prefers for the mapped type, which is
the same number. -/
theorem visitVarDecl_alignment (t : StaticScriptLexer) (g g' : IRGenerator)
    (d : VarDeclNode) (h : visitVarDecl t g d = .ok g') :
    (d.isTopLevel = true →
      ∃ k gv, g'.codeOf d.id = some (.globalVariable k) ∧ g'.globals[k]? = some gv ∧
        gv.name = d.name ∧ gv.type = getType (some d.type) ∧
        gv.alignment = some (if d.type = .boolean then 1 else 8)) ∧
    (d.isTopLevel = false →
      ∃ k, g'.codeOf d.id = some (.instruction k) ∧
        (k, Instruction.alloca (getType (some d.type))
          (some (if d.type = .boolean then 1 else 8))) ∈ g'.stream) := by
  constructor
  · intro hTop
    unfold visitVarDecl at h
    simp only [hTop, if_true] at h
    split at h
    · exact absurd h (by simp)
    · rename_i g1 initCode hv
      split at h
      · exact absurd h (by simp)
      · rename_i init hinit
        split at h
        · split at h
          · simp only [Except.ok.injEq] at h
            subst h
            refine ⟨g1.globals.length,
              { name := d.name, type := getType (some d.type), isConstant := false,
                initializer := init,
                alignment := some (if d.type = .boolean then 1 else 8) },
              IRGenerator.codeOf_setCode _ _ _, ?_, rfl, rfl, rfl⟩
            show (IRGenerator.insert _ _).1.globals[_]? = _
            unfold IRGenerator.insert
            cases g1.insertBlock <;> simp
          · exact absurd h (by simp)
        · simp only [Except.ok.injEq] at h
          subst h
          refine ⟨g1.globals.length,
            { name := d.name, type := getType (some d.type), isConstant := false,
              initializer := init,
              alignment := some (if d.type = .boolean then 1 else 8) },
            IRGenerator.codeOf_setCode _ _ _, ?_, rfl, rfl, rfl⟩
          show (g1.globals ++ _)[_]? = _
          simp
  · intro hTop
    unfold visitVarDecl at h
    simp only [hTop, Bool.false_eq_true, if_false] at h
    split at h
    · exact absurd h (by simp)
    · rename_i g1 initCode hv
      split at h
      · exact absurd h (by simp)
      · rename_i g2 alloca ha
        unfold IRGenerator.createAlloca at ha
        by_cases hm : g1.insertModule = true
        · rw [if_pos hm] at ha
          simp only [Except.ok.injEq] at ha
          have hg2 : g2 = (g1.insert (.alloca (getType (some d.type))
              (some (getType (some d.type)).prefTypeAlign))).1 := by rw [ha]
          have hal : alloca = .instruction g1.nextValue := by
            rw [← IRGenerator.insert_snd g1 (.alloca (getType (some d.type))
              (some (getType (some d.type)).prefTypeAlign)), ha]
          have hcv := g1.cursorValid_of_insertModule hm
          have hs2 : g2.stream = g1.stream ++ [(g1.nextValue, .alloca (getType (some d.type))
              (some (if d.type = .boolean then 1 else 8)))] := by
            rw [hg2, IRGenerator.stream_insert _ _ hcv, getType_prefTypeAlign]
          have hcv2 : g2.cursorValid = true := by
            rw [hg2]; exact cursorValid_of_appends (g1.appends_insert _) hcv
          refine ⟨g1.nextValue, ?_, ?_⟩
          · split at h
            · split at h
              · simp only [Except.ok.injEq] at h
                subst h
                rw [hal]; exact IRGenerator.codeOf_setCode _ _ _
              · exact absurd h (by simp)
            · simp only [Except.ok.injEq] at h
              subst h
              rw [hal]; exact IRGenerator.codeOf_setCode _ _ _
          · split at h
            · split at h
              · simp only [Except.ok.injEq] at h
                subst h
                rw [IRGenerator.stream_setCode, IRGenerator.stream_insert _ _ hcv2, hs2]
                simp
              · exact absurd h (by simp)
            · simp only [Except.ok.injEq] at h
              subst h
              rw [IRGenerator.stream_setCode, hs2]
              simp
        · rw [if_neg hm] at ha
          exact absurd ha (by simp)

/-- The global of the top-level declaration `boolean b;` has alignment 1; in
the entry function, the stack slot of the local declaration `boolean b;` is
`alloca i1, align 1` and that of `integer x;` is `alloca i64, align 8`. -/
theorem visitVarDecl_alignment_witness :
    (∃ k gv, mainWithGlobalB.codeOf 0 = some (.globalVariable k) ∧
      mainWithGlobalB.globals[k]? = some gv ∧
      gv.name = "b" ∧ gv.type = getType (some .boolean) ∧
      gv.alignment = some (if BuiltinTypeNode.boolean = .boolean then 1 else 8)) ∧
    (∃ k, (resultOf (visitVarDecl sampleLexer mainOpened
        { id := 0, name := "b", type := .boolean, initVal := none,
          isTopLevel := false })).codeOf 0 = some (.instruction k) ∧
      (k, Instruction.alloca (getType (some .boolean))
        (some (if BuiltinTypeNode.boolean = .boolean then 1 else 8))) ∈
        (resultOf (visitVarDecl sampleLexer mainOpened
          { id := 0, name := "b", type := .boolean, initVal := none,
            isTopLevel := false })).stream) ∧
    mainWithLocalX.stream = [(0, .alloca .int64Ty (some 8))] :=
  ⟨(visitVarDecl_alignment sampleLexer mainOpened mainWithGlobalB
      { id := 0, name := "b", type := .boolean, initVal := none, isTopLevel := true } rfl).1 rfl,
   (visitVarDecl_alignment sampleLexer mainOpened _
      { id := 0, name := "b", type := .boolean, initVal := none, isTopLevel := false } rfl).2 rfl,
   rfl⟩

/-! ## Calls and operators -/

theorem IRGenerator.getFunction_eq_none (g : IRGenerator) (name : String) :
    g.getFunction name = none ↔ ∀ f ∈ g.functions, f.name ≠ name := by
  unfold IRGenerator.getFunction
  simp only [List.findIdx_lt_length, beq_iff_eq]
  constructor
  · intro h f hf hn
    split at h
    · exact absurd h (by simp)
    · rename_i hne; exact hne ⟨f, hf, hn⟩
  · intro h
    rw [if_neg]
    rintro ⟨f, hf, hn⟩
    exact h f hf hn

theorem IRGenerator.getFunction_eq_some (g : IRGenerator) (name : String) (i : Nat)
    (h : g.getFunction name = some i) :
    ∃ fn, g.functions[i]? = some fn ∧ fn.name = name := by
  unfold IRGenerator.getFunction at h
  simp only at h
  split at h
  · rename_i hlt
    simp only [Option.some.injEq] at h
    subst h
    refine ⟨g.functions[g.functions.findIdx (fun f => f.name == name)], List.getElem?_eq_getElem hlt, ?_⟩
    have := List.findIdx_getElem (p := fun f : LLVMFunction => f.name == name) (w := hlt)
    simpa using this
  · exact absurd h (by simp)

theorem IRGenerator.getFunction_appends {g g1 : IRGenerator} (h : Appends g g1) (name : String) :
    g1.getFunction name = g.getFunction name := by
  unfold IRGenerator.getFunction; rw [h.functions]

theorem IRGenerator.argSize_appends {g g1 : IRGenerator} (h : Appends g g1) (f : Nat) :
    g1.argSize f = g.argSize f := by
  unfold IRGenerator.argSize; rw [h.functions]

/-- C6: when the arguments of a call lower to values, the visit fails with the
undefined-function error exactly when no function of the module is named
`calleeName`; otherwise it fails with the argument-count error exactly when
the callee's parameter count differs from the number of arguments; otherwise it
succeeds, its value is the one call instruction it appends at the insertion
point, and that call names the function found and takes the arguments' values
in source order.  Nothing else changes. -/
theorem visitExpr_call (t : StaticScriptLexer) (g g1 : IRGenerator)
    (ty : Option BuiltinTypeNode) (calleeName : String) (args : List ExprNode)
    (codes : List (Option LLVMValue)) (argsV : List LLVMValue)
    (hArgs : visitExprs t g args = .ok (g1, codes)) (hCodes : allCodes codes = some argsV)
    (hCur : g.cursorValid = true) :
    (visitExpr t g (.call ty calleeName args) = .error .undefinedFunction ↔
      ∀ f ∈ g.functions, f.name ≠ calleeName) ∧
    ∀ calleeFunc, g.getFunction calleeName = some calleeFunc →
      (∃ fn, g.functions[calleeFunc]? = some fn ∧ fn.name = calleeName) ∧
      (visitExpr t g (.call ty calleeName args) = .error .argumentCountMismatch ↔
        g.argSize calleeFunc ≠ args.length) ∧
      (g.argSize calleeFunc = args.length →
        ∃ g', visitExpr t g (.call ty calleeName args) = .ok (g', some (.instruction g1.nextValue)) ∧
          g'.stream = g1.stream ++ [(g1.nextValue, .call (.function calleeFunc) argsV)] ∧
          g'.functions = g.functions ∧ g'.insertBlock = g.insertBlock ∧
          ∀ b, g.insertBlock ≠ some b → g'.blocks[b]? = g.blocks[b]?) := by
  have hA := visitExprs_appends t args g g1 codes hArgs
  have hF := IRGenerator.getFunction_appends hA calleeName
  constructor
  · rw [← IRGenerator.getFunction_eq_none, ← hF]
    simp only [visitExpr, hArgs]
    cases hf : g1.getFunction calleeName with
    | none => simp
    | some f =>
      simp only [hCodes]
      split <;> simp
  · intro calleeFunc hf
    have hf1 : g1.getFunction calleeName = some calleeFunc := by rw [hF]; exact hf
    have hS := IRGenerator.argSize_appends hA calleeFunc
    refine ⟨IRGenerator.getFunction_eq_some g calleeName calleeFunc hf, ?_, ?_⟩
    · simp only [visitExpr, hArgs, hf1, hCodes, hS]
      split <;> simp_all
    · intro hsize
      have hI := g1.appends_insert (.call (.function calleeFunc) argsV)
      refine ⟨(g1.insert (.call (.function calleeFunc) argsV)).1, ?_,
        g1.stream_insert _ (cursorValid_of_appends hA hCur), ?_, ?_, ?_⟩
      · simp only [visitExpr, hArgs, hf1, hCodes, hS, hsize, IRGenerator.insert_snd]
        simp
      · rw [hI.functions, hA.functions]
      · rw [hI.insertBlock, hA.insertBlock]
      · intro b hb
        rw [hI.others b (by rw [hA.insertBlock]; exact hb), hA.others b hb]

theorem nativeOperation_ne_unsupported (g : IRGenerator) (op : BinaryOp)
    (a b : Option LLVMValue) :
    nativeOperation g op a b ≠ .error .unsupportedBinaryOperator := by
  unfold nativeOperation; split <;> simp

theorem concatOperation_ne_unsupported (g : IRGenerator) (a b : Option LLVMValue) :
    concatOperation g a b ≠ .error .unsupportedBinaryOperator := by
  unfold concatOperation; split <;> simp

theorem equalsOperation_ne_unsupported (g : IRGenerator) (op : BinaryOp)
    (a b : Option LLVMValue) :
    equalsOperation g op a b ≠ .error .unsupportedBinaryOperator := by
  unfold equalsOperation; split <;> simp

theorem binaryOperation_eq_unsupported (t : StaticScriptLexer) (g : IRGenerator) (op : Nat)
    (ty : Option BuiltinTypeNode) (a b : Option LLVMValue) :
    binaryOperation t g op ty a b = .error .unsupportedBinaryOperator ↔
      op ∉ t.rangeOperators := by
  rcases binaryOperation_cases t g op ty a b with ⟨hin, hc | ⟨o, hn⟩ | ⟨o, he⟩ | hk⟩ | ⟨hout, hu⟩
  · rw [hc]; exact ⟨fun h => absurd h (concatOperation_ne_unsupported _ _ _), fun h => absurd hin h⟩
  · rw [hn]; exact ⟨fun h => absurd h (nativeOperation_ne_unsupported _ _ _ _), fun h => absurd hin h⟩
  · rw [he]; exact ⟨fun h => absurd h (equalsOperation_ne_unsupported _ _ _ _), fun h => absurd hin h⟩
  · rw [hk]; exact ⟨fun h => absurd h (by simp), fun h => absurd hin h⟩
  · rw [hu]; exact ⟨fun _ => hout, fun _ => rfl⟩

/-- Ten distinct codes in the range `22..31` are all the codes of the range. -/
theorem StaticScriptLexer.WellFormed.mem_range_iff {t : StaticScriptLexer}
    (hT : t.WellFormed) (c : Nat) : c ∈ t.rangeOperators ↔ 22 ≤ c ∧ c ≤ 31 := by
  have hnd : t.rangeOperators.Nodup := (List.nodup_cons.mp hT.nodup).2
  have hsub : t.rangeOperators.toFinset ⊆ Finset.Icc 22 31 := by
    intro x hx
    rw [List.mem_toFinset] at hx
    rw [Finset.mem_Icc]
    exact hT.range x hx
  have hcard : (Finset.Icc 22 31).card ≤ t.rangeOperators.toFinset.card := by
    rw [List.toFinset_card_of_nodup hnd, Nat.card_Icc]
    simp [StaticScriptLexer.rangeOperators]
  have heq := Finset.eq_of_subset_of_card_le hsub hcard
  constructor
  · exact hT.range c
  · intro h
    have hc : c ∈ Finset.Icc 22 31 := Finset.mem_Icc.mpr h
    rw [← heq, List.mem_toFinset] at hc
    exact hc

theorem StaticScriptLexer.WellFormed.assign_not_in_range {t : StaticScriptLexer}
    (hT : t.WellFormed) : ¬ (22 ≤ t.Assign ∧ t.Assign ≤ 31) := by
  rw [← hT.mem_range_iff]
  have := hT.nodup
  unfold StaticScriptLexer.binaryOperators at this
  exact (List.nodup_cons.mp this).1

/-- C7: a unary operator whose operand lowers to a value is lowered
successfully exactly when the operator is `Minus`, and raises the
unsupported-unary-operator error exactly when it is not; a binary operator
whose operands do not themselves raise it raises the
unsupported-binary-operator error exactly when the operator is none of
`Assign`, `Plus`, `Minus`, `Multiply`, `Divide`, `LessThan`, `GreaterThan`,
`LessThanEquals`, `GreaterThanEquals`, `Equals`, `NotEquals`. -/
theorem visitExpr_unsupported_operator (t : StaticScriptLexer) (hT : t.WellFormed)
    (g : IRGenerator) (ty : Option BuiltinTypeNode) (opCode : Nat) :
    (∀ subExpr g1 v, visitExpr t g subExpr = .ok (g1, some v) →
      ((∃ r, visitExpr t g (.unaryOperator ty opCode subExpr) = .ok r) ↔ opCode = t.Minus) ∧
      (visitExpr t g (.unaryOperator ty opCode subExpr) = .error .unsupportedUnaryOperator ↔
        opCode ≠ t.Minus)) ∧
    (∀ lhs rhs,
      (∀ g0, visitExpr t g0 lhs ≠ .error .unsupportedBinaryOperator) →
      (∀ g0, visitExpr t g0 rhs ≠ .error .unsupportedBinaryOperator) →
      (visitExpr t g (.binaryOperator ty opCode lhs rhs) = .error .unsupportedBinaryOperator ↔
        opCode ∉ t.binaryOperators)) := by
  constructor
  · intro subExpr g1 v hsub
    by_cases hop : opCode = t.Minus
    · simp [visitExpr, hsub, hop]
    · simp [visitExpr, hsub, hop]
  · intro lhs rhs hl hr
    have hmem : opCode ∈ t.binaryOperators ↔ opCode = t.Assign ∨ opCode ∈ t.rangeOperators := by
      simp [StaticScriptLexer.binaryOperators]
    by_cases hA : opCode = t.Assign
    · -- assignment: the operands are not visited first, the right side is visited once
      have hrange : ¬ (22 ≤ opCode ∧ opCode ≤ 31) := by rw [hA]; exact hT.assign_not_in_range
      have hin : opCode ∈ t.binaryOperators := hmem.mpr (Or.inl hA)
      refine ⟨fun h => ?_, fun h => absurd hin h⟩
      exfalso
      simp only [visitExpr, if_neg hrange, if_pos hA] at h
      cases hrv : visitExpr t g rhs with
      | error e =>
        rw [hrv] at h
        simp only [Except.error.injEq] at h
        exact hr g (by rw [hrv, h])
      | ok r =>
        obtain ⟨g3, rcode3⟩ := r
        rw [hrv] at h
        simp only at h
        split at h
        · split at h <;> simp at h
        · simp at h
    · by_cases hR : 22 ≤ opCode ∧ opCode ≤ 31
      · have hin : opCode ∈ t.rangeOperators := (hT.mem_range_iff opCode).mpr hR
        refine ⟨fun h => ?_, fun h => absurd (hmem.mpr (Or.inr hin)) h⟩
        exfalso
        simp only [visitExpr, if_pos hR, if_neg hA] at h
        cases hlv : visitExpr t g lhs with
        | error e =>
          rw [hlv] at h
          simp only [Except.error.injEq] at h
          exact hl g (by rw [hlv, h])
        | ok r =>
          obtain ⟨ga, la⟩ := r
          rw [hlv] at h
          simp only at h
          cases hrv : visitExpr t ga rhs with
          | error e =>
            rw [hrv] at h
            simp only [Except.error.injEq] at h
            exact hr ga (by rw [hrv, h])
          | ok r2 =>
            obtain ⟨gb, rb⟩ := r2
            rw [hrv] at h
            simp only at h
            exact ((binaryOperation_eq_unsupported _ _ _ _ _ _).mp h) hin
      · have hout : opCode ∉ t.rangeOperators := fun hin => hR (hT.range opCode hin)
        refine ⟨fun _ hin => ?_, fun _ => ?_⟩
        · rcases hmem.mp hin with h | h
          · exact hA h
          · exact hout h
        · simp only [visitExpr, if_neg hR, if_neg hA]
          exact (binaryOperation_eq_unsupported _ _ _ _ _ _).mpr hout

theorem binaryOperation_plus_string (t : StaticScriptLexer) (g : IRGenerator)
    (a b : Option LLVMValue) :
    binaryOperation t g t.Plus (some .string) a b = concatOperation g a b := by
  unfold binaryOperation
  rw [if_pos rfl, if_pos rfl]

theorem binaryOperation_equals_string (t : StaticScriptLexer) (hT : t.WellFormed)
    (g : IRGenerator) (a b : Option LLVMValue) :
    binaryOperation t g t.Equals (some .string) a b = equalsOperation g .icmpEQ a b := by
  have h := hT.nodup
  simp only [StaticScriptLexer.binaryOperators, StaticScriptLexer.rangeOperators,
    List.nodup_cons, List.mem_cons, List.mem_singleton, not_or] at h
  obtain ⟨-, h1, h2, h3, h4, h5, h6, h7, h8, -⟩ := h
  unfold binaryOperation
  rw [if_neg (Ne.symm h1.2.2.2.2.2.2.2.1), if_neg (Ne.symm h2.2.2.2.2.2.2.1),
    if_neg (Ne.symm h3.2.2.2.2.2.1), if_neg (Ne.symm h4.2.2.2.2.1),
    if_neg (Ne.symm h5.2.2.2.1), if_neg (Ne.symm h6.2.2.1), if_neg (Ne.symm h7.2.1),
    if_neg (Ne.symm h8.1), if_pos rfl, if_pos rfl]

theorem binaryOperation_notEquals_string (t : StaticScriptLexer) (hT : t.WellFormed)
    (g : IRGenerator) (a b : Option LLVMValue) :
    binaryOperation t g t.NotEquals (some .string) a b = equalsOperation g .icmpNE a b := by
  have h := hT.nodup
  simp only [StaticScriptLexer.binaryOperators, StaticScriptLexer.rangeOperators,
    List.nodup_cons, List.mem_cons, List.mem_singleton, not_or] at h
  obtain ⟨-, h1, h2, h3, h4, h5, h6, h7, h8, h9, -⟩ := h
  unfold binaryOperation
  rw [if_neg (Ne.symm h1.2.2.2.2.2.2.2.2.1), if_neg (Ne.symm h2.2.2.2.2.2.2.2.1),
    if_neg (Ne.symm h3.2.2.2.2.2.2.1), if_neg (Ne.symm h4.2.2.2.2.2.1),
    if_neg (Ne.symm h5.2.2.2.2.1), if_neg (Ne.symm h6.2.2.2.1), if_neg (Ne.symm h7.2.2.1),
    if_neg (Ne.symm h8.2.1), if_neg (Ne.symm h9.1), if_pos rfl, if_pos rfl]

theorem StaticScriptLexer.WellFormed.ne_assign {t : StaticScriptLexer} (hT : t.WellFormed)
    {c : Nat} (hc : c ∈ t.rangeOperators) : c ≠ t.Assign := by
  intro h
  exact hT.assign_not_in_range (by rw [← h]; exact hT.range c hc)

/-- The visit of a binary operator of the range `Plus...NotEquals` whose
operands lower to `lcode` and `rcode`. -/
theorem visitExpr_binary_of_operands (t : StaticScriptLexer) (hT : t.WellFormed)
    (g g1 g2 : IRGenerator) (ty : Option BuiltinTypeNode) (opCode : Nat) (lhs rhs : ExprNode)
    (lcode rcode : Option LLVMValue) (hop : opCode ∈ t.rangeOperators)
    (hl : visitExpr t g lhs = .ok (g1, lcode)) (hr : visitExpr t g1 rhs = .ok (g2, rcode)) :
    visitExpr t g (.binaryOperator ty opCode lhs rhs) =
      binaryOperation t g2 opCode lhs.inferType lcode rcode := by
  have hR := hT.range opCode hop
  have hA := hT.ne_assign hop
  simp only [visitExpr, if_pos hR, hl, hr, if_neg hA]

/-- C8: with a left operand of static type string and operands that lower to
the values `a` and `b`, `+` appends exactly one instruction, the call of the
concatenation entry point on `(a, b)`, which is the node's value; `==` and
`!=` append exactly two, the call of the equality entry point on `(a, b)` and
the comparison (equal, resp. not equal) of that call's result with the 32-bit
zero, which is the node's value.  No other block changes, so no native add or
comparison takes `a` or `b`. -/
theorem visitExpr_string_operators (t : StaticScriptLexer) (hT : t.WellFormed)
    (g g1 g2 : IRGenerator) (ty : Option BuiltinTypeNode) (lhs rhs : ExprNode)
    (a b : LLVMValue) (hType : lhs.inferType = some .string)
    (hl : visitExpr t g lhs = .ok (g1, some a)) (hr : visitExpr t g1 rhs = .ok (g2, some b))
    (hCur : g.cursorValid = true) :
    (∃ g', visitExpr t g (.binaryOperator ty t.Plus lhs rhs) =
        .ok (g', some (.instruction g2.nextValue)) ∧
      g'.stream = g2.stream ++ [(g2.nextValue, .call .concatFunc [a, b])] ∧
      ∀ bb, g.insertBlock ≠ some bb → g'.blocks[bb]? = g2.blocks[bb]?) ∧
    (∃ g', visitExpr t g (.binaryOperator ty t.Equals lhs rhs) =
        .ok (g', some (.instruction (g2.nextValue + 1))) ∧
      g'.stream = g2.stream ++
        [(g2.nextValue, .call .equalsFunc [a, b]),
         (g2.nextValue + 1, .binary .icmpEQ (.instruction g2.nextValue) (.constantInt .int32Ty 0))] ∧
      ∀ bb, g.insertBlock ≠ some bb → g'.blocks[bb]? = g2.blocks[bb]?) ∧
    (∃ g', visitExpr t g (.binaryOperator ty t.NotEquals lhs rhs) =
        .ok (g', some (.instruction (g2.nextValue + 1))) ∧
      g'.stream = g2.stream ++
        [(g2.nextValue, .call .equalsFunc [a, b]),
         (g2.nextValue + 1, .binary .icmpNE (.instruction g2.nextValue) (.constantInt .int32Ty 0))] ∧
      ∀ bb, g.insertBlock ≠ some bb → g'.blocks[bb]? = g2.blocks[bb]?) := by
  have hA1 := visitExpr_appends t lhs g g1 _ hl
  have hA2 := visitExpr_appends t rhs g1 g2 _ hr
  have hA := hA1.trans hA2
  have hCur2 := cursorValid_of_appends hA hCur
  have hIns : g2.insertBlock = g.insertBlock := hA.insertBlock
  have hEq : ∀ op : BinaryOp,
      ∃ g', equalsOperation g2 op (some a) (some b) =
          .ok (g', some (.instruction (g2.nextValue + 1))) ∧
        g'.stream = g2.stream ++
          [(g2.nextValue, .call .equalsFunc [a, b]),
           (g2.nextValue + 1, .binary op (.instruction g2.nextValue) (.constantInt .int32Ty 0))] ∧
        ∀ bb, g.insertBlock ≠ some bb → g'.blocks[bb]? = g2.blocks[bb]? := by
    intro op
    have hI1 := g2.appends_insert (.call .equalsFunc [a, b])
    have hN1 : (g2.insert (.call .equalsFunc [a, b])).1.nextValue = g2.nextValue + 1 := by
      unfold IRGenerator.insert; cases g2.insertBlock <;> rfl
    have hI2 := (g2.insert (.call .equalsFunc [a, b])).1.appends_insert
      (.binary op (.instruction g2.nextValue) (.constantInt .int32Ty 0))
    refine ⟨((g2.insert (.call .equalsFunc [a, b])).1.insert
      (.binary op (.instruction g2.nextValue) (.constantInt .int32Ty 0))).1, ?_, ?_, ?_⟩
    · simp [equalsOperation, IRGenerator.createBinary, IRGenerator.insert_snd,
        LLVMValue.isConstant, hN1]
    · rw [IRGenerator.stream_insert _ _ (cursorValid_of_appends hI1 hCur2),
        IRGenerator.stream_insert _ _ hCur2, hN1]
      simp
    · intro bb hbb
      rw [hI2.others bb (by rw [hI1.insertBlock, hIns]; exact hbb),
        hI1.others bb (by rw [hIns]; exact hbb)]
  refine ⟨?_, ?_, ?_⟩
  · rw [visitExpr_binary_of_operands t hT g g1 g2 ty t.Plus lhs rhs _ _
      (by simp [StaticScriptLexer.rangeOperators]) hl hr, hType, binaryOperation_plus_string]
    have hI1 := g2.appends_insert (.call .concatFunc [a, b])
    refine ⟨(g2.insert (.call .concatFunc [a, b])).1, ?_, g2.stream_insert _ hCur2, ?_⟩
    · simp [concatOperation, IRGenerator.insert_snd]
    · intro bb hbb
      rw [hI1.others bb (by rw [hIns]; exact hbb)]
  · rw [visitExpr_binary_of_operands t hT g g1 g2 ty t.Equals lhs rhs _ _
      (by simp [StaticScriptLexer.rangeOperators]) hl hr, hType,
      binaryOperation_equals_string t hT]
    exact hEq _
  · rw [visitExpr_binary_of_operands t hT g g1 g2 ty t.NotEquals lhs rhs _ _
      (by simp [StaticScriptLexer.rangeOperators]) hl hr, hType,
      binaryOperation_notEquals_string t hT]
    exact hEq _

/-! ## Loop control -/

theorem IRGenerator.emitBranch_iterationStmts (g : IRGenerator) (bb : Nat) :
    (g.emitBranch bb).iterationStmts = g.iterationStmts := by
  unfold IRGenerator.emitBranch
  cases g.insertBlock with
  | none => rfl
  | some c =>
    simp only
    split
    · rfl
    · exact (g.appends_insert _).iterationStmts

theorem IRGenerator.emitBlock_iterationStmts (g : IRGenerator) (bb : Nat) (fin : Bool) :
    (g.emitBlock bb fin).iterationStmts = g.iterationStmts := by
  unfold IRGenerator.emitBlock
  simp only
  split
  · exact g.emitBranch_iterationStmts bb
  · exact g.emitBranch_iterationStmts bb

theorem IRGenerator.createBasicBlock_iterationStmts (g : IRGenerator) (name : String)
    (parent : Option Nat) :
    (g.createBasicBlock name parent).1.iterationStmts = g.iterationStmts := by
  unfold IRGenerator.createBasicBlock; cases parent <;> rfl

theorem createCondBr_iterationStmts (g g1 : IRGenerator) (code : Option LLVMValue) (a b : Nat)
    (h : createCondBr g code a b = .ok g1) : g1.iterationStmts = g.iterationStmts := by
  unfold createCondBr at h
  cases code with
  | none => exact absurd h (by simp)
  | some c =>
    simp only [Except.ok.injEq] at h
    subst h
    exact (g.appends_insert _).iterationStmts

theorem lookup_setIteration (g : IRGenerator) (node : Nat) (it : IterationStmtNode) :
    lookup node (g.setIteration node it).iterationStmts = some it := by
  simp [IRGenerator.setIteration, lookup]

/-- The loop node's handles after the part of `visit(WhileStmtNode)` that
precedes the body. -/
theorem whileHead_iteration (t : StaticScriptLexer) (g g1 : IRGenerator) (id : Nat)
    (condition : ExprNode) (blocks : LoopBlocks)
    (h : whileHead t g id condition = .ok (g1, blocks)) :
    blocks.updateBB = none ∧
    lookup id g1.iterationStmts =
      some { isWhile := true, condBB := some blocks.condBB, updateBB := none,
             endBB := some blocks.endBB } := by
  unfold whileHead at h
  simp only at h
  split at h
  · exact absurd h (by simp)
  · rename_i g2 code hc
    split at h
    · exact absurd h (by simp)
    · rename_i g3 hbr
      simp only [Except.ok.injEq, Prod.mk.injEq] at h
      obtain ⟨rfl, rfl⟩ := h
      refine ⟨rfl, ?_⟩
      rw [IRGenerator.emitBlock_iterationStmts, createCondBr_iterationStmts _ _ _ _ _ hbr,
        (visitExpr_appends t _ _ _ _ hc).iterationStmts, IRGenerator.emitBlock_iterationStmts]
      exact lookup_setIteration _ _ _

/-- The loop node's handles after the part of `visit(ForStmtNode)` that
precedes the body: the update block exists exactly when there are updates. -/
theorem forHead_iteration (t : StaticScriptLexer) (g g1 : IRGenerator) (id : Nat)
    (initVarStmt : Option (List VarDeclNode)) (initExprs : List ExprNode)
    (condition : Option ExprNode) (updates : List ExprNode) (blocks : LoopBlocks)
    (h : forHead t g id initVarStmt initExprs condition updates = .ok (g1, blocks)) :
    (blocks.updateBB.isSome ↔ updates ≠ []) ∧
    lookup id g1.iterationStmts =
      some { isWhile := false, condBB := some blocks.condBB, updateBB := blocks.updateBB,
             endBB := some blocks.endBB } := by
  unfold forHead at h
  simp only at h
  split at h
  · exact absurd h (by simp)
  · rename_i g0 hinit
    by_cases hu : updates = []
    · subst hu
      simp only [List.isEmpty_nil, if_true] at h
      split at h
      · split at h
        · exact absurd h (by simp)
        · rename_i g3 code hc
          split at h
          · exact absurd h (by simp)
          · rename_i g4 hbr
            simp only [Except.ok.injEq, Prod.mk.injEq] at h
            obtain ⟨rfl, rfl⟩ := h
            refine ⟨by simp, ?_⟩
            rw [IRGenerator.emitBlock_iterationStmts, createCondBr_iterationStmts _ _ _ _ _ hbr,
              (visitExpr_appends t _ _ _ _ hc).iterationStmts,
              IRGenerator.createBasicBlock_iterationStmts,
              IRGenerator.emitBlock_iterationStmts]
            exact lookup_setIteration _ _ _
      · simp only [Except.ok.injEq, Prod.mk.injEq] at h
        obtain ⟨rfl, rfl⟩ := h
        refine ⟨by simp, ?_⟩
        rw [IRGenerator.emitBlock_iterationStmts]
        exact lookup_setIteration _ _ _
    · have hne : updates.isEmpty = false := by
        cases updates with
        | nil => exact absurd rfl hu
        | cons _ _ => rfl
      simp only [hne] at h
      split at h
      · split at h
        · exact absurd h (by simp)
        · rename_i g3 code hc
          split at h
          · exact absurd h (by simp)
          · rename_i g4 hbr
            simp only [Except.ok.injEq, Prod.mk.injEq] at h
            obtain ⟨rfl, rfl⟩ := h
            refine ⟨by simp [hu], ?_⟩
            rw [IRGenerator.emitBlock_iterationStmts, createCondBr_iterationStmts _ _ _ _ _ hbr,
              (visitExpr_appends t _ _ _ _ hc).iterationStmts,
              IRGenerator.createBasicBlock_iterationStmts]
            exact lookup_setIteration _ _ _
      · simp only [Except.ok.injEq, Prod.mk.injEq] at h
        obtain ⟨rfl, rfl⟩ := h
        refine ⟨by simp [hu], ?_⟩
        exact lookup_setIteration _ _ _

theorem IRGenerator.createAlloca_iterationStmts (g g1 : IRGenerator) (ty : LLVMType)
    (v : LLVMValue) (h : g.createAlloca ty = .ok (g1, v)) :
    g1.iterationStmts = g.iterationStmts := by
  unfold IRGenerator.createAlloca at h
  split at h
  · simp only [Except.ok.injEq] at h
    have hg : g1 = (g.insert (.alloca ty (some ty.prefTypeAlign))).1 := by rw [h]
    rw [hg]
    exact (g.appends_insert _).iterationStmts
  · exact absurd h (by simp)

theorem visitVarDecl_iterationStmts (t : StaticScriptLexer) (g g1 : IRGenerator)
    (d : VarDeclNode) (h : visitVarDecl t g d = .ok g1) :
    g1.iterationStmts = g.iterationStmts := by
  unfold visitVarDecl at h
  simp only at h
  split at h
  · exact absurd h (by simp)
  · rename_i g0 initCode hv
    have h0 : g0.iterationStmts = g.iterationStmts := by
      split at hv
      · exact (visitExpr_appends t _ _ _ _ hv).iterationStmts
      · simp only [Except.ok.injEq, Prod.mk.injEq] at hv
        obtain ⟨rfl, -⟩ := hv
        rfl
    split at h
    · split at h
      · exact absurd h (by simp)
      · split at h
        · split at h
          · simp only [Except.ok.injEq] at h
            subst h
            show (IRGenerator.insert _ _).1.iterationStmts = _
            rw [(IRGenerator.appends_insert _ _).iterationStmts]
            exact h0
          · exact absurd h (by simp)
        · simp only [Except.ok.injEq] at h
          subst h
          exact h0
    · split at h
      · exact absurd h (by simp)
      · rename_i g2 alloca ha
        have h2 := IRGenerator.createAlloca_iterationStmts _ _ _ _ ha
        split at h
        · split at h
          · simp only [Except.ok.injEq] at h
            subst h
            show (IRGenerator.insert _ _).1.iterationStmts = _
            rw [(IRGenerator.appends_insert _ _).iterationStmts, h2]
            exact h0
          · exact absurd h (by simp)
        · simp only [Except.ok.injEq] at h
          subst h
          show g2.iterationStmts = _
          rw [h2]; exact h0

theorem visitVarDecls_iterationStmts (t : StaticScriptLexer) :
    ∀ (ds : List VarDeclNode) (g g1 : IRGenerator), visitVarDecls t g ds = .ok g1 →
      g1.iterationStmts = g.iterationStmts
  | [], g, g1, h => by
    simp only [visitVarDecls, Except.ok.injEq] at h
    subst h; rfl
  | d :: ds, g, g1, h => by
    simp only [visitVarDecls] at h
    split at h
    · exact absurd h (by simp)
    · rename_i g2 hd
      rw [visitVarDecls_iterationStmts t ds g2 g1 h, visitVarDecl_iterationStmts t g g2 d hd]

theorem visitExprList_iterationStmts (t : StaticScriptLexer) (g g1 : IRGenerator)
    (es : List ExprNode) (h : visitExprList t g es = .ok g1) :
    g1.iterationStmts = g.iterationStmts := by
  unfold visitExprList at h
  split at h
  · exact absurd h (by simp)
  · rename_i g2 codes he
    simp only [Except.ok.injEq] at h
    subst h
    exact (visitExprs_appends t _ _ _ _ he).iterationStmts

theorem createBr_iterationStmts (g g1 : IRGenerator) (dest : Option Nat)
    (h : createBr g dest = .ok g1) : g1.iterationStmts = g.iterationStmts := by
  unfold createBr at h
  cases dest with
  | none => exact absurd h (by simp)
  | some c =>
    simp only [Except.ok.injEq] at h
    subst h
    exact (g.appends_insert _).iterationStmts

theorem visitContinue_iterationStmts (g g1 : IRGenerator) (ref : Option Nat)
    (h : visitContinue g ref = .ok g1) : g1.iterationStmts = g.iterationStmts := by
  unfold visitContinue at h
  split at h
  · exact absurd h (by simp)
  · split at h
    · exact absurd h (by simp)
    · split at h
      · exact createBr_iterationStmts _ _ _ h
      · split at h
        · exact createBr_iterationStmts _ _ _ h
        · exact createBr_iterationStmts _ _ _ h

theorem visitBreak_iterationStmts (g g1 : IRGenerator) (ref : Option Nat)
    (h : visitBreak g ref = .ok g1) : g1.iterationStmts = g.iterationStmts := by
  unfold visitBreak at h
  split at h
  · exact absurd h (by simp)
  · split at h
    · exact absurd h (by simp)
    · exact createBr_iterationStmts _ _ _ h

theorem visitReturn_iterationStmts (t : StaticScriptLexer) (g g1 : IRGenerator)
    (e : Option ExprNode) (h : visitReturn t g e = .ok g1) :
    g1.iterationStmts = g.iterationStmts := by
  unfold visitReturn at h
  split at h
  · simp only [Except.ok.injEq] at h
    subst h
    exact (g.appends_insert _).iterationStmts
  · split at h
    · exact absurd h (by simp)
    · rename_i g2 v hv
      simp only [Except.ok.injEq] at h
      subst h
      rw [(IRGenerator.appends_insert _ _).iterationStmts]
      exact (visitExpr_appends t _ _ _ _ hv).iterationStmts
    · rename_i g2 hv
      simp only [Except.ok.injEq] at h
      subst h
      rw [(IRGenerator.appends_insert _ _).iterationStmts]
      exact (visitExpr_appends t _ _ _ _ hv).iterationStmts

theorem ifHead_iterationStmts (t : StaticScriptLexer) (g g1 : IRGenerator) (c : ExprNode)
    (hasElse : Bool) (blocks : IfBlocks) (h : ifHead t g c hasElse = .ok (g1, blocks)) :
    g1.iterationStmts = g.iterationStmts := by
  unfold ifHead at h
  split at h
  · exact absurd h (by simp)
  · rename_i g2 code hc
    simp only at h
    split at h
    · exact absurd h (by simp)
    · rename_i g3 hbr
      simp only [Except.ok.injEq, Prod.mk.injEq] at h
      obtain ⟨rfl, -⟩ := h
      rw [IRGenerator.emitBlock_iterationStmts, createCondBr_iterationStmts _ _ _ _ _ hbr]
      cases hasElse
      · simp only [Bool.false_eq_true, if_false]
        rw [IRGenerator.createBasicBlock_iterationStmts,
          IRGenerator.createBasicBlock_iterationStmts]
        exact (visitExpr_appends t _ _ _ _ hc).iterationStmts
      · simp only [if_true]
        rw [IRGenerator.createBasicBlock_iterationStmts,
          IRGenerator.createBasicBlock_iterationStmts,
          IRGenerator.createBasicBlock_iterationStmts]
        exact (visitExpr_appends t _ _ _ _ hc).iterationStmts

theorem loopTail_iterationStmts (g : IRGenerator) (blocks : LoopBlocks) :
    (loopTail g blocks).iterationStmts = g.iterationStmts := by
  unfold loopTail
  rw [IRGenerator.emitBlock_iterationStmts, IRGenerator.emitBranch_iterationStmts]

theorem forTail_iterationStmts (t : StaticScriptLexer) (g g1 : IRGenerator)
    (updates : List ExprNode) (blocks : LoopBlocks) (h : forTail t g updates blocks = .ok g1) :
    g1.iterationStmts = g.iterationStmts := by
  unfold forTail at h
  split at h
  · simp only [Except.ok.injEq] at h
    subst h
    exact loopTail_iterationStmts _ _
  · split at h
    · exact absurd h (by simp)
    · split at h
      · exact absurd h (by simp)
      · rename_i u g2 he
        simp only [Except.ok.injEq] at h
        subst h
        rw [loopTail_iterationStmts, visitExprList_iterationStmts t _ _ _ he,
          IRGenerator.emitBlock_iterationStmts]

theorem paramAllocas_iterationStmts (func : Nat) :
    ∀ (ps : List ParmVarDeclNode) (i : Nat) (g g1 : IRGenerator),
      paramAllocas g func i ps = .ok g1 → g1.iterationStmts = g.iterationStmts
  | [], i, g, g1, h => by
    simp only [paramAllocas, Except.ok.injEq] at h
    subst h; rfl
  | p :: ps, i, g, g1, h => by
    simp only [paramAllocas] at h
    split at h
    · exact absurd h (by simp)
    · rename_i g2 a ha
      rw [paramAllocas_iterationStmts func ps (i + 1) _ g1 h]
      show (IRGenerator.insert _ _).1.iterationStmts = _
      rw [(IRGenerator.appends_insert _ _).iterationStmts]
      exact IRGenerator.createAlloca_iterationStmts _ _ _ _ ha

theorem functionHead_iterationStmts (g g1 : IRGenerator) (name : String)
    (params : List ParmVarDeclNode) (returnType : Option BuiltinTypeNode)
    (h : functionHead g name params returnType = .ok g1) :
    g1.iterationStmts = g.iterationStmts := by
  unfold functionHead at h
  simp only at h
  rw [paramAllocas_iterationStmts _ _ _ _ _ h]
  rfl

theorem functionTail_iterationStmts (g g1 : IRGenerator) (returnType : Option BuiltinTypeNode)
    (h : functionTail g returnType = .ok g1) : g1.iterationStmts = g.iterationStmts := by
  unfold functionTail at h
  split at h
  · simp only [Except.ok.injEq] at h
    subst h; rfl
  · split at h
    · exact absurd h (by simp)
    · split at h
      · simp only [Except.ok.injEq] at h
        subst h; rfl
      · simp only [Except.ok.injEq] at h
        subst h
        exact (g.appends_insert _).iterationStmts

theorem IRGenerator.setFuncInsertPoint_iterationStmts (g g1 : IRGenerator) (func : Nat)
    (h : g.setFuncInsertPoint func = .ok g1) : g1.iterationStmts = g.iterationStmts := by
  unfold IRGenerator.setFuncInsertPoint at h
  split at h
  · exact absurd h (by simp)
  · split at h
    · exact absurd h (by simp)
    · simp only [Except.ok.injEq] at h
      subst h; rfl

theorem lookup_cons_ne {α : Type} (key k : Nat) (v : α) (l : List (Nat × α)) (h : k ≠ key) :
    lookup key ((k, v) :: l) = lookup key l := by
  simp [lookup, h]

theorem whileHead_lookup_ne (t : StaticScriptLexer) (g g1 : IRGenerator) (id node : Nat)
    (condition : ExprNode) (blocks : LoopBlocks)
    (h : whileHead t g id condition = .ok (g1, blocks)) (hne : id ≠ node) :
    lookup node g1.iterationStmts = lookup node g.iterationStmts := by
  unfold whileHead at h
  simp only at h
  split at h
  · exact absurd h (by simp)
  · rename_i g2 code hc
    split at h
    · exact absurd h (by simp)
    · rename_i g3 hbr
      simp only [Except.ok.injEq, Prod.mk.injEq] at h
      obtain ⟨rfl, -⟩ := h
      rw [IRGenerator.emitBlock_iterationStmts, createCondBr_iterationStmts _ _ _ _ _ hbr,
        (visitExpr_appends t _ _ _ _ hc).iterationStmts, IRGenerator.emitBlock_iterationStmts]
      show lookup node ((id, _) :: _) = _
      rw [lookup_cons_ne _ _ _ _ hne, IRGenerator.createBasicBlock_iterationStmts,
        IRGenerator.createBasicBlock_iterationStmts, IRGenerator.createBasicBlock_iterationStmts]

theorem forHead_lookup_ne (t : StaticScriptLexer) (g g1 : IRGenerator) (id node : Nat)
    (initVarStmt : Option (List VarDeclNode)) (initExprs : List ExprNode)
    (condition : Option ExprNode) (updates : List ExprNode) (blocks : LoopBlocks)
    (h : forHead t g id initVarStmt initExprs condition updates = .ok (g1, blocks))
    (hne : id ≠ node) :
    lookup node g1.iterationStmts = lookup node g.iterationStmts := by
  unfold forHead at h
  simp only at h
  split at h
  · exact absurd h (by simp)
  · rename_i g0 hinit
    have h0 : g0.iterationStmts = g.iterationStmts := by
      split at hinit
      · exact visitVarDecls_iterationStmts t _ _ _ hinit
      · exact visitExprList_iterationStmts t _ _ _ hinit
    have hbase : ∀ it : IterationStmtNode,
        lookup node
          ((((g0.createBasicBlock "for.cond" none).1.createBasicBlock "for.end" none).1.setIteration
            id it).emitBlock (g0.createBasicBlock "for.cond" none).2 false).iterationStmts =
        lookup node g.iterationStmts := by
      intro it
      rw [IRGenerator.emitBlock_iterationStmts]
      show lookup node ((id, it) :: _) = _
      rw [lookup_cons_ne _ _ _ _ hne, IRGenerator.createBasicBlock_iterationStmts,
        IRGenerator.createBasicBlock_iterationStmts, h0]
    by_cases hu : updates.isEmpty = true
    · simp only [hu, if_true] at h
      split at h
      · split at h
        · exact absurd h (by simp)
        · rename_i g3 code hc
          split at h
          · exact absurd h (by simp)
          · rename_i g4 hbr
            simp only [Except.ok.injEq, Prod.mk.injEq] at h
            obtain ⟨rfl, -⟩ := h
            rw [IRGenerator.emitBlock_iterationStmts, createCondBr_iterationStmts _ _ _ _ _ hbr,
              (visitExpr_appends t _ _ _ _ hc).iterationStmts,
              IRGenerator.createBasicBlock_iterationStmts]
            exact hbase _
      · simp only [Except.ok.injEq, Prod.mk.injEq] at h
        obtain ⟨rfl, -⟩ := h
        exact hbase _
    · simp only [hu] at h
      split at h
      · split at h
        · exact absurd h (by simp)
        · rename_i g3 code hc
          split at h
          · exact absurd h (by simp)
          · rename_i g4 hbr
            simp only [Except.ok.injEq, Prod.mk.injEq] at h
            obtain ⟨rfl, -⟩ := h
            rw [IRGenerator.emitBlock_iterationStmts, createCondBr_iterationStmts _ _ _ _ _ hbr,
              (visitExpr_appends t _ _ _ _ hc).iterationStmts,
              IRGenerator.createBasicBlock_iterationStmts]
            show lookup node ((id, _) :: _) = _
            rw [lookup_cons_ne _ _ _ _ hne, IRGenerator.createBasicBlock_iterationStmts]
            exact hbase _
      · simp only [Except.ok.injEq, Prod.mk.injEq] at h
        obtain ⟨rfl, -⟩ := h
        show lookup node ((id, _) :: _) = _
        rw [lookup_cons_ne _ _ _ _ hne, IRGenerator.createBasicBlock_iterationStmts]
        exact hbase _

mutual
/-- Visiting a statement leaves the handles of every loop node that is not
inside the statement as they were. -/
theorem visitStmt_lookup (t : StaticScriptLexer) (node : Nat) :
    ∀ (s : StmtNode) (g g1 : IRGenerator), visitStmt t g s = .ok g1 → node ∉ s.loopIds →
      lookup node g1.iterationStmts = lookup node g.iterationStmts
  | .exprStmt e, g, g1, h, _ => by
    simp only [visitStmt] at h
    split at h
    · exact absurd h (by simp)
    · rename_i g2 c he
      simp only [Except.ok.injEq] at h
      subst h
      rw [(visitExpr_appends t _ _ _ _ he).iterationStmts]
  | .compoundStmt l, g, g1, h, hn => by
    simp only [visitStmt] at h
    exact visitStmts_lookup t node l g g1 h (by simpa [StmtNode.loopIds] using hn)
  | .varDeclStmt ds, g, g1, h, _ => by
    simp only [visitStmt] at h
    rw [visitVarDecls_iterationStmts t _ _ _ h]
  | .functionDeclStmt name params returnType body, g, g1, h, hn => by
    simp only [visitStmt] at h
    split at h
    · exact absurd h (by simp)
    · rename_i g2 hh
      split at h
      · exact absurd h (by simp)
      · rename_i g3 hb
        split at h
        · exact absurd h (by simp)
        · rename_i g4 ht
          rw [IRGenerator.setFuncInsertPoint_iterationStmts _ _ _ h,
            functionTail_iterationStmts _ _ _ ht,
            visitStmt_lookup t node body g2 g3 hb (by simpa [StmtNode.loopIds] using hn),
            functionHead_iterationStmts _ _ _ _ _ hh]
  | .ifStmt c thenBody elseBody, g, g1, h, hn => by
    simp only [visitStmt] at h
    simp only [StmtNode.loopIds, List.mem_append, not_or] at hn
    split at h
    · exact absurd h (by simp)
    · rename_i g2 blocks hh
      split at h
      · exact absurd h (by simp)
      · rename_i g3 hb
        split at h
        · exact absurd h (by simp)
        · rename_i g4 he
          simp only [Except.ok.injEq] at h
          subst h
          rw [IRGenerator.emitBlock_iterationStmts,
            visitElse_lookup t node elseBody _ g4 blocks he hn.2,
            IRGenerator.emitBranch_iterationStmts,
            visitStmt_lookup t node thenBody g2 g3 hb hn.1,
            ifHead_iterationStmts t _ _ _ _ _ hh]
  | .whileStmt id c body, g, g1, h, hn => by
    simp only [visitStmt] at h
    simp only [StmtNode.loopIds, List.mem_cons, not_or] at hn
    split at h
    · exact absurd h (by simp)
    · rename_i g2 blocks hh
      split at h
      · exact absurd h (by simp)
      · rename_i g3 hb
        simp only [Except.ok.injEq] at h
        subst h
        rw [loopTail_iterationStmts, visitStmt_lookup t node body g2 g3 hb hn.2,
          whileHead_lookup_ne t _ _ _ _ _ _ hh (Ne.symm hn.1)]
  | .forStmt id iv ie c u body, g, g1, h, hn => by
    simp only [visitStmt] at h
    simp only [StmtNode.loopIds, List.mem_cons, not_or] at hn
    split at h
    · exact absurd h (by simp)
    · rename_i g2 blocks hh
      split at h
      · exact absurd h (by simp)
      · rename_i g3 hb
        rw [forTail_iterationStmts t _ _ _ _ h, visitStmt_lookup t node body g2 g3 hb hn.2,
          forHead_lookup_ne t _ _ _ _ _ _ _ _ _ hh (Ne.symm hn.1)]
  | .continueStmt r, g, g1, h, _ => by
    simp only [visitStmt] at h
    rw [visitContinue_iterationStmts _ _ _ h]
  | .breakStmt r, g, g1, h, _ => by
    simp only [visitStmt] at h
    rw [visitBreak_iterationStmts _ _ _ h]
  | .returnStmt e, g, g1, h, _ => by
    simp only [visitStmt] at h
    rw [visitReturn_iterationStmts t _ _ _ h]
theorem visitElse_lookup (t : StaticScriptLexer) (node : Nat) :
    ∀ (s : Option StmtNode) (g g1 : IRGenerator) (blocks : IfBlocks),
      visitElse t g blocks s = .ok g1 → node ∉ loopIdsOption s →
      lookup node g1.iterationStmts = lookup node g.iterationStmts
  | none, g, g1, blocks, h, _ => by
    simp only [visitElse, Except.ok.injEq] at h
    subst h; rfl
  | some body, g, g1, blocks, h, hn => by
    simp only [visitElse] at h
    split at h
    · exact absurd h (by simp)
    · rename_i g2 hb
      simp only [Except.ok.injEq] at h
      subst h
      rw [IRGenerator.emitBranch_iterationStmts,
        visitStmt_lookup t node body _ g2 hb (by simpa [loopIdsOption] using hn),
        IRGenerator.emitBlock_iterationStmts]
theorem visitStmts_lookup (t : StaticScriptLexer) (node : Nat) :
    ∀ (l : List StmtNode) (g g1 : IRGenerator), visitStmts t g l = .ok g1 →
      node ∉ loopIdsList l →
      lookup node g1.iterationStmts = lookup node g.iterationStmts
  | [], g, g1, h, _ => by
    simp only [visitStmts, Except.ok.injEq] at h
    subst h; rfl
  | s :: rest, g, g1, h, hn => by
    simp only [visitStmts] at h
    simp only [loopIdsList, List.mem_append, not_or] at hn
    split at h
    · exact absurd h (by simp)
    · rename_i g2 hs
      rw [visitStmts_lookup t node rest g2 g1 h hn.2, visitStmt_lookup t node s g g2 hs hn.1]
end

/-- C9: `break` bound to a visited loop branches to the loop's end block;
`continue` branches to the loop's condition block when the loop is a while
statement or a for statement without update block, and to the update block of
a for statement that has one.  The handles are those the loop's visitor wrote
before it visits the body: a while statement has no update block, and a for
statement has one exactly when its update list is not empty; they stay as
written while statements that do not contain the loop are visited. -/
theorem visitBreak_visitContinue_target (t : StaticScriptLexer) (g : IRGenerator) :
    (∀ node it endBB, lookup node g.iterationStmts = some it → it.endBB = some endBB →
      visitBreak g (some node) = .ok (g.insert (.br endBB)).1) ∧
    (∀ node it condBB, lookup node g.iterationStmts = some it → it.condBB = some condBB →
      (it.isWhile = true ∨ it.updateBB = none) →
      visitContinue g (some node) = .ok (g.insert (.br condBB)).1) ∧
    (∀ node it updateBB, lookup node g.iterationStmts = some it → it.isWhile = false →
      it.updateBB = some updateBB →
      visitContinue g (some node) = .ok (g.insert (.br updateBB)).1) ∧
    (∀ id condition body g1 blocks, whileHead t g id condition = .ok (g1, blocks) →
      visitStmt t g (.whileStmt id condition body) =
        (match visitStmt t g1 body with
         | .error e => .error e
         | .ok g2 => .ok (loopTail g2 blocks)) ∧
      lookup id g1.iterationStmts =
        some { isWhile := true, condBB := some blocks.condBB, updateBB := none,
               endBB := some blocks.endBB }) ∧
    (∀ id initVarStmt initExprs condition updates body g1 blocks,
      forHead t g id initVarStmt initExprs condition updates = .ok (g1, blocks) →
      visitStmt t g (.forStmt id initVarStmt initExprs condition updates body) =
        (match visitStmt t g1 body with
         | .error e => .error e
         | .ok g2 => forTail t g2 updates blocks) ∧
      (blocks.updateBB.isSome ↔ updates ≠ []) ∧
      lookup id g1.iterationStmts =
        some { isWhile := false, condBB := some blocks.condBB, updateBB := blocks.updateBB,
               endBB := some blocks.endBB }) ∧
    (∀ node s g1, visitStmt t g s = .ok g1 → node ∉ s.loopIds →
      lookup node g1.iterationStmts = lookup node g.iterationStmts) := by
  refine ⟨?_, ?_, ?_, ?_, ?_, fun node s g1 h hn => visitStmt_lookup t node s g g1 h hn⟩
  · intro node it endBB hl he
    simp [visitBreak, hl, he, createBr]
  · intro node it condBB hl hc hw
    rcases hw with hw | hw
    · simp [visitContinue, hl, hc, hw, createBr]
    · by_cases hw2 : it.isWhile = true
      · simp [visitContinue, hl, hc, hw2, createBr]
      · simp [visitContinue, hl, hc, hw, hw2, createBr]
  · intro node it updateBB hl hw hu
    simp [visitContinue, hl, hw, hu, createBr]
  · intro id condition body g1 blocks h
    refine ⟨?_, (whileHead_iteration t g g1 id condition blocks h).2⟩
    simp only [visitStmt, h]
  · intro id initVarStmt initExprs condition updates body g1 blocks h
    refine ⟨?_, forHead_iteration t g g1 id initVarStmt initExprs condition updates blocks h⟩
    simp only [visitStmt, h]

theorem sampleLexer_wellFormed : sampleLexer.WellFormed where
  nodup := by decide
  range := by decide

/-! ## Instances on concrete programs -/

/-- The call `h(1, 2)` in a module that declares `h` with two parameters. -/
theorem visitExpr_call_witness :
    (visitExpr sampleLexer mainOpenedWithF
        (.call (some .integer) "h" [.integerLiteral (some .integer) 1,
          .integerLiteral (some .integer) 2]) = .error .undefinedFunction ↔
      ∀ f ∈ mainOpenedWithF.functions, f.name ≠ "h") ∧
    ∀ calleeFunc, mainOpenedWithF.getFunction "h" = some calleeFunc →
      (∃ fn, mainOpenedWithF.functions[calleeFunc]? = some fn ∧ fn.name = "h") ∧
      (visitExpr sampleLexer mainOpenedWithF
          (.call (some .integer) "h" [.integerLiteral (some .integer) 1,
            .integerLiteral (some .integer) 2]) = .error .argumentCountMismatch ↔
        mainOpenedWithF.argSize calleeFunc ≠
          [ExprNode.integerLiteral (some .integer) 1, .integerLiteral (some .integer) 2].length) ∧
      (mainOpenedWithF.argSize calleeFunc =
          [ExprNode.integerLiteral (some .integer) 1, .integerLiteral (some .integer) 2].length →
        ∃ g', visitExpr sampleLexer mainOpenedWithF
            (.call (some .integer) "h" [.integerLiteral (some .integer) 1,
              .integerLiteral (some .integer) 2]) =
            .ok (g', some (.instruction mainOpenedWithF.nextValue)) ∧
          g'.stream = mainOpenedWithF.stream ++
            [(mainOpenedWithF.nextValue,
              .call (.function calleeFunc) [.constantInt .int64Ty 1, .constantInt .int64Ty 2])] ∧
          g'.functions = mainOpenedWithF.functions ∧
          g'.insertBlock = mainOpenedWithF.insertBlock ∧
          ∀ b, mainOpenedWithF.insertBlock ≠ some b → g'.blocks[b]? = mainOpenedWithF.blocks[b]?) :=
  visitExpr_call sampleLexer mainOpenedWithF mainOpenedWithF (some .integer) "h"
    [.integerLiteral (some .integer) 1, .integerLiteral (some .integer) 2]
    [some (.constantInt .int64Ty 1), some (.constantInt .int64Ty 2)]
    [.constantInt .int64Ty 1, .constantInt .int64Ty 2] rfl rfl rfl

/-- Unary code 23 (`Minus`) on a literal is lowered, unary code 40 and binary
code 40 on literals raise. -/
theorem visitExpr_unsupported_operator_witness :
    ((∃ r, visitExpr sampleLexer mainOpened
        (.unaryOperator (some .integer) 23 (.integerLiteral (some .integer) 5)) = .ok r) ↔
      23 = sampleLexer.Minus) ∧
    (visitExpr sampleLexer mainOpened
        (.unaryOperator (some .integer) 40 (.integerLiteral (some .integer) 5)) =
        .error .unsupportedUnaryOperator ↔ 40 ≠ sampleLexer.Minus) ∧
    (visitExpr sampleLexer mainOpened
        (.binaryOperator (some .integer) 40 (.integerLiteral (some .integer) 1)
          (.integerLiteral (some .integer) 2)) = .error .unsupportedBinaryOperator ↔
      40 ∉ sampleLexer.binaryOperators) :=
  ⟨((visitExpr_unsupported_operator sampleLexer sampleLexer_wellFormed mainOpened
      (some .integer) 23).1 (.integerLiteral (some .integer) 5) mainOpened
      (.constantInt .int64Ty 5) rfl).1,
   ((visitExpr_unsupported_operator sampleLexer sampleLexer_wellFormed mainOpened
      (some .integer) 40).1 (.integerLiteral (some .integer) 5) mainOpened
      (.constantInt .int64Ty 5) rfl).2,
   (visitExpr_unsupported_operator sampleLexer sampleLexer_wellFormed mainOpened
      (some .integer) 40).2 (.integerLiteral (some .integer) 1)
      (.integerLiteral (some .integer) 2)
      (fun g0 => by simp [visitExpr]) (fun g0 => by simp [visitExpr])⟩

/-- The comparison of the string literals `a` and `b` for equality: two string
constructions, the call of the equality entry point, and the comparison of its
result with zero. -/
theorem visitExpr_string_operators_witness :
    ∃ g', visitExpr sampleLexer mainOpened
        (.binaryOperator (some .boolean) sampleLexer.Equals (.stringLiteral (some .string) "a")
          (.stringLiteral (some .string) "b")) = .ok (g', some (.instruction 3)) ∧
      g'.stream =
        [(0, .call .createFunc [.constantCast (.globalVariable 0) .int8PtrTy]),
         (1, .call .createFunc [.constantCast (.globalVariable 1) .int8PtrTy]),
         (2, .call .equalsFunc [.instruction 0, .instruction 1]),
         (3, .binary .icmpEQ (.instruction 2) (.constantInt .int32Ty 0))] :=
  have h := (visitExpr_string_operators sampleLexer sampleLexer_wellFormed mainOpened
    (generatorOf (visitExpr sampleLexer mainOpened (.stringLiteral (some .string) "a")))
    (generatorOf (visitExpr sampleLexer
      (generatorOf (visitExpr sampleLexer mainOpened (.stringLiteral (some .string) "a")))
      (.stringLiteral (some .string) "b")))
    (some .boolean) (.stringLiteral (some .string) "a") (.stringLiteral (some .string) "b")
    (.instruction 0) (.instruction 1) rfl rfl rfl rfl).2.1
  match h with
  | ⟨g', h1, h2, _⟩ => ⟨g', h1, h2⟩

/-- In the body of `for (;; 1)` (blocks: cond 1, end 2, update 3) `break`
branches to block 2 and `continue` to block 3; in the body of `for (;;)`
`continue` branches to the condition block 1, and so it does in the body of
`while (true)`. -/
theorem visitBreak_visitContinue_target_witness :
    visitBreak
        (generatorOf (forHead sampleLexer mainOpened 0 none [] none
          [.integerLiteral (some .integer) 1])) (some 0) =
      .ok ((generatorOf (forHead sampleLexer mainOpened 0 none [] none
          [.integerLiteral (some .integer) 1])).insert (.br 2)).1 ∧
    visitContinue
        (generatorOf (forHead sampleLexer mainOpened 0 none [] none
          [.integerLiteral (some .integer) 1])) (some 0) =
      .ok ((generatorOf (forHead sampleLexer mainOpened 0 none [] none
          [.integerLiteral (some .integer) 1])).insert (.br 3)).1 ∧
    visitContinue
        (generatorOf (forHead sampleLexer mainOpened 0 none [] none [])) (some 0) =
      .ok ((generatorOf (forHead sampleLexer mainOpened 0 none [] none [])).insert (.br 1)).1 ∧
    visitContinue
        (generatorOf (whileHead sampleLexer mainOpened 0 trueLiteral)) (some 0) =
      .ok ((generatorOf (whileHead sampleLexer mainOpened 0 trueLiteral)).insert (.br 1)).1 :=
  ⟨(visitBreak_visitContinue_target sampleLexer _).1 0
      { isWhile := false, condBB := some 1, updateBB := some 3, endBB := some 2 } 2 rfl rfl,
   (visitBreak_visitContinue_target sampleLexer _).2.2.1 0
      { isWhile := false, condBB := some 1, updateBB := some 3, endBB := some 2 } 3 rfl rfl rfl,
   (visitBreak_visitContinue_target sampleLexer _).2.1 0
      { isWhile := false, condBB := some 1, updateBB := none, endBB := some 2 } 1 rfl rfl
      (Or.inr rfl),
   (visitBreak_visitContinue_target sampleLexer _).2.1 0
      { isWhile := true, condBB := some 1, updateBB := none, endBB := some 3 } 1 rfl rfl
      (Or.inl rfl)⟩

/-- C10: lowering `while (true) { break; break; }` in the entry function
succeeds and leaves the block `while.body`, a block of `main`, with two
terminators: each `break` appends a branch to `while.end` without looking at
the block's terminator. -/
theorem visitStmt_whileBreakBreak :
    ∃ g', visitStmt sampleLexer mainOpened whileBreakBreak = .ok g' ∧
      (g'.functions[0]?).map (fun f => f.blocks) = some [0, 1, 2, 3] ∧
      g'.instsOf 2 = [(2, .br 3), (3, .br 3)] ∧
      (g'.terminatorsOf 2).length = 2 :=
  ⟨_, rfl, rfl, rfl, rfl⟩

/-! ## Control flow on concrete programs -/

/-- C13, as amended: lowering `while (true) { break; }` at the start of the
entry function gives a condition block whose conditional branch on the literal
goes to the body block and, on its false edge, to the end block; a body block
whose only instruction is the branch to the end block; and an end block that
is kept in the function, is the open block, and has two predecessors, the
condition block and the body block. -/
theorem visitStmt_whileBreak :
    ∃ g', visitStmt sampleLexer mainOpened whileBreak = .ok g' ∧
      g'.blocksOf 0 = [0, 1, 2, 3] ∧
      g'.instsOf 1 = [(1, .condBr (.constantInt .int1Ty 1) 2 3)] ∧
      g'.instsOf 2 = [(2, .br 3)] ∧
      (g'.blocks[3]?).map (fun b => (b.name, b.erased)) = some ("while.end", false) ∧
      g'.insertBlock = some 3 ∧
      g'.predecessors 0 3 = [1, 2] :=
  ⟨_, rfl, rfl, rfl, rfl, rfl, rfl, rfl⟩

/-- C13 fails as stated: after lowering `while (true) { break; }` the body
block is not the only predecessor of the end block. -/
theorem visitStmt_whileBreak_counterexample :
    ¬ ∃ g', visitStmt sampleLexer mainOpened whileBreak = .ok g' ∧
      g'.predecessors 0 3 = [2] := by
  rintro ⟨g', h, hp⟩
  have h0 : (visitStmt sampleLexer mainOpened whileBreak).map
      (fun g => g.predecessors 0 3) = .ok [1, 2] := rfl
  rw [h] at h0
  simp only [Except.map, Except.ok.injEq] at h0
  rw [hp] at h0
  exact absurd h0 (by decide)

/-- C15: for the module `for (;;) { }` every block of `main` is terminated when
the walk of the top-level statements completes, and `visit(ModuleNode)` still
appends `ret 0`: the block `for.cond` ends up with two terminators. -/
theorem resolve_forEver :
    (∃ g2, visitStmts sampleLexer (openMain (freshGenerator [])) [forEver] = .ok g2 ∧
      g2.blocksOf g2.mainFn = [0, 1] ∧
      (g2.getTerminator 0).isSome = true ∧ (g2.getTerminator 1).isSome = true) ∧
    ∃ g', resolve sampleLexer [] [forEver] = .ok g' ∧
      g'.blocksOf g'.mainFn = [0, 1] ∧
      g'.instsOf 1 = [(1, .br 1), (2, .ret (.constantInt .int64Ty 0))] ∧
      (g'.terminatorsOf 1).length = 2 :=
  ⟨⟨_, rfl, rfl, rfl, rfl⟩, ⟨_, rfl, rfl, rfl, rfl⟩⟩

/-- C18: for `function f() { if (true) { return; } else { return; } }` the
body is lowered with success and leaves the insertion point cleared, since
`emitBlock` discards the block `if.end`; the check of the final block's
terminator then reads the absent block.  The same happens for
`function f() { for (;;) { } }`. -/
theorem visitStmt_functionIfElseReturn :
    (∃ g1 g2, functionHead mainOpened "f" [] none = .ok g1 ∧
      visitStmt sampleLexer g1
        (.compoundStmt [.ifStmt trueLiteral (.compoundStmt [.returnStmt none])
          (some (.compoundStmt [.returnStmt none]))]) = .ok g2 ∧
      g2.insertBlock = none ∧
      functionTail g2 none = .error .undefinedBehaviour) ∧
    visitStmt sampleLexer mainOpened functionIfElseReturn = .error .undefinedBehaviour ∧
    visitStmt sampleLexer mainOpened functionForEver = .error .undefinedBehaviour :=
  ⟨⟨_, _, rfl, rfl, rfl, rfl⟩, rfl, rfl⟩

/-! ## The block primitives -/

theorem IRGenerator.instsOf_insert_self (g : IRGenerator) (i : Instruction) (curBB : Nat)
    (hc : g.insertBlock = some curBB) (hlt : curBB < g.blocks.length) :
    (g.insert i).1.instsOf curBB = g.instsOf curBB ++ [(g.nextValue, i)] := by
  have hv : g.cursorValid = true := by
    unfold IRGenerator.cursorValid; rw [hc]; exact decide_eq_true hlt
  have hs := g.stream_insert i hv
  have hi := (g.appends_insert i).insertBlock
  unfold IRGenerator.stream at hs
  rw [hi, hc] at hs
  exact hs

/-- C17, as amended: `emitBranch(target)` appends exactly one unconditional
branch to `target` to the current block when there is a current block and it
has no terminator, and creates no instruction otherwise; in every case the
insertion point is cleared afterwards, and nothing else changes. -/
theorem emitBranch_spec (g : IRGenerator) (targetBB : Nat) :
    (g.emitBranch targetBB).insertBlock = none ∧
    (∀ curBB, g.insertBlock = some curBB → g.getTerminator curBB = none →
      g.emitBranch targetBB = { (g.insert (.br targetBB)).1 with insertBlock := none } ∧
      (curBB < g.blocks.length →
        (g.emitBranch targetBB).instsOf curBB =
          g.instsOf curBB ++ [(g.nextValue, .br targetBB)]) ∧
      ∀ b, b ≠ curBB → (g.emitBranch targetBB).blocks[b]? = g.blocks[b]?) ∧
    ((g.insertBlock = none ∨
        ∃ curBB, g.insertBlock = some curBB ∧ (g.getTerminator curBB).isSome = true) →
      g.emitBranch targetBB = { g with insertBlock := none }) := by
  refine ⟨rfl, ?_, ?_⟩
  · intro curBB hc ht
    have he : g.emitBranch targetBB =
        { (g.insert (.br targetBB)).1 with insertBlock := none } := by
      simp [IRGenerator.emitBranch, hc, ht]
    refine ⟨he, ?_, ?_⟩
    · intro hlt
      rw [he]
      exact g.instsOf_insert_self _ curBB hc hlt
    · intro b hb
      rw [he]
      exact (g.appends_insert _).others b (by rw [hc]; intro h; exact hb (Option.some.inj h).symm)
  · rintro (hn | ⟨curBB, hc, ht⟩)
    · simp [IRGenerator.emitBranch, hn]
    · simp [IRGenerator.emitBranch, hc, ht]

/-- On the open, empty entry block of `main`, `emitBranch(5)` appends the branch
to block 5 and clears the insertion point. -/
theorem emitBranch_spec_witness :
    mainOpened.emitBranch 5 = { (mainOpened.insert (.br 5)).1 with insertBlock := none } ∧
    (mainOpened.emitBranch 5).instsOf 0 = mainOpened.instsOf 0 ++ [(mainOpened.nextValue, .br 5)] ∧
    (mainOpened.emitBranch 5).insertBlock = none ∧
    mainReturned.emitBranch 5 = { mainReturned with insertBlock := none } :=
  ⟨((emitBranch_spec mainOpened 5).2.1 0 rfl rfl).1,
   ((emitBranch_spec mainOpened 5).2.1 0 rfl rfl).2.1 (by decide),
   (emitBranch_spec mainOpened 5).1,
   (emitBranch_spec mainReturned 5).2.2 (Or.inr ⟨0, rfl, rfl⟩)⟩

/-- C17 fails as stated: when the current block already has a terminator,
`emitBranch` changes the builder state, because it clears the insertion
point. -/
theorem emitBranch_counterexample :
    (mainReturned.getTerminator 0).isSome = true ∧ mainReturned.insertBlock = some 0 ∧
    (mainReturned.emitBranch 0).insertBlock = none ∧
    mainReturned.emitBranch 0 ≠ mainReturned := by
  refine ⟨rfl, rfl, rfl, ?_⟩
  intro h
  have h2 : (mainReturned.emitBranch 0).insertBlock = mainReturned.insertBlock := by rw [h]
  exact absurd h2 (by decide)

/-- C14: for a function declaration without return type whose body has been
lowered and has left the insertion point in a block: when that block has no
terminator, the visitor appends a void return as its last instruction and
touches no other block; when it has one, nothing is appended.  The visit of
the declaration then only resets the insertion point to `main`. -/
theorem functionTail_spec (t : StaticScriptLexer) (g g1 g2 : IRGenerator) (name : String)
    (params : List ParmVarDeclNode) (body : StmtNode) (curBB : Nat)
    (hHead : functionHead g name params none = .ok g1)
    (hBody : visitStmt t g1 body = .ok g2)
    (hCur : g2.insertBlock = some curBB) (hValid : curBB < g2.blocks.length) :
    (g2.getTerminator curBB = none →
      ∃ g3, functionTail g2 none = .ok g3 ∧
        g3.instsOf curBB = g2.instsOf curBB ++ [(g2.nextValue, .retVoid)] ∧
        g3.getTerminator curBB = some .retVoid ∧
        (∀ b, b ≠ curBB → g3.blocks[b]? = g2.blocks[b]?) ∧
        visitStmt t g (.functionDeclStmt name params none body) =
          g3.setFuncInsertPoint g3.mainFn) ∧
    ((g2.getTerminator curBB).isSome = true →
      functionTail g2 none = .ok g2 ∧
      visitStmt t g (.functionDeclStmt name params none body) =
        g2.setFuncInsertPoint g2.mainFn) := by
  constructor
  · intro ht
    have hf : functionTail g2 none = .ok (g2.insert .retVoid).1 := by
      simp [functionTail, hCur, ht]
    have hi := g2.instsOf_insert_self .retVoid curBB hCur hValid
    refine ⟨(g2.insert .retVoid).1, hf, hi, ?_, ?_, ?_⟩
    · unfold IRGenerator.getTerminator
      rw [hi]
      simp [Instruction.isTerminator]
    · intro b hb
      exact (g2.appends_insert _).others b
        (by rw [hCur]; intro h; exact hb (Option.some.inj h).symm)
    · simp only [visitStmt, hHead, hBody, hf]
  · intro ht
    have hf : functionTail g2 none = .ok g2 := by
      simp [functionTail, hCur, ht]
    exact ⟨hf, by simp only [visitStmt, hHead, hBody, hf]⟩

/-- Scenario E: `function f() { }` gets a void return as the last (and only)
instruction of its entry block. -/
theorem functionTail_spec_witness :
    ∃ g3, functionTail (resultOf (functionHead mainOpened "f" [] none)) none = .ok g3 ∧
      g3.instsOf 1 = (resultOf (functionHead mainOpened "f" [] none)).instsOf 1 ++
        [((resultOf (functionHead mainOpened "f" [] none)).nextValue, .retVoid)] ∧
      g3.getTerminator 1 = some .retVoid ∧
      (∀ b, b ≠ 1 → g3.blocks[b]? = (resultOf (functionHead mainOpened "f" [] none)).blocks[b]?) ∧
      visitStmt sampleLexer mainOpened functionEmpty = g3.setFuncInsertPoint g3.mainFn :=
  (functionTail_spec sampleLexer mainOpened (resultOf (functionHead mainOpened "f" [] none))
    (resultOf (functionHead mainOpened "f" [] none)) "f" [] (.compoundStmt []) 1
    rfl rfl rfl (by decide)).1 rfl

theorem updateAt_getElem? {α : Type} (f : α → α) (n m : Nat) (l : List α) :
    (updateAt f n l)[m]? = if m = n then l[m]?.map f else l[m]? := by
  by_cases h : m = n
  · subst h; simp [updateAt_getElem?_self]
  · simp [h, updateAt_getElem?_ne f n m l h]

theorem IRGenerator.insert_blocks_parent (g : IRGenerator) (i : Instruction) (c : Nat) :
    ((g.insert i).1.blocks[c]?).map (fun b => b.parent) = (g.blocks[c]?).map (fun b => b.parent) := by
  unfold IRGenerator.insert
  cases g.insertBlock with
  | none => rfl
  | some bb =>
    simp only [updateAt_getElem?]
    split
    · cases g.blocks[c]? <;> rfl
    · rfl

theorem IRGenerator.emitBranch_functions (g : IRGenerator) (bb : Nat) :
    (g.emitBranch bb).functions = g.functions := by
  unfold IRGenerator.emitBranch
  cases g.insertBlock with
  | none => rfl
  | some c =>
    simp only
    split
    · rfl
    · exact (g.appends_insert _).functions

theorem IRGenerator.emitBranch_curFn (g : IRGenerator) (bb : Nat) :
    (g.emitBranch bb).curFn = g.curFn := by
  unfold IRGenerator.emitBranch
  cases g.insertBlock with
  | none => rfl
  | some c =>
    simp only
    split
    · rfl
    · exact (g.appends_insert _).curFn

theorem IRGenerator.emitBranch_blocks_parent (g : IRGenerator) (bb c : Nat) :
    ((g.emitBranch bb).blocks[c]?).map (fun b => b.parent) =
      (g.blocks[c]?).map (fun b => b.parent) := by
  unfold IRGenerator.emitBranch
  cases g.insertBlock with
  | none => rfl
  | some c0 =>
    simp only
    split
    · rfl
    · exact g.insert_blocks_parent _ c

theorem IRGenerator.emitBranch_hasParent (g : IRGenerator) (bb : Nat) (x : Option Nat) :
    (g.emitBranch bb).hasParent x = g.hasParent x := by
  cases x with
  | none => rfl
  | some c =>
    have h := g.emitBranch_blocks_parent bb c
    unfold IRGenerator.hasParent
    simp only
    cases h1 : (g.emitBranch bb).blocks[c]? <;> cases h2 : g.blocks[c]? <;>
      simp only [h1, h2, Option.map_some', Option.map_none', Option.some.injEq] at h
    · rfl
    · exact absurd h (by simp)
    · exact absurd h (by simp)
    · show _ = _
      simp only [h]

theorem insertAfter_of_mem (c bb : Nat) :
    ∀ l : List Nat, c ∈ l →
      ∃ l1 l2, l = l1 ++ c :: l2 ∧ c ∉ l1 ∧ insertAfter c bb l = l1 ++ c :: bb :: l2
  | [], h => absurd h (List.not_mem_nil _)
  | x :: xs, h => by
    by_cases hx : x = c
    · subst hx
      exact ⟨[], xs, rfl, List.not_mem_nil _, by simp [insertAfter]⟩
    · have hmem : c ∈ xs := by
        rcases List.mem_cons.mp h with h1 | h1
        · exact absurd h1.symm hx
        · exact h1
      obtain ⟨l1, l2, h1, h2, h3⟩ := insertAfter_of_mem c bb xs hmem
      refine ⟨x :: l1, l2, by rw [h1]; rfl, ?_, ?_⟩
      · intro hc
        rcases List.mem_cons.mp hc with h4 | h4
        · exact hx h4.symm
        · exact h2 h4
      · simp [insertAfter, hx, h3]

theorem IRGenerator.instsOf_updateAt (g g' : IRGenerator) (f : LLVMBasicBlock → LLVMBasicBlock)
    (n : Nat) (hf : ∀ b, (f b).insts = b.insts) (hb : g'.blocks = updateAt f n g.blocks)
    (c : Nat) : g'.instsOf c = g.instsOf c := by
  unfold IRGenerator.instsOf
  rw [hb, updateAt_getElem?]
  by_cases hcn : c = n
  · rw [if_pos hcn]
    cases g.blocks[c]? with
    | none => rfl
    | some b => exact hf b
  · rw [if_neg hcn]

theorem IRGenerator.emitBlock_instsOf (g : IRGenerator) (bb : Nat) (fin : Bool) (c : Nat) :
    (g.emitBlock bb fin).instsOf c = (g.emitBranch bb).instsOf c := by
  unfold IRGenerator.emitBlock
  simp only
  split
  · exact IRGenerator.instsOf_updateAt _ _ (fun b => { b with erased := true }) bb
      (fun _ => rfl) rfl c
  · exact IRGenerator.instsOf_updateAt _ _
      (fun b => { b with parent := some (g.emitBranch bb).curFn }) bb (fun _ => rfl) rfl c

/-- C16, as amended: `emitBlock(b, sealable)`.  (1) A current block without
terminator is closed with exactly one branch to `b`, and no instruction is
created when there is no current block or it has a terminator.  (2) When
`sealable` is set and no branch in existence names `b` after that (the test
is `use_empty`, which also counts a branch created while there was no current
block), `b` is discarded: no function's block list changes and the insertion
point is left cleared.  (3) Otherwise `b` becomes the current open block; when
the previously current block is attached and in the current function's list,
`b` is inserted right behind it and the order of the other blocks is
unchanged; when there was no attached current block, `b` is appended to the
current function's list. -/
theorem emitBlock_spec (g : IRGenerator) (bb : Nat) (isFinished : Bool) :
    (∀ curBB, g.insertBlock = some curBB → curBB < g.blocks.length →
      g.getTerminator curBB = none →
      (g.emitBlock bb isFinished).instsOf curBB = g.instsOf curBB ++ [(g.nextValue, .br bb)]) ∧
    ((g.insertBlock = none ∨
        ∃ curBB, g.insertBlock = some curBB ∧ (g.getTerminator curBB).isSome = true) →
      ∀ c, (g.emitBlock bb isFinished).instsOf c = g.instsOf c) ∧
    (isFinished = true → (g.emitBranch bb).useEmpty bb = true →
      (g.emitBlock bb isFinished).functions = g.functions ∧
      (g.emitBlock bb isFinished).insertBlock = none ∧
      (g.emitBlock bb isFinished).blocks.length = g.blocks.length ∧
      ∀ blk, (g.emitBlock bb isFinished).blocks[bb]? = some blk → blk.erased = true) ∧
    ((isFinished && (g.emitBranch bb).useEmpty bb) = false →
      (g.emitBlock bb isFinished).insertBlock = some bb ∧
      (∀ blk, (g.emitBlock bb isFinished).blocks[bb]? = some blk →
        blk.parent = some g.curFn) ∧
      (∀ c fn, g.insertBlock = some c → g.hasParent (some c) = true →
        g.functions[g.curFn]? = some fn → c ∈ fn.blocks →
        ∃ l1 l2, fn.blocks = l1 ++ c :: l2 ∧ c ∉ l1 ∧
          (g.emitBlock bb isFinished).blocksOf g.curFn = l1 ++ c :: bb :: l2) ∧
      (g.hasParent g.insertBlock = false → ∀ fn, g.functions[g.curFn]? = some fn →
        (g.emitBlock bb isFinished).blocksOf g.curFn = fn.blocks ++ [bb])) := by
  refine ⟨?_, ?_, ?_, ?_⟩
  · intro curBB hc hlt ht
    rw [IRGenerator.emitBlock_instsOf]
    exact ((emitBranch_spec g bb).2.1 curBB hc ht).2.1 hlt
  · intro h c
    rw [IRGenerator.emitBlock_instsOf, (emitBranch_spec g bb).2.2 h]
    rfl
  · intro hfin hu
    have he : g.emitBlock bb isFinished =
        { g.emitBranch bb with
          blocks := updateAt (fun b => { b with erased := true }) bb (g.emitBranch bb).blocks } := by
      simp [IRGenerator.emitBlock, hfin, hu]
    rw [he]
    refine ⟨g.emitBranch_functions bb, rfl, ?_, ?_⟩
    · show (updateAt _ bb (g.emitBranch bb).blocks).length = _
      rw [updateAt_length]
      unfold IRGenerator.emitBranch
      cases g.insertBlock with
      | none => rfl
      | some c =>
        simp only
        split
        · rfl
        · exact (g.appends_insert _).blocksLength
    · intro blk hblk
      have hblk' : (updateAt (fun b : LLVMBasicBlock => { b with erased := true }) bb
          (g.emitBranch bb).blocks)[bb]? = some blk := hblk
      rw [updateAt_getElem?_self] at hblk'
      cases hb : (g.emitBranch bb).blocks[bb]? with
      | none => rw [hb] at hblk'; exact absurd hblk' (by simp)
      | some b0 =>
        rw [hb] at hblk'
        simp only [Option.map_some', Option.some.injEq] at hblk'
        rw [← hblk']
  · intro hno
    have he : g.emitBlock bb isFinished =
        { g.emitBranch bb with
          functions :=
            (match g.insertBlock with
              | some c =>
                if (g.emitBranch bb).hasParent g.insertBlock then
                  (g.emitBranch bb).functions.map
                    (fun fn => { fn with blocks := insertAfter c bb fn.blocks })
                else
                  updateAt (fun fn => { fn with blocks := fn.blocks ++ [bb] })
                    (g.emitBranch bb).curFn (g.emitBranch bb).functions
              | none =>
                updateAt (fun fn => { fn with blocks := fn.blocks ++ [bb] })
                  (g.emitBranch bb).curFn (g.emitBranch bb).functions),
          blocks := updateAt (fun b => { b with parent := some (g.emitBranch bb).curFn }) bb
            (g.emitBranch bb).blocks,
          insertBlock := some bb } := by
      unfold IRGenerator.emitBlock
      simp only [hno]
      rfl
    rw [he]
    refine ⟨rfl, ?_, ?_, ?_⟩
    · intro blk hblk
      have hblk' : (updateAt (fun b : LLVMBasicBlock =>
          { b with parent := some (g.emitBranch bb).curFn }) bb
          (g.emitBranch bb).blocks)[bb]? = some blk := hblk
      rw [updateAt_getElem?_self] at hblk'
      cases hb : (g.emitBranch bb).blocks[bb]? with
      | none => rw [hb] at hblk'; exact absurd hblk' (by simp)
      | some b0 =>
        rw [hb] at hblk'
        simp only [Option.map_some', Option.some.injEq] at hblk'
        rw [← hblk']
        exact congrArg some (g.emitBranch_curFn bb)
    · intro c fn hc hp hfn hmem
      obtain ⟨l1, l2, h1, h2, h3⟩ := insertAfter_of_mem c bb fn.blocks hmem
      refine ⟨l1, l2, h1, h2, ?_⟩
      unfold IRGenerator.blocksOf
      simp only [hc, g.emitBranch_hasParent, hp, if_true, g.emitBranch_functions,
        List.getElem?_map, hfn, Option.map_some']
      exact h3
    · intro hp fn hfn
      unfold IRGenerator.blocksOf
      cases hc : g.insertBlock with
      | none =>
        simp only [g.emitBranch_functions, g.emitBranch_curFn, updateAt_getElem?_self, hfn,
          Option.map_some']
      | some c =>
        rw [hc] at hp
        simp only [g.emitBranch_hasParent, hp, g.emitBranch_functions, g.emitBranch_curFn]
        simp only [Bool.false_eq_true, if_false, updateAt_getElem?_self, hfn, Option.map_some']


/-- With the empty entry block of `main` open, `emitBlock(1)` closes it with a
branch to block 1 and splices block 1 behind it; with a returned entry block,
`emitBlock(1, true)` discards block 1 and leaves the insertion point cleared. -/
theorem emitBlock_spec_witness :
    (mainWithBlock.emitBlock 1 false).instsOf 0 =
      mainWithBlock.instsOf 0 ++ [(mainWithBlock.nextValue, .br 1)] ∧
    (mainWithBlock.emitBlock 1 false).insertBlock = some 1 ∧
    (∃ l1 l2, [0] = l1 ++ 0 :: l2 ∧ 0 ∉ l1 ∧
      (mainWithBlock.emitBlock 1 false).blocksOf mainWithBlock.curFn = l1 ++ 0 :: 1 :: l2) ∧
    (mainReturnedWithBlock.emitBlock 1 true).functions = mainReturnedWithBlock.functions ∧
    (mainReturnedWithBlock.emitBlock 1 true).insertBlock = none :=
  ⟨(emitBlock_spec mainWithBlock 1 false).1 0 rfl (by decide) rfl,
   ((emitBlock_spec mainWithBlock 1 false).2.2.2 rfl).1,
   ((emitBlock_spec mainWithBlock 1 false).2.2.2 rfl).2.2.1 0
     { name := "main", returnType := .int64Ty, argTypes := [], blocks := [0] } rfl rfl rfl
     (by decide),
   ((emitBlock_spec mainReturnedWithBlock 1 true).2.2.1 rfl rfl).1,
   ((emitBlock_spec mainReturnedWithBlock 1 true).2.2.1 rfl rfl).2.1⟩

/-- C16 fails as stated: when `for (;;) { for (;;) { } break; }` activates the
end block of the outer loop with the flag set, no block holds a branch to it,
so it has no incoming edge; but the branch of the `break`, created while there
was no current block, names it.  `use_empty` is false and the block is
spliced into `main`, without predecessor, and becomes the current block. -/
theorem emitBlock_counterexample :
    visitStmt sampleLexer mainOpened forForBreak = .ok (beforeSeal.emitBlock 2 true) ∧
    beforeSeal.insertBlock = none ∧
    (beforeSeal.emitBranch 2).hasIncomingEdge 2 = false ∧
    beforeSeal.detached = [(3, .br 2)] ∧
    (beforeSeal.emitBranch 2).useEmpty 2 = false ∧
    (beforeSeal.emitBlock 2 true).insertBlock = some 2 ∧
    (beforeSeal.emitBlock 2 true).blocksOf 0 = [0, 1, 3, 2] ∧
    ((beforeSeal.emitBlock 2 true).blocks[2]?).map (fun b => b.erased) = some false ∧
    (beforeSeal.emitBlock 2 true).predecessors 0 2 = [] :=
  ⟨rfl, rfl, rfl, rfl, rfl, rfl, rfl, rfl, rfl⟩

/-! ## Values of binary operators -/

theorem nativeOperation_value (g g' : IRGenerator) (op : BinaryOp) (a b code : Option LLVMValue)
    (h : nativeOperation g op a b = .ok (g', code)) : code.isSome = true := by
  unfold nativeOperation at h
  split at h
  · simp only [Except.ok.injEq, Prod.mk.injEq] at h
    rw [← h.2]; rfl
  · exact absurd h (by simp)

theorem concatOperation_value (g g' : IRGenerator) (a b code : Option LLVMValue)
    (h : concatOperation g a b = .ok (g', code)) : code.isSome = true := by
  unfold concatOperation at h
  split at h
  · simp only [Except.ok.injEq, Prod.mk.injEq] at h
    rw [← h.2]; rfl
  · exact absurd h (by simp)

theorem equalsOperation_value (g g' : IRGenerator) (op : BinaryOp) (a b code : Option LLVMValue)
    (h : equalsOperation g op a b = .ok (g', code)) : code.isSome = true := by
  unfold equalsOperation at h
  split at h
  · simp only [Except.ok.injEq, Prod.mk.injEq] at h
    rw [← h.2]; rfl
  · exact absurd h (by simp)

theorem binaryOperation_of_ne_plus (t : StaticScriptLexer) (g : IRGenerator) (op : Nat)
    (ty : Option BuiltinTypeNode) (a b : Option LLVMValue) (h1 : op ≠ t.Plus) :
    (∃ o, binaryOperation t g op ty a b = nativeOperation g o a b) ∨
    (∃ o, binaryOperation t g op ty a b = equalsOperation g o a b) ∨
    binaryOperation t g op ty a b = .error .unsupportedBinaryOperator := by
  unfold binaryOperation
  rw [if_neg h1]
  by_cases h2 : op = t.Minus
  · rw [if_pos h2]; exact Or.inl ⟨_, rfl⟩
  rw [if_neg h2]
  by_cases h3 : op = t.Multiply
  · rw [if_pos h3]; exact Or.inl ⟨_, rfl⟩
  rw [if_neg h3]
  by_cases h4 : op = t.Divide
  · rw [if_pos h4]; exact Or.inl ⟨_, rfl⟩
  rw [if_neg h4]
  by_cases h5 : op = t.LessThan
  · rw [if_pos h5]; exact Or.inl ⟨_, rfl⟩
  rw [if_neg h5]
  by_cases h6 : op = t.GreaterThan
  · rw [if_pos h6]; exact Or.inl ⟨_, rfl⟩
  rw [if_neg h6]
  by_cases h7 : op = t.LessThanEquals
  · rw [if_pos h7]; exact Or.inl ⟨_, rfl⟩
  rw [if_neg h7]
  by_cases h8 : op = t.GreaterThanEquals
  · rw [if_pos h8]; exact Or.inl ⟨_, rfl⟩
  rw [if_neg h8]
  by_cases h9 : op = t.Equals
  · rw [if_pos h9]
    by_cases hs : ty = some .string
    · rw [if_pos hs]; exact Or.inr (Or.inl ⟨_, rfl⟩)
    · rw [if_neg hs]; exact Or.inl ⟨_, rfl⟩
  rw [if_neg h9]
  by_cases h10 : op = t.NotEquals
  · rw [if_pos h10]
    by_cases hs : ty = some .string
    · rw [if_pos hs]; exact Or.inr (Or.inl ⟨_, rfl⟩)
    · rw [if_neg hs]; exact Or.inl ⟨_, rfl⟩
  rw [if_neg h10]
  exact Or.inr (Or.inr rfl)

/-- The operation part of the switch leaves the node without value exactly on
`Plus` with a left type that is neither string nor integer. -/
theorem binaryOperation_value (t : StaticScriptLexer) (g g' : IRGenerator) (op : Nat)
    (ty : Option BuiltinTypeNode) (a b code : Option LLVMValue)
    (h : binaryOperation t g op ty a b = .ok (g', code)) :
    code.isSome = true ↔ ¬ (op = t.Plus ∧ ty ≠ some .string ∧ ty ≠ some .integer) := by
  by_cases h1 : op = t.Plus
  · unfold binaryOperation at h
    rw [if_pos h1] at h
    by_cases hs : ty = some .string
    · rw [if_pos hs] at h
      exact ⟨fun _ hc => hc.2.1 hs, fun _ => concatOperation_value _ _ _ _ _ h⟩
    · rw [if_neg hs] at h
      by_cases hi : ty = some .integer
      · rw [if_pos hi] at h
        exact ⟨fun _ hc => hc.2.2 hi, fun _ => nativeOperation_value _ _ _ _ _ _ h⟩
      · rw [if_neg hi] at h
        simp only [Except.ok.injEq, Prod.mk.injEq] at h
        rw [← h.2]
        exact ⟨fun hc => absurd hc (by simp), fun hc => absurd ⟨h1, hs, hi⟩ hc⟩
  · have hv : code.isSome = true := by
      rcases binaryOperation_of_ne_plus t g op ty a b h1 with ⟨o, hn⟩ | ⟨o, he⟩ | hu
      · rw [hn] at h; exact nativeOperation_value _ _ _ _ _ _ h
      · rw [he] at h; exact equalsOperation_value _ _ _ _ _ _ h
      · rw [hu] at h; exact absurd h (by simp)
    exact ⟨fun _ hc => h1 hc.1, fun _ => hv⟩

/-- C19: a binary expression that is lowered without raising gets a value
exactly when its operator is not `Assign` and it is not `Plus` on a left type
other than string and integer.  An assignment `x = e` whose right side lowers
to `v` appends exactly one instruction after those of `e`, the store of `v`
into the storage of `x` (so no load of `x`), and leaves the node without
value: a negation applied to the assignment has no operand to read. -/
theorem visitExpr_binary_value (t : StaticScriptLexer) (hT : t.WellFormed) (g : IRGenerator)
    (ty : Option BuiltinTypeNode) (opCode : Nat) (lhs rhs : ExprNode) :
    (∀ g' code, visitExpr t g (.binaryOperator ty opCode lhs rhs) = .ok (g', code) →
      (code.isSome = true ↔
        (opCode ≠ t.Assign ∧
          ¬ (opCode = t.Plus ∧ lhs.inferType ≠ some .string ∧
              lhs.inferType ≠ some .integer)))) ∧
    (∀ tyx refVarDecl g1 v ptr, visitExpr t g rhs = .ok (g1, some v) →
      g1.codeOf refVarDecl = some ptr → g.cursorValid = true →
      visitExpr t g (.binaryOperator ty t.Assign (.identifier tyx refVarDecl) rhs) =
        .ok ((g1.insert (.store v ptr)).1, none) ∧
      (g1.insert (.store v ptr)).1.stream = g1.stream ++ [(g1.nextValue, .store v ptr)] ∧
      (∀ b, g.insertBlock ≠ some b → (g1.insert (.store v ptr)).1.blocks[b]? = g1.blocks[b]?) ∧
      ∀ ty2, visitExpr t g (.unaryOperator ty2 t.Minus
          (.binaryOperator ty t.Assign (.identifier tyx refVarDecl) rhs)) =
        .error .undefinedBehaviour) := by
  constructor
  · intro g' code h
    simp only [visitExpr] at h
    split at h
    · exact absurd h (by simp)
    · rename_i g2 lcode rcode hops
      by_cases hA : opCode = t.Assign
      · rw [if_pos hA] at h
        have hnone : code = none := by
          split at h
          · exact absurd h (by simp)
          · split at h
            · split at h
              · simp only [Except.ok.injEq, Prod.mk.injEq] at h
                exact h.2.symm
              · exact absurd h (by simp)
            · exact absurd h (by simp)
        rw [hnone]
        exact ⟨fun hc => absurd hc (by simp), fun hc => absurd hA hc.1⟩
      · rw [if_neg hA] at h
        rw [binaryOperation_value t g2 g' opCode lhs.inferType lcode rcode code h]
        exact ⟨fun hc => ⟨hA, hc⟩, fun hc => hc.2⟩
  · intro tyx refVarDecl g1 v ptr hr hp hCur
    have hA1 := visitExpr_appends t rhs g g1 _ hr
    have hrange := hT.assign_not_in_range
    have hAssign : visitExpr t g (.binaryOperator ty t.Assign (.identifier tyx refVarDecl) rhs) =
        .ok ((g1.insert (.store v ptr)).1, none) := by
      simp only [visitExpr, if_neg hrange, if_true, hr, hp]
    refine ⟨hAssign, g1.stream_insert _ (cursorValid_of_appends hA1 hCur), ?_, ?_⟩
    · intro b hb
      exact (g1.appends_insert _).others b (by rw [hA1.insertBlock]; exact hb)
    · intro ty2
      simp only [visitExpr, if_neg hrange, if_true, hr, hp]


/-- The assignment `x = 5` appends the store of 5 into the slot of `x` and has
no value; `-(x = 5)` has no operand to read; `true + true` is lowered without
value. -/
theorem visitExpr_binary_value_witness :
    visitExpr sampleLexer mainWithLocalX assignX =
      .ok ((mainWithLocalX.insert (.store (.constantInt .int64Ty 5) (.instruction 0))).1, none) ∧
    (mainWithLocalX.insert (.store (.constantInt .int64Ty 5) (.instruction 0))).1.stream =
      mainWithLocalX.stream ++
        [(mainWithLocalX.nextValue, .store (.constantInt .int64Ty 5) (.instruction 0))] ∧
    visitExpr sampleLexer mainWithLocalX (.unaryOperator (some .integer) sampleLexer.Minus assignX) =
      .error .undefinedBehaviour ∧
    ((none : Option LLVMValue).isSome = true ↔
      (sampleLexer.Plus ≠ sampleLexer.Assign ∧
        ¬ (sampleLexer.Plus = sampleLexer.Plus ∧
            trueLiteral.inferType ≠ some .string ∧ trueLiteral.inferType ≠ some .integer))) :=
  ⟨((visitExpr_binary_value sampleLexer sampleLexer_wellFormed mainWithLocalX (some .integer)
      sampleLexer.Assign (.identifier (some .integer) 0) (.integerLiteral (some .integer) 5)).2
      (some .integer) 0 mainWithLocalX (.constantInt .int64Ty 5) (.instruction 0)
      rfl rfl rfl).1,
   ((visitExpr_binary_value sampleLexer sampleLexer_wellFormed mainWithLocalX (some .integer)
      sampleLexer.Assign (.identifier (some .integer) 0) (.integerLiteral (some .integer) 5)).2
      (some .integer) 0 mainWithLocalX (.constantInt .int64Ty 5) (.instruction 0)
      rfl rfl rfl).2.1,
   ((visitExpr_binary_value sampleLexer sampleLexer_wellFormed mainWithLocalX (some .integer)
      sampleLexer.Assign (.identifier (some .integer) 0) (.integerLiteral (some .integer) 5)).2
      (some .integer) 0 mainWithLocalX (.constantInt .int64Ty 5) (.instruction 0)
      rfl rfl rfl).2.2.2 (some .integer),
   (visitExpr_binary_value sampleLexer sampleLexer_wellFormed mainWithLocalX (some .boolean)
      sampleLexer.Plus trueLiteral trueLiteral).1 mainWithLocalX none rfl⟩

/-! ## Call resolution and declaration order -/

theorem updateAt_append_length {α : Type} (f : α → α) (x : α) :
    ∀ l : List α, updateAt f l.length (l ++ [x]) = l ++ [f x]
  | [] => rfl
  | y :: ys => by
    show y :: updateAt f ys.length (ys ++ [x]) = y :: (ys ++ [f x])
    rw [updateAt_append_length f x ys]

theorem mem_updateAt {α : Type} (f : α → α) (y : α) :
    ∀ (n : Nat) (l : List α), y ∈ updateAt f n l → y ∈ l ∨ ∃ x ∈ l, y = f x
  | _, [], h => by simp [updateAt] at h
  | 0, x :: xs, h => by
    simp only [updateAt, List.mem_cons] at h
    rcases h with h | h
    · exact Or.inr ⟨x, by simp, h⟩
    · exact Or.inl (by simp [h])
  | n + 1, x :: xs, h => by
    simp only [updateAt, List.mem_cons] at h
    rcases h with h | h
    · exact Or.inl (by simp [h])
    · rcases mem_updateAt f y n xs h with h1 | ⟨z, hz, e⟩
      · exact Or.inl (by simp [h1])
      · exact Or.inr ⟨z, by simp [hz], e⟩

theorem exists_mem_updateAt {α : Type} (f : α → α) (P : α → Prop) (hf : ∀ x, P x → P (f x)) :
    ∀ (n : Nat) (l : List α), (∃ x ∈ l, P x) → ∃ y ∈ updateAt f n l, P y
  | _, [], h => by simp at h
  | 0, x :: xs, ⟨z, hz, hP⟩ => by
    rcases List.mem_cons.mp hz with e | hz1
    · exact ⟨f x, by simp [updateAt], hf x (e ▸ hP)⟩
    · exact ⟨z, by simp [updateAt, hz1], hP⟩
  | n + 1, x :: xs, ⟨z, hz, hP⟩ => by
    rcases List.mem_cons.mp hz with e | hz1
    · exact ⟨x, by simp [updateAt], e ▸ hP⟩
    · obtain ⟨y, hy, hPy⟩ := exists_mem_updateAt f P hf n xs ⟨z, hz1, hP⟩
      exact ⟨y, by simp [updateAt, hy], hPy⟩

theorem exists_mem_updateAt_self {α : Type} (f : α → α) (n : Nat) (l : List α)
    (h : n < l.length) : ∃ x ∈ l, f x ∈ updateAt f n l := by
  have h1 : (updateAt f n l)[n]? = some (f l[n]) := by
    rw [updateAt_getElem?_self, List.getElem?_eq_getElem h]; rfl
  exact ⟨l[n], List.getElem_mem h, List.mem_iff_getElem?.mpr ⟨n, h1⟩⟩

theorem mem_insertAfter (c bb x : Nat) :
    ∀ l : List Nat, x ∈ insertAfter c bb l → x = bb ∨ x ∈ l
  | [], h => by simp [insertAfter] at h
  | y :: ys, h => by
    unfold insertAfter at h
    by_cases hy : y = c
    · rw [if_pos hy] at h
      simp only [List.mem_cons] at h
      rcases h with h | h | h
      · exact Or.inr (by simp [h])
      · exact Or.inl h
      · exact Or.inr (by simp [h])
    · rw [if_neg hy] at h
      rcases List.mem_cons.mp h with h | h
      · exact Or.inr (by simp [h])
      · rcases mem_insertAfter c bb x ys h with h1 | h1
        · exact Or.inl h1
        · exact Or.inr (by simp [h1])

theorem mem_insertAfter_of_mem (c bb x : Nat) :
    ∀ l : List Nat, x ∈ l → x ∈ insertAfter c bb l
  | [], h => by simp at h
  | y :: ys, h => by
    unfold insertAfter
    by_cases hy : y = c
    · rw [if_pos hy]
      rcases List.mem_cons.mp h with h | h
      · simp [h]
      · simp [h]
    · rw [if_neg hy]
      rcases List.mem_cons.mp h with h | h
      · simp [h]
      · exact List.mem_cons_of_mem _ (mem_insertAfter_of_mem c bb x ys h)

theorem self_mem_insertAfter (c bb : Nat) (l : List Nat) (h : c ∈ l) :
    bb ∈ insertAfter c bb l := by
  obtain ⟨l1, l2, -, -, e⟩ := insertAfter_of_mem c bb l h
  rw [e]; simp

theorem IRGenerator.listed_iff (g : IRGenerator) (b : Nat) :
    g.listed b = true ↔ ∃ fn ∈ g.functions, b ∈ fn.blocks := by
  simp [IRGenerator.listed, List.any_eq_true]

theorem IRGenerator.listed_congr {g g1 : IRGenerator} (h : g1.functions = g.functions) (b : Nat) :
    g1.listed b = g.listed b := by
  unfold IRGenerator.listed; rw [h]

theorem IRGenerator.attached_congr {g g1 : IRGenerator} (hf : g1.functions = g.functions)
    (hc : g1.curFn = g.curFn) (hi : g1.insertBlock = g.insertBlock) :
    g1.attached = g.attached := by
  unfold IRGenerator.attached IRGenerator.listed; rw [hf, hc, hi]

theorem Unreferenced.useEmpty {g : IRGenerator} {b : Nat} (h : Unreferenced g b) :
    g.useEmpty b = true := by
  unfold IRGenerator.useEmpty
  have h1 : (g.blocks.any fun blk => blk.insts.any fun i => i.2.usesBlock b) = false := by
    rw [List.any_eq_false]
    intro blk hblk
    rw [Bool.not_eq_true, List.any_eq_false]
    intro i hi
    rw [h.blocks blk hblk i hi]; simp
  have h2 : (g.detached.any fun i => i.2.usesBlock b) = false := by
    rw [List.any_eq_false]
    intro i hi
    rw [h.detached i hi]; simp
  rw [h1, h2]; rfl

theorem Unreferenced.not_listed {g : IRGenerator} {b : Nat} (h : Unreferenced g b) :
    g.listed b = false := by
  rw [← Bool.not_eq_true, IRGenerator.listed_iff]
  rintro ⟨fn, hfn, hb⟩
  exact h.lists fn hfn hb

/-- A change of the generator that leaves instructions, loop handles and block
lists alone names no block. -/
theorem Unreferenced.congr {g g1 : IRGenerator} {b : Nat} (h : Unreferenced g b)
    (hb : g1.blocks = g.blocks) (hd : g1.detached = g.detached)
    (hi : g1.iterationStmts = g.iterationStmts) (hf : g1.functions = g.functions) :
    Unreferenced g1 b :=
  ⟨by rw [hb]; exact h.blocks, by rw [hd]; exact h.detached, by rw [hi]; exact h.handles,
   by rw [hf]; exact h.lists⟩

theorem Unreferenced.insert {g : IRGenerator} {b : Nat} (h : Unreferenced g b) (i : Instruction)
    (hi : i.usesBlock b = false) : Unreferenced (g.insert i).1 b := by
  have hA := g.appends_insert i
  refine ⟨?_, ?_, by rw [hA.iterationStmts]; exact h.handles, by rw [hA.functions]; exact h.lists⟩
  · intro blk hblk j hj
    unfold IRGenerator.insert at hblk
    cases hc : g.insertBlock with
    | none =>
      rw [hc] at hblk
      exact h.blocks blk hblk j hj
    | some c =>
      rw [hc] at hblk
      rcases mem_updateAt _ _ _ _ hblk with h1 | ⟨x, hx, e⟩
      · exact h.blocks blk h1 j hj
      · subst e
        rcases List.mem_append.mp hj with h2 | h2
        · exact h.blocks x hx j h2
        · simp only [List.mem_singleton] at h2
          subst h2; exact hi
  · intro j hj
    unfold IRGenerator.insert at hj
    cases hc : g.insertBlock with
    | none =>
      rw [hc] at hj
      rcases List.mem_append.mp hj with h2 | h2
      · exact h.detached j h2
      · simp only [List.mem_singleton] at h2
        subst h2; exact hi
    | some c =>
      rw [hc] at hj
      exact h.detached j hj

theorem IRGenerator.createBasicBlock_length (g : IRGenerator) (name : String)
    (parent : Option Nat) :
    (g.createBasicBlock name parent).1.blocks.length = g.blocks.length + 1 := by
  unfold IRGenerator.createBasicBlock; cases parent <;> simp

theorem IRGenerator.createBasicBlock_snd (g : IRGenerator) (name : String)
    (parent : Option Nat) : (g.createBasicBlock name parent).2 = g.blocks.length := by
  unfold IRGenerator.createBasicBlock; cases parent <;> rfl

theorem IRGenerator.emitBranch_length (g : IRGenerator) (bb : Nat) :
    (g.emitBranch bb).blocks.length = g.blocks.length := by
  unfold IRGenerator.emitBranch
  cases g.insertBlock with
  | none => rfl
  | some c =>
    simp only
    split
    · rfl
    · exact (g.appends_insert _).blocksLength

theorem IRGenerator.emitBlock_length (g : IRGenerator) (bb : Nat) (fin : Bool) :
    (g.emitBlock bb fin).blocks.length = g.blocks.length := by
  unfold IRGenerator.emitBlock
  simp only
  split
  · simp only [updateAt_length]; exact g.emitBranch_length bb
  · simp only [updateAt_length]; exact g.emitBranch_length bb

theorem Instruction.usesBlock_br (bb b : Nat) (h : bb ≠ b) :
    (Instruction.br bb).usesBlock b = false := by
  simp [Instruction.usesBlock, h]

theorem Instruction.usesBlock_condBr (c : LLVMValue) (x y b : Nat) (hx : x ≠ b) (hy : y ≠ b) :
    (Instruction.condBr c x y).usesBlock b = false := by
  simp [Instruction.usesBlock, hx, hy]

theorem Unreferenced.emitBranch {g : IRGenerator} {b : Nat} (h : Unreferenced g b) (bb : Nat)
    (hb : bb ≠ b) : Unreferenced (g.emitBranch bb) b := by
  unfold IRGenerator.emitBranch
  cases g.insertBlock with
  | none => exact h.congr rfl rfl rfl rfl
  | some c =>
    simp only
    split
    · exact h.congr rfl rfl rfl rfl
    · exact (h.insert _ (Instruction.usesBlock_br bb b hb)).congr rfl rfl rfl rfl

theorem Unreferenced.updateBlocks {g g1 : IRGenerator} {b : Nat} (h : Unreferenced g b)
    (f : LLVMBasicBlock → LLVMBasicBlock) (n : Nat) (hf : ∀ x, (f x).insts = x.insts)
    (hb : g1.blocks = updateAt f n g.blocks) (hd : g1.detached = g.detached)
    (hi : g1.iterationStmts = g.iterationStmts) (hl : ∀ fn ∈ g1.functions, b ∉ fn.blocks) :
    Unreferenced g1 b := by
  refine ⟨?_, by rw [hd]; exact h.detached, by rw [hi]; exact h.handles, hl⟩
  intro blk hblk j hj
  rw [hb] at hblk
  rcases mem_updateAt _ _ _ _ hblk with h1 | ⟨x, hx, e⟩
  · exact h.blocks blk h1 j hj
  · subst e
    rw [hf] at hj
    exact h.blocks x hx j hj

theorem not_mem_push {b bb : Nat} (hb : bb ≠ b) (l : List LLVMFunction) (n : Nat)
    (h : ∀ fn ∈ l, b ∉ fn.blocks) :
    ∀ fn ∈ updateAt (fun fn => { fn with blocks := fn.blocks ++ [bb] }) n l, b ∉ fn.blocks := by
  intro fn hfn
  rcases mem_updateAt _ _ _ _ hfn with h1 | ⟨x, hx, e⟩
  · exact h fn h1
  · subst e
    simp only [List.mem_append, List.mem_singleton, not_or]
    exact ⟨h x hx, fun e => hb e.symm⟩

theorem Unreferenced.emitBlock {g : IRGenerator} {b : Nat} (h : Unreferenced g b) (bb : Nat)
    (fin : Bool) (hb : bb ≠ b) : Unreferenced (g.emitBlock bb fin) b := by
  have h1 := h.emitBranch bb hb
  unfold IRGenerator.emitBlock
  simp only
  split
  · exact h1.updateBlocks (fun x => { x with erased := true }) bb (fun _ => rfl) rfl rfl rfl
      h1.lists
  · refine h1.updateBlocks (fun x => { x with parent := some (g.emitBranch bb).curFn }) bb
      (fun _ => rfl) rfl rfl rfl ?_
    have hpush := not_mem_push hb (g.emitBranch bb).functions (g.emitBranch bb).curFn h1.lists
    have hmap : ∀ c, ∀ fn ∈ (g.emitBranch bb).functions.map
        (fun fn => { fn with blocks := insertAfter c bb fn.blocks }), b ∉ fn.blocks := by
      intro c fn hfn
      obtain ⟨x, hx, e⟩ := List.mem_map.mp hfn
      subst e
      intro hmem
      rcases mem_insertAfter c bb b x.blocks hmem with h2 | h2
      · exact hb h2.symm
      · exact h1.lists x hx h2
    show ∀ fn ∈ (match g.insertBlock with
      | some c =>
        if (g.emitBranch bb).hasParent g.insertBlock then
          (g.emitBranch bb).functions.map
            (fun fn : LLVMFunction => { fn with blocks := insertAfter c bb fn.blocks })
        else updateAt (fun fn : LLVMFunction => { fn with blocks := fn.blocks ++ [bb] })
          (g.emitBranch bb).curFn (g.emitBranch bb).functions
      | none => updateAt (fun fn : LLVMFunction => { fn with blocks := fn.blocks ++ [bb] })
          (g.emitBranch bb).curFn
          (g.emitBranch bb).functions), b ∉ fn.blocks
    cases g.insertBlock with
    | none => exact hpush
    | some c =>
      simp only
      split
      · exact hmap c
      · exact hpush

theorem Unreferenced.createBasicBlock {g : IRGenerator} {b : Nat} (h : Unreferenced g b)
    (name : String) (parent : Option Nat) (hb : parent ≠ none → g.blocks.length ≠ b) :
    Unreferenced (g.createBasicBlock name parent).1 b := by
  have hblocks : ∀ blk ∈ g.blocks ++
      [({ name := name, parent := parent, insts := [], erased := false } : LLVMBasicBlock)],
      ∀ i ∈ blk.insts, i.2.usesBlock b = false := by
    intro blk hblk j hj
    rcases List.mem_append.mp hblk with h1 | h1
    · exact h.blocks blk h1 j hj
    · simp only [List.mem_singleton] at h1
      subst h1
      simp at hj
  unfold IRGenerator.createBasicBlock
  cases parent with
  | none => exact ⟨hblocks, h.detached, h.handles, h.lists⟩
  | some f =>
    exact ⟨hblocks, h.detached, h.handles, not_mem_push (hb (by simp)) _ _ h.lists⟩

theorem Unreferenced.setIteration {g : IRGenerator} {b : Nat} (h : Unreferenced g b)
    (node : Nat) (it : IterationStmtNode) (hb : b ∉ it.handles) :
    Unreferenced (g.setIteration node it) b := by
  refine ⟨h.blocks, h.detached, ?_, h.lists⟩
  intro p hp
  unfold IRGenerator.setIteration at hp
  rcases List.mem_cons.mp hp with e | h1
  · subst e; exact hb
  · exact h.handles p h1
theorem Touches.same (T : Nat → Prop) (g : IRGenerator) : Touches T g g :=
  ⟨Nat.le_refl _, fun _ _ h => h, fun _ h => h, fun h => h⟩

theorem Touches.seq {T : Nat → Prop} {g g1 g2 : IRGenerator} (h1 : Touches T g g1)
    (h2 : Touches T g1 g2) : Touches T g g2 :=
  ⟨Nat.le_trans h1.blocksLength h2.blocksLength,
   fun b hT hU => h2.unreferenced b hT (h1.unreferenced b hT hU),
   fun b hl => h2.listed b (h1.listed b hl),
   fun ha => h2.attached (h1.attached ha)⟩

theorem Touches.mono {T T1 : Nat → Prop} {g g1 : IRGenerator} (h : Touches T g g1)
    (hT : ∀ b, T b → T1 b) : Touches T1 g g1 :=
  ⟨h.blocksLength, fun b hb hU => h.unreferenced b (fun hTb => hb (hT b hTb)) hU, h.listed,
   h.attached⟩

/-- A change of the generator that leaves blocks, instructions, loop handles,
block lists and the insertion point alone touches no block. -/
theorem touches_of_eq (T : Nat → Prop) {g g1 : IRGenerator}
    (hb : g1.blocks = g.blocks) (hd : g1.detached = g.detached)
    (hi : g1.iterationStmts = g.iterationStmts) (hf : g1.functions = g.functions)
    (hc : g1.curFn = g.curFn) (hins : g1.insertBlock = g.insertBlock) : Touches T g g1 :=
  ⟨by rw [hb], fun _ _ hU => hU.congr hb hd hi hf,
   fun b hl => by rw [IRGenerator.listed_congr hf]; exact hl,
   fun ha => by rw [IRGenerator.attached_congr hf hc hins]; exact ha⟩

theorem touches_insert (T : Nat → Prop) (g : IRGenerator) (i : Instruction)
    (h : ∀ b, ¬ T b → Unreferenced g b → i.usesBlock b = false) :
    Touches T g (g.insert i).1 :=
  have hA := g.appends_insert i
  ⟨by rw [hA.blocksLength], fun b hT hU => hU.insert i (h b hT hU),
   fun b hl => by rw [IRGenerator.listed_congr hA.functions]; exact hl,
   fun ha => by rw [IRGenerator.attached_congr hA.functions hA.curFn hA.insertBlock]; exact ha⟩

theorem IRGenerator.attached_iff (g : IRGenerator) :
    g.attached = true ↔
      g.curFn < g.functions.length ∧ ∀ c, g.insertBlock = some c → g.listed c = true := by
  unfold IRGenerator.attached
  cases g.insertBlock with
  | none => simp
  | some c => simp

theorem IRGenerator.emitBranch_attached (g : IRGenerator) (bb : Nat)
    (h : g.attached = true) : (g.emitBranch bb).attached = true := by
  rw [IRGenerator.attached_iff] at h ⊢
  rw [g.emitBranch_functions, g.emitBranch_curFn]
  exact ⟨h.1, fun c hc => absurd hc (by simp [IRGenerator.emitBranch])⟩

theorem touches_emitBranch (T : Nat → Prop) (g : IRGenerator) (bb : Nat) (h : T bb) :
    Touches T g (g.emitBranch bb) :=
  ⟨by rw [g.emitBranch_length],
   fun b hT hU => hU.emitBranch bb (fun e => hT (e ▸ h)),
   fun b hl => by rw [IRGenerator.listed_congr (g.emitBranch_functions bb)]; exact hl,
   g.emitBranch_attached bb⟩

theorem IRGenerator.emitBlock_curFn (g : IRGenerator) (bb : Nat) (fin : Bool) :
    (g.emitBlock bb fin).curFn = g.curFn := by
  unfold IRGenerator.emitBlock
  simp only
  split
  · exact g.emitBranch_curFn bb
  · exact g.emitBranch_curFn bb

/-- What `emitBlock` does to the block lists: nothing when the block is
discarded; otherwise the block is linked behind the previous insertion block
or appended to the current function, and the insertion point is set to it. -/
theorem IRGenerator.emitBlock_functions_cases (g : IRGenerator) (bb : Nat) (fin : Bool) :
    ((g.emitBlock bb fin).functions = g.functions ∧ (g.emitBlock bb fin).insertBlock = none) ∨
    (∃ c, g.insertBlock = some c ∧
      (g.emitBlock bb fin).functions =
        g.functions.map (fun fn : LLVMFunction => { fn with blocks := insertAfter c bb fn.blocks }) ∧
      (g.emitBlock bb fin).insertBlock = some bb) ∨
    ((g.emitBlock bb fin).functions =
        updateAt (fun fn : LLVMFunction => { fn with blocks := fn.blocks ++ [bb] }) g.curFn
          g.functions ∧
      (g.emitBlock bb fin).insertBlock = some bb) := by
  unfold IRGenerator.emitBlock
  simp only
  split
  · exact Or.inl ⟨g.emitBranch_functions bb, rfl⟩
  · cases hins : g.insertBlock with
    | none =>
      refine Or.inr (Or.inr ⟨?_, rfl⟩)
      simp only [g.emitBranch_functions, g.emitBranch_curFn]
    | some c =>
      by_cases hp : (g.emitBranch bb).hasParent (some c) = true
      · refine Or.inr (Or.inl ⟨c, rfl, ?_, rfl⟩)
        simp only [hp, if_true, g.emitBranch_functions]
      · refine Or.inr (Or.inr ⟨?_, rfl⟩)
        simp only [hp, g.emitBranch_functions, g.emitBranch_curFn]
        rfl

theorem IRGenerator.emitBlock_listed (g : IRGenerator) (bb : Nat) (fin : Bool) (b : Nat)
    (h : g.listed b = true) : (g.emitBlock bb fin).listed b = true := by
  rw [IRGenerator.listed_iff] at h ⊢
  rcases g.emitBlock_functions_cases bb fin with ⟨e, -⟩ | ⟨c, -, e, -⟩ | ⟨e, -⟩
  · rw [e]; exact h
  · rw [e]
    obtain ⟨fn, hfn, hb⟩ := h
    exact ⟨_, List.mem_map.mpr ⟨fn, hfn, rfl⟩, mem_insertAfter_of_mem c bb b fn.blocks hb⟩
  · rw [e]
    exact exists_mem_updateAt _ (fun fn : LLVMFunction => b ∈ fn.blocks)
      (fun fn hfn => List.mem_append_left _ hfn) _ _ h

theorem IRGenerator.emitBlock_attached (g : IRGenerator) (bb : Nat) (fin : Bool)
    (h : g.attached = true) : (g.emitBlock bb fin).attached = true := by
  rw [IRGenerator.attached_iff] at h ⊢
  rw [g.emitBlock_curFn]
  rcases g.emitBlock_functions_cases bb fin with ⟨e, hi⟩ | ⟨c, hc, e, hi⟩ | ⟨e, hi⟩
  · rw [e, hi]
    exact ⟨h.1, fun c hc => absurd hc (by simp)⟩
  · refine ⟨by rw [e, List.length_map]; exact h.1, ?_⟩
    intro c1 hc1
    rw [hi] at hc1
    simp only [Option.some.injEq] at hc1
    subst hc1
    rw [IRGenerator.listed_iff, e]
    obtain ⟨fn, hfn, hb⟩ := (g.listed_iff c).mp (h.2 c hc)
    exact ⟨_, List.mem_map.mpr ⟨fn, hfn, rfl⟩, self_mem_insertAfter c bb fn.blocks hb⟩
  · refine ⟨by rw [e, updateAt_length]; exact h.1, ?_⟩
    intro c1 hc1
    rw [hi] at hc1
    simp only [Option.some.injEq] at hc1
    subst hc1
    rw [IRGenerator.listed_iff, e]
    obtain ⟨fn, -, hmem⟩ := exists_mem_updateAt_self
      (fun fn : LLVMFunction => { fn with blocks := fn.blocks ++ [bb] }) g.curFn g.functions h.1
    exact ⟨_, hmem, by simp⟩

/-- A block that `emitBlock` does not discard is in a block list afterwards. -/
theorem IRGenerator.emitBlock_listed_self (g : IRGenerator) (bb : Nat) (fin : Bool)
    (h : g.attached = true) (hi : (g.emitBlock bb fin).insertBlock = some bb) :
    (g.emitBlock bb fin).listed bb = true :=
  ((g.emitBlock bb fin).attached_iff.mp (g.emitBlock_attached bb fin h)).2 bb hi

theorem touches_emitBlock (T : Nat → Prop) (g : IRGenerator) (bb : Nat) (fin : Bool)
    (h : T bb) : Touches T g (g.emitBlock bb fin) :=
  ⟨by rw [g.emitBlock_length],
   fun b hT hU => hU.emitBlock bb fin (fun e => hT (e ▸ h)),
   g.emitBlock_listed bb fin, g.emitBlock_attached bb fin⟩

theorem touches_createBasicBlock (T : Nat → Prop) (g : IRGenerator) (name : String) :
    Touches T g (g.createBasicBlock name none).1 :=
  ⟨by rw [g.createBasicBlock_length]; omega,
   fun _ _ hU => hU.createBasicBlock name none (fun h => absurd rfl h),
   fun _ hl => hl, fun ha => ha⟩

theorem touches_setIteration (T : Nat → Prop) (g : IRGenerator) (node : Nat)
    (it : IterationStmtNode) (h : ∀ x ∈ it.handles, T x) :
    Touches T g (g.setIteration node it) :=
  ⟨Nat.le_refl _, fun b hT hU => hU.setIteration node it (fun hb => hT (h b hb)),
   fun _ hl => hl, fun ha => ha⟩

theorem touches_createBinary (T : Nat → Prop) (g : IRGenerator) (op : BinaryOp)
    (a b : LLVMValue) : Touches T g (g.createBinary op a b).1 := by
  unfold IRGenerator.createBinary; split
  · exact Touches.same T g
  · exact touches_insert T g _ (fun _ _ _ => by rfl)

theorem touches_createNeg (T : Nat → Prop) (g : IRGenerator) (a : LLVMValue) :
    Touches T g (g.createNeg a).1 := by
  unfold IRGenerator.createNeg; split
  · exact Touches.same T g
  · exact touches_insert T g _ (fun _ _ _ => by rfl)

theorem touches_createGlobalString (T : Nat → Prop) (g g1 : IRGenerator) (s : String)
    (v : LLVMValue) (h : g.createGlobalString s = .ok (g1, v)) : Touches T g g1 := by
  unfold IRGenerator.createGlobalString at h
  split at h
  · simp only [Except.ok.injEq, Prod.mk.injEq] at h
    obtain ⟨rfl, -⟩ := h
    exact touches_of_eq T rfl rfl rfl rfl rfl rfl
  · exact absurd h (by simp)

theorem nativeOperation_touches (T : Nat → Prop) (g g1 : IRGenerator) (op : BinaryOp)
    (a b : Option LLVMValue) (c : Option LLVMValue)
    (h : nativeOperation g op a b = .ok (g1, c)) : Touches T g g1 := by
  unfold nativeOperation at h
  split at h
  · simp only [Except.ok.injEq, Prod.mk.injEq] at h
    obtain ⟨rfl, -⟩ := h
    exact touches_createBinary T g _ _ _
  · exact absurd h (by simp)

theorem concatOperation_touches (T : Nat → Prop) (g g1 : IRGenerator)
    (a b : Option LLVMValue) (c : Option LLVMValue)
    (h : concatOperation g a b = .ok (g1, c)) : Touches T g g1 := by
  unfold concatOperation at h
  split at h
  · simp only [Except.ok.injEq, Prod.mk.injEq] at h
    obtain ⟨rfl, -⟩ := h
    exact touches_insert T g _ (fun _ _ _ => by rfl)
  · exact absurd h (by simp)

theorem equalsOperation_touches (T : Nat → Prop) (g g1 : IRGenerator) (op : BinaryOp)
    (a b : Option LLVMValue) (c : Option LLVMValue)
    (h : equalsOperation g op a b = .ok (g1, c)) : Touches T g g1 := by
  unfold equalsOperation at h
  split at h
  · simp only [Except.ok.injEq, Prod.mk.injEq] at h
    obtain ⟨rfl, -⟩ := h
    exact (touches_insert T g _ (fun _ _ _ => by rfl)).seq (touches_createBinary T _ _ _ _)
  · exact absurd h (by simp)

theorem binaryOperation_touches (T : Nat → Prop) (t : StaticScriptLexer) (g g1 : IRGenerator)
    (op : Nat) (ty : Option BuiltinTypeNode) (a b : Option LLVMValue) (c : Option LLVMValue)
    (h : binaryOperation t g op ty a b = .ok (g1, c)) : Touches T g g1 := by
  rcases binaryOperation_cases t g op ty a b with ⟨-, hc | ⟨o, hn⟩ | ⟨o, he⟩ | hk⟩ | ⟨-, hu⟩
  · rw [hc] at h; exact concatOperation_touches T _ _ _ _ _ h
  · rw [hn] at h; exact nativeOperation_touches T _ _ _ _ _ _ h
  · rw [he] at h; exact equalsOperation_touches T _ _ _ _ _ _ h
  · rw [hk] at h
    simp only [Except.ok.injEq, Prod.mk.injEq] at h
    obtain ⟨rfl, -⟩ := h
    exact Touches.same T _
  · rw [hu] at h; exact absurd h (by simp)

mutual
/-- Visiting an expression names no block: it adds no branch, no loop handle
and no block. -/
theorem visitExpr_touches (T : Nat → Prop) (t : StaticScriptLexer) :
    ∀ (e : ExprNode) (g g1 : IRGenerator) (c : Option LLVMValue),
      visitExpr t g e = .ok (g1, c) → Touches T g g1
  | .booleanLiteral _ _, g, g1, c, h => by
    simp only [visitExpr, Except.ok.injEq, Prod.mk.injEq] at h
    obtain ⟨rfl, -⟩ := h
    exact Touches.same T _
  | .integerLiteral _ _, g, g1, c, h => by
    simp only [visitExpr, Except.ok.injEq, Prod.mk.injEq] at h
    obtain ⟨rfl, -⟩ := h
    exact Touches.same T _
  | .stringLiteral _ lit, g, g1, c, h => by
    simp only [visitExpr] at h
    split at h
    · exact absurd h (by simp)
    · rename_i g2 v hg
      simp only [Except.ok.injEq, Prod.mk.injEq] at h
      obtain ⟨rfl, -⟩ := h
      exact (touches_createGlobalString T _ _ _ _ hg).seq
        (touches_insert T _ _ (fun _ _ _ => by rfl))
  | .identifier _ r, g, g1, c, h => by
    simp only [visitExpr] at h
    split at h
    · exact absurd h (by simp)
    · simp only [Except.ok.injEq, Prod.mk.injEq] at h
      obtain ⟨rfl, -⟩ := h
      exact touches_insert T _ _ (fun _ _ _ => by rfl)
  | .call _ name args, g, g1, c, h => by
    simp only [visitExpr] at h
    split at h
    · exact absurd h (by simp)
    · rename_i g2 codes hargs
      have ih := visitExprs_touches T t args g g2 codes hargs
      split at h
      · exact absurd h (by simp)
      · split at h
        · exact absurd h (by simp)
        · split at h
          · exact absurd h (by simp)
          · simp only [Except.ok.injEq, Prod.mk.injEq] at h
            obtain ⟨rfl, -⟩ := h
            exact ih.seq (touches_insert T _ _ (fun _ _ _ => by rfl))
  | .unaryOperator _ op sub, g, g1, c, h => by
    simp only [visitExpr] at h
    split at h
    · exact absurd h (by simp)
    · rename_i g2 code hsub
      have ih := visitExpr_touches T t sub g g2 code hsub
      split at h
      · split at h
        · exact absurd h (by simp)
        · simp only [Except.ok.injEq, Prod.mk.injEq] at h
          obtain ⟨rfl, -⟩ := h
          exact ih.seq (touches_createNeg T _ _)
      · exact absurd h (by simp)
  | .binaryOperator _ op lhs rhs, g, g1, c, h => by
    simp only [visitExpr] at h
    split at h
    · exact absurd h (by simp)
    · rename_i g2 lcode rcode hops
      have hops1 : Touches T g g2 := by
        split at hops
        · split at hops
          · exact absurd hops (by simp)
          · rename_i ga la hl
            split at hops
            · exact absurd hops (by simp)
            · rename_i gb rb hr
              simp only [Except.ok.injEq, Prod.mk.injEq] at hops
              obtain ⟨rfl, -, -⟩ := hops
              exact (visitExpr_touches T t lhs g ga la hl).seq
                (visitExpr_touches T t rhs ga _ rb hr)
        · simp only [Except.ok.injEq, Prod.mk.injEq] at hops
          obtain ⟨rfl, -, -⟩ := hops
          exact Touches.same T _
      split at h
      · split at h
        · exact absurd h (by simp)
        · rename_i g3 rcode3 hr3
          have ih3 := visitExpr_touches T t rhs g2 g3 rcode3 hr3
          split at h
          · split at h
            · simp only [Except.ok.injEq, Prod.mk.injEq] at h
              obtain ⟨rfl, -⟩ := h
              exact (hops1.seq ih3).seq (touches_insert T _ _ (fun _ _ _ => by rfl))
            · exact absurd h (by simp)
          · exact absurd h (by simp)
      · exact hops1.seq (binaryOperation_touches T _ _ _ _ _ _ _ _ h)
theorem visitExprs_touches (T : Nat → Prop) (t : StaticScriptLexer) :
    ∀ (es : List ExprNode) (g g1 : IRGenerator) (cs : List (Option LLVMValue)),
      visitExprs t g es = .ok (g1, cs) → Touches T g g1
  | [], g, g1, cs, h => by
    simp only [visitExprs, Except.ok.injEq, Prod.mk.injEq] at h
    obtain ⟨rfl, -⟩ := h
    exact Touches.same T _
  | e :: es, g, g1, cs, h => by
    simp only [visitExprs] at h
    split at h
    · exact absurd h (by simp)
    · rename_i g2 code he
      have ih1 := visitExpr_touches T t e g g2 code he
      split at h
      · exact absurd h (by simp)
      · rename_i g3 codes hes
        have ih2 := visitExprs_touches T t es g2 g3 codes hes
        simp only [Except.ok.injEq, Prod.mk.injEq] at h
        obtain ⟨rfl, -⟩ := h
        exact ih1.seq ih2
end
theorem Touches.andThen {g g1 g2 : IRGenerator}
    (h1 : Touches (fun b => g.blocks.length ≤ b) g g1)
    (h2 : Touches (fun b => g1.blocks.length ≤ b) g1 g2) :
    Touches (fun b => g.blocks.length ≤ b) g g2 :=
  h1.seq (h2.mono (fun _ hb => Nat.le_trans h1.blocksLength hb))

theorem lookup_mem {α : Type} (key : Nat) (v : α) :
    ∀ l : List (Nat × α), lookup key l = some v → (key, v) ∈ l
  | [], h => by simp [lookup] at h
  | (k, w) :: rest, h => by
    unfold lookup at h
    by_cases hk : k = key
    · rw [if_pos hk] at h
      simp only [Option.some.injEq] at h
      subst h; subst hk
      exact List.mem_cons_self _ _
    · rw [if_neg hk] at h
      exact List.mem_cons_of_mem _ (lookup_mem key v rest h)

theorem createCondBr_touches (T : Nat → Prop) (g g1 : IRGenerator) (code : Option LLVMValue)
    (x y : Nat) (h : createCondBr g code x y = .ok g1) (hx : T x) (hy : T y) :
    Touches T g g1 := by
  unfold createCondBr at h
  cases code with
  | none => exact absurd h (by simp)
  | some c =>
    simp only [Except.ok.injEq] at h
    subst h
    exact touches_insert T g _ (fun b hT _ =>
      Instruction.usesBlock_condBr c x y b (fun e => hT (e ▸ hx)) (fun e => hT (e ▸ hy)))

/-- A branch to a block that a loop node holds as a handle names no block
that nothing names. -/
theorem createBr_touches (T : Nat → Prop) (g g1 : IRGenerator) (dest : Option Nat)
    (node : Nat) (it : IterationStmtNode) (hit : lookup node g.iterationStmts = some it)
    (hd : ∀ bb, dest = some bb → bb ∈ it.handles) (h : createBr g dest = .ok g1) :
    Touches T g g1 := by
  unfold createBr at h
  cases dest with
  | none => exact absurd h (by simp)
  | some bb =>
    simp only [Except.ok.injEq] at h
    subst h
    refine touches_insert T g _ (fun b _ hU => Instruction.usesBlock_br bb b ?_)
    intro e
    exact hU.handles _ (lookup_mem node it _ hit) (e ▸ hd bb rfl)

theorem visitContinue_touches (T : Nat → Prop) (g g1 : IRGenerator) (ref : Option Nat)
    (h : visitContinue g ref = .ok g1) : Touches T g g1 := by
  unfold visitContinue at h
  cases ref with
  | none => exact absurd h (by simp)
  | some node =>
    simp only at h
    cases hit : lookup node g.iterationStmts with
    | none => rw [hit] at h; exact absurd h (by simp)
    | some it =>
      rw [hit] at h
      simp only at h
      split at h
      · exact createBr_touches T _ _ _ node it hit
          (fun bb e => by simp [IterationStmtNode.handles, e]) h
      · split at h
        · rename_i u hu
          exact createBr_touches T _ _ _ node it hit
            (fun bb e => by
              simp only [Option.some.injEq] at e
              subst e
              simp [IterationStmtNode.handles, hu]) h
        · exact createBr_touches T _ _ _ node it hit
            (fun bb e => by simp [IterationStmtNode.handles, e]) h

theorem visitBreak_touches (T : Nat → Prop) (g g1 : IRGenerator) (ref : Option Nat)
    (h : visitBreak g ref = .ok g1) : Touches T g g1 := by
  unfold visitBreak at h
  cases ref with
  | none => exact absurd h (by simp)
  | some node =>
    simp only at h
    cases hit : lookup node g.iterationStmts with
    | none => rw [hit] at h; exact absurd h (by simp)
    | some it =>
      rw [hit] at h
      exact createBr_touches T _ _ _ node it hit
        (fun bb e => by simp [IterationStmtNode.handles, e]) h

theorem visitReturn_touches (T : Nat → Prop) (t : StaticScriptLexer) (g g1 : IRGenerator)
    (e : Option ExprNode) (h : visitReturn t g e = .ok g1) : Touches T g g1 := by
  unfold visitReturn at h
  split at h
  · simp only [Except.ok.injEq] at h
    subst h
    exact touches_insert T _ _ (fun _ _ _ => by rfl)
  · split at h
    · exact absurd h (by simp)
    · rename_i g2 v hv
      simp only [Except.ok.injEq] at h
      subst h
      exact (visitExpr_touches T t _ _ _ _ hv).seq (touches_insert T _ _ (fun _ _ _ => by rfl))
    · rename_i g2 hv
      simp only [Except.ok.injEq] at h
      subst h
      exact (visitExpr_touches T t _ _ _ _ hv).seq (touches_insert T _ _ (fun _ _ _ => by rfl))

theorem createAlloca_touches (T : Nat → Prop) (g g1 : IRGenerator) (ty : LLVMType)
    (v : LLVMValue) (h : g.createAlloca ty = .ok (g1, v)) : Touches T g g1 := by
  unfold IRGenerator.createAlloca at h
  split at h
  · simp only [Except.ok.injEq] at h
    have hg : g1 = (g.insert (.alloca ty (some ty.prefTypeAlign))).1 := by rw [h]
    rw [hg]
    exact touches_insert T _ _ (fun _ _ _ => by rfl)
  · exact absurd h (by simp)

theorem touches_setCode (T : Nat → Prop) (g : IRGenerator) (d : Nat) (v : LLVMValue) :
    Touches T g (g.setCode d v) :=
  touches_of_eq T rfl rfl rfl rfl rfl rfl

theorem visitVarDecl_touches (T : Nat → Prop) (t : StaticScriptLexer) (g g1 : IRGenerator)
    (d : VarDeclNode) (h : visitVarDecl t g d = .ok g1) : Touches T g g1 := by
  unfold visitVarDecl at h
  simp only at h
  split at h
  · exact absurd h (by simp)
  · rename_i g0 initCode hv
    have h0 : Touches T g g0 := by
      split at hv
      · exact visitExpr_touches T t _ _ _ _ hv
      · simp only [Except.ok.injEq, Prod.mk.injEq] at hv
        obtain ⟨rfl, -⟩ := hv
        exact Touches.same T _
    split at h
    · split at h
      · exact absurd h (by simp)
      · split at h
        · split at h
          · simp only [Except.ok.injEq] at h
            subst h
            refine Touches.seq h0 ?_
            refine Touches.seq ?_ (touches_setCode T _ _ _)
            refine Touches.seq ?_ (touches_insert T _ _ (fun _ _ _ => by rfl))
            exact touches_of_eq T rfl rfl rfl rfl rfl rfl
          · exact absurd h (by simp)
        · simp only [Except.ok.injEq] at h
          subst h
          exact h0.seq (touches_of_eq T rfl rfl rfl rfl rfl rfl)
    · split at h
      · exact absurd h (by simp)
      · rename_i g2 alloca ha
        have h2 := createAlloca_touches T _ _ _ _ ha
        split at h
        · split at h
          · simp only [Except.ok.injEq] at h
            subst h
            refine Touches.seq (h0.seq h2) ?_
            refine Touches.seq ?_ (touches_setCode T _ _ _)
            exact touches_insert T _ _ (fun _ _ _ => by rfl)
          · exact absurd h (by simp)
        · simp only [Except.ok.injEq] at h
          subst h
          exact (h0.seq h2).seq (touches_setCode T _ _ _)

theorem visitVarDecls_touches (T : Nat → Prop) (t : StaticScriptLexer) :
    ∀ (ds : List VarDeclNode) (g g1 : IRGenerator), visitVarDecls t g ds = .ok g1 →
      Touches T g g1
  | [], g, g1, h => by
    simp only [visitVarDecls, Except.ok.injEq] at h
    subst h; exact Touches.same T _
  | d :: ds, g, g1, h => by
    simp only [visitVarDecls] at h
    split at h
    · exact absurd h (by simp)
    · rename_i g2 hd
      exact (visitVarDecl_touches T t g g2 d hd).seq (visitVarDecls_touches T t ds g2 g1 h)

theorem visitExprList_touches (T : Nat → Prop) (t : StaticScriptLexer) (g g1 : IRGenerator)
    (es : List ExprNode) (h : visitExprList t g es = .ok g1) : Touches T g g1 := by
  unfold visitExprList at h
  split at h
  · exact absurd h (by simp)
  · rename_i g2 codes he
    simp only [Except.ok.injEq] at h
    subst h
    exact visitExprs_touches T t _ _ _ _ he

theorem IRGenerator.emitBlock_insertBlock (g : IRGenerator) (bb : Nat) :
    (g.emitBlock bb false).insertBlock = some bb := by
  unfold IRGenerator.emitBlock
  simp

/-- The part of `visit(IfStmtNode)` before the then-body creates the blocks
of the statement one after the other and names only the then block and the
else target in what it adds; the then block is in a block list afterwards. -/
theorem ifHead_touches (t : StaticScriptLexer) (g g1 : IRGenerator) (c : ExprNode)
    (hasElse : Bool) (blocks : IfBlocks) (h : ifHead t g c hasElse = .ok (g1, blocks)) :
    blocks.thenBB = g.blocks.length ∧ blocks.endBB = g.blocks.length + 1 ∧
    blocks.elseBB = (if hasElse then g.blocks.length + 2 else g.blocks.length + 1) ∧
    g.blocks.length + 2 ≤ g1.blocks.length ∧
    Touches (fun b => b = blocks.thenBB ∨ b = blocks.elseBB) g g1 ∧
    (g.attached = true → g1.listed blocks.thenBB = true) := by
  unfold ifHead at h
  split at h
  · exact absurd h (by simp)
  · rename_i g2 code hc
    simp only at h
    split at h
    · exact absurd h (by simp)
    · rename_i g3 hbr
      simp only [Except.ok.injEq, Prod.mk.injEq] at h
      obtain ⟨rfl, rfl⟩ := h
      have hA := visitExpr_appends t _ _ _ _ hc
      have hlen : g2.blocks.length = g.blocks.length := hA.blocksLength
      simp only [IRGenerator.createBasicBlock_snd, IRGenerator.createBasicBlock_length, hlen]
      have hT := fun T : Nat → Prop => visitExpr_touches T t _ _ _ _ hc
      cases hasElse
      · simp only [Bool.false_eq_true, if_false] at hbr ⊢
        simp only [IRGenerator.createBasicBlock_snd, IRGenerator.createBasicBlock_length,
          hlen] at hbr ⊢
        have hT3 : ∀ T : Nat → Prop, T g.blocks.length → T (g.blocks.length + 1) →
            Touches T g g3 := fun T h0 h1 =>
          (hT T).seq ((touches_createBasicBlock T _ _).seq
            ((touches_createBasicBlock T _ _).seq
              (createCondBr_touches T _ _ _ _ _ hbr h0 h1)))
        have hlen3 := (createCondBr_touches (fun _ => True) _ _ _ _ _ hbr trivial trivial).blocksLength
        simp only [IRGenerator.createBasicBlock_length, hlen] at hlen3
        refine ⟨trivial, trivial, trivial, ?_, ?_, ?_⟩
        · rw [IRGenerator.emitBlock_length]; exact hlen3
        · exact (hT3 _ (Or.inl rfl) (Or.inr rfl)).seq (touches_emitBlock _ _ _ _ (Or.inl rfl))
        · intro ha
          exact g3.emitBlock_listed_self _ _
            ((hT3 (fun _ => True) trivial trivial).attached ha) (g3.emitBlock_insertBlock _)
      · simp only [if_true] at hbr ⊢
        simp only [IRGenerator.createBasicBlock_snd, IRGenerator.createBasicBlock_length,
          hlen] at hbr ⊢
        have hT3 : ∀ T : Nat → Prop, T g.blocks.length → T (g.blocks.length + 1 + 1) →
            Touches T g g3 := fun T h0 h1 =>
          (hT T).seq ((touches_createBasicBlock T _ _).seq
            ((touches_createBasicBlock T _ _).seq ((touches_createBasicBlock T _ _).seq
              (createCondBr_touches T _ _ _ _ _ hbr h0 h1))))
        have hlen3 := (createCondBr_touches (fun _ => True) _ _ _ _ _ hbr trivial trivial).blocksLength
        simp only [IRGenerator.createBasicBlock_length, hlen] at hlen3
        refine ⟨trivial, trivial, trivial, ?_, ?_, ?_⟩
        · rw [IRGenerator.emitBlock_length]; omega
        · exact (hT3 _ (Or.inl rfl) (Or.inr rfl)).seq (touches_emitBlock _ _ _ _ (Or.inl rfl))
        · intro ha
          exact g3.emitBlock_listed_self _ _
            ((hT3 (fun _ => True) trivial trivial).attached ha) (g3.emitBlock_insertBlock _)
theorem whileHead_touches (t : StaticScriptLexer) (g g1 : IRGenerator) (id : Nat)
    (condition : ExprNode) (blocks : LoopBlocks)
    (h : whileHead t g id condition = .ok (g1, blocks)) :
    g.blocks.length ≤ blocks.condBB ∧ g.blocks.length ≤ blocks.endBB ∧
    blocks.updateBB = none ∧ Touches (fun b => g.blocks.length ≤ b) g g1 := by
  unfold whileHead at h
  simp only at h
  split at h
  · exact absurd h (by simp)
  · rename_i g2 code hc
    split at h
    · exact absurd h (by simp)
    · rename_i g3 hbr
      simp only [Except.ok.injEq, Prod.mk.injEq] at h
      obtain ⟨rfl, rfl⟩ := h
      simp only [IRGenerator.createBasicBlock_snd, IRGenerator.createBasicBlock_length] at hc hbr ⊢
      refine ⟨Nat.le_refl _, by omega, by trivial, ?_⟩
      refine Touches.seq ?_ (touches_emitBlock _ _ _ _ (by show _ ≤ _; omega))
      refine Touches.seq ?_ (createCondBr_touches _ _ _ _ _ _ hbr (by show _ ≤ _; omega)
        (by show _ ≤ _; omega))
      refine Touches.seq ?_ (visitExpr_touches _ t _ _ _ _ hc)
      refine Touches.seq ?_ (touches_emitBlock _ _ _ _ (Nat.le_refl _))
      refine Touches.seq ?_ (touches_setIteration _ _ _ _ ?_)
      · exact (touches_createBasicBlock _ _ _).seq ((touches_createBasicBlock _ _ _).seq
          (touches_createBasicBlock _ _ _))
      · intro x hx
        simp only [IterationStmtNode.handles, Option.toList, List.append_nil, List.mem_append,
          List.mem_singleton, List.mem_cons, List.not_mem_nil, or_false] at hx
        show _ ≤ _
        rcases hx with rfl | rfl <;> omega

theorem loopTail_touches (T : Nat → Prop) (g : IRGenerator) (blocks : LoopBlocks)
    (hc : T blocks.condBB) (he : T blocks.endBB) : Touches T g (loopTail g blocks) :=
  (touches_emitBranch T g _ hc).seq (touches_emitBlock T _ _ _ he)

theorem forTail_touches (T : Nat → Prop) (t : StaticScriptLexer) (g g1 : IRGenerator)
    (updates : List ExprNode) (blocks : LoopBlocks) (h : forTail t g updates blocks = .ok g1)
    (hc : T blocks.condBB) (he : T blocks.endBB) (hu : ∀ u, blocks.updateBB = some u → T u) :
    Touches T g g1 := by
  unfold forTail at h
  split at h
  · simp only [Except.ok.injEq] at h
    subst h
    exact loopTail_touches T _ _ hc he
  · split at h
    · exact absurd h (by simp)
    · rename_i u hub
      split at h
      · exact absurd h (by simp)
      · rename_i g2 hv
        simp only [Except.ok.injEq] at h
        subst h
        exact (touches_emitBlock T _ _ _ (hu u hub)).seq
          ((visitExprList_touches T t _ _ _ hv).seq (loopTail_touches T _ _ hc he))

theorem paramAllocas_touches (T : Nat → Prop) (func : Nat) :
    ∀ (ps : List ParmVarDeclNode) (i : Nat) (g g1 : IRGenerator),
      paramAllocas g func i ps = .ok g1 → Touches T g g1
  | [], i, g, g1, h => by
    simp only [paramAllocas, Except.ok.injEq] at h
    subst h; exact Touches.same T _
  | p :: ps, i, g, g1, h => by
    simp only [paramAllocas] at h
    split at h
    · exact absurd h (by simp)
    · rename_i g2 a ha
      refine Touches.seq ?_ (paramAllocas_touches T func ps (i + 1) _ g1 h)
      refine Touches.seq ?_ (touches_setCode T _ _ _)
      exact (createAlloca_touches T _ _ _ _ ha).seq (touches_insert T _ _ (fun _ _ _ => by rfl))

theorem functionTail_touches (T : Nat → Prop) (g g1 : IRGenerator)
    (returnType : Option BuiltinTypeNode) (h : functionTail g returnType = .ok g1) :
    Touches T g g1 := by
  unfold functionTail at h
  split at h
  · simp only [Except.ok.injEq] at h
    subst h; exact Touches.same T _
  · split at h
    · exact absurd h (by simp)
    · split at h
      · simp only [Except.ok.injEq] at h
        subst h; exact Touches.same T _
      · simp only [Except.ok.injEq] at h
        subst h
        exact touches_insert T _ _ (fun _ _ _ => by rfl)

theorem setFuncInsertPoint_touches (T : Nat → Prop) (g g1 : IRGenerator) (func : Nat)
    (h : g.setFuncInsertPoint func = .ok g1) : Touches T g g1 := by
  unfold IRGenerator.setFuncInsertPoint at h
  split at h
  · exact absurd h (by simp)
  · rename_i fn hfn
    split at h
    · exact absurd h (by simp)
    · rename_i bb hbb
      simp only [Except.ok.injEq] at h
      subst h
      refine ⟨Nat.le_refl _, fun _ _ hU => hU.congr rfl rfl rfl rfl, fun _ hl => hl, fun _ => ?_⟩
      rw [IRGenerator.attached_iff]
      have hlt : func < g.functions.length := by
        by_contra hge
        rw [List.getElem?_eq_none (by omega)] at hfn
        exact absurd hfn (by simp)
      refine ⟨hlt, ?_⟩
      intro c hc
      simp only [Option.some.injEq] at hc
      subst hc
      rw [IRGenerator.listed_iff]
      exact ⟨fn, List.mem_iff_getElem?.mpr ⟨func, hfn⟩, List.mem_of_mem_getLast? hbb⟩

theorem functionHead_touches (g g1 : IRGenerator) (name : String)
    (params : List ParmVarDeclNode) (returnType : Option BuiltinTypeNode)
    (h : functionHead g name params returnType = .ok g1) :
    Touches (fun b => g.blocks.length ≤ b) g g1 := by
  unfold functionHead at h
  simp only at h
  refine Touches.seq ?_ (paramAllocas_touches _ _ _ _ _ _ h)
  refine ⟨?_, ?_, ?_, ?_⟩
  · simp [IRGenerator.createBasicBlock, IRGenerator.createFunction]
  · intro b hb hU
    have hne : g.blocks.length ≠ b := fun e => hb (by show _ ≤ _; omega)
    refine ⟨?_, hU.detached, hU.handles, ?_⟩
    · intro blk hblk j hj
      simp only [IRGenerator.createBasicBlock, IRGenerator.createFunction, List.mem_append,
        List.mem_singleton] at hblk
      rcases hblk with h1 | h1
      · exact hU.blocks blk h1 j hj
      · subst h1
        simp at hj
    · intro fn hfn
      simp only [IRGenerator.createBasicBlock, IRGenerator.createFunction] at hfn
      rw [updateAt_append_length] at hfn
      rcases List.mem_append.mp hfn with h1 | h1
      · exact hU.lists fn h1
      · simp only [List.mem_singleton] at h1
        subst h1
        simp only [List.nil_append, List.mem_singleton]
        exact fun e => hne e.symm
  · intro b hl
    rw [IRGenerator.listed_iff] at hl ⊢
    obtain ⟨fn, hfn, hb⟩ := hl
    refine ⟨fn, ?_, hb⟩
    simp only [IRGenerator.createBasicBlock, IRGenerator.createFunction]
    rw [updateAt_append_length]
    exact List.mem_append_left _ hfn
  · intro _
    rw [IRGenerator.attached_iff]
    simp only [IRGenerator.createBasicBlock, IRGenerator.createFunction]
    rw [updateAt_append_length]
    refine ⟨by simp, ?_⟩
    intro c hc
    simp only [Option.some.injEq] at hc
    subst hc
    rw [IRGenerator.listed_iff]
    exact ⟨_, List.mem_append_right _ (List.mem_singleton_self _), by simp⟩
theorem IRGenerator.setIteration_length (g : IRGenerator) (node : Nat) (it : IterationStmtNode) :
    (g.setIteration node it).blocks.length = g.blocks.length := rfl

theorem forHead_touches (t : StaticScriptLexer) (g g1 : IRGenerator) (id : Nat)
    (initVarStmt : Option (List VarDeclNode)) (initExprs : List ExprNode)
    (condition : Option ExprNode) (updates : List ExprNode) (blocks : LoopBlocks)
    (h : forHead t g id initVarStmt initExprs condition updates = .ok (g1, blocks)) :
    g.blocks.length ≤ blocks.condBB ∧ g.blocks.length ≤ blocks.endBB ∧
    (∀ u, blocks.updateBB = some u → g.blocks.length ≤ u) ∧
    Touches (fun b => g.blocks.length ≤ b) g g1 := by
  unfold forHead at h
  simp only at h
  split at h
  · exact absurd h (by simp)
  · rename_i g0 hinit
    have h0 : Touches (fun b => g.blocks.length ≤ b) g g0 := by
      split at hinit
      · exact visitVarDecls_touches _ t _ _ _ hinit
      · exact visitExprList_touches _ t _ _ _ hinit
    have hl0 := h0.blocksLength
    have hbase : ∀ u : Option Nat, (∀ x, u = some x → g.blocks.length ≤ x) →
        Touches (fun b => g.blocks.length ≤ b) g
          ((((g0.createBasicBlock "for.cond" none).1.createBasicBlock "for.end" none).1.setIteration
            id { isWhile := false, condBB := some g0.blocks.length, updateBB := u,
                 endBB := some (g0.blocks.length + 1) })) := by
      intro u hu
      refine Touches.seq ?_ (touches_setIteration _ _ _ _ ?_)
      · exact h0.seq ((touches_createBasicBlock _ _ _).seq (touches_createBasicBlock _ _ _))
      · intro x hx
        simp only [IterationStmtNode.handles, Option.toList, List.append_nil, List.mem_append,
          List.mem_singleton, List.mem_cons, List.not_mem_nil, or_false] at hx
        show _ ≤ _
        rcases hx with (rfl | hx) | rfl
        · omega
        · cases u with
          | none => simp at hx
          | some v =>
            simp only [List.mem_singleton] at hx
            exact hx ▸ hu v rfl
        · omega
    have hbase2 := (hbase none (fun _ e => absurd e (by simp))).seq
      (touches_emitBlock _ _ g0.blocks.length false hl0)
    by_cases hu : updates.isEmpty = true
    · simp only [hu, if_true] at h
      split at h
      · split at h
        · exact absurd h (by simp)
        · rename_i g3 code hc
          split at h
          · exact absurd h (by simp)
          · rename_i g4 hbr
            simp only [Except.ok.injEq, Prod.mk.injEq] at h
            obtain ⟨rfl, rfl⟩ := h
            simp only [IRGenerator.createBasicBlock_snd, IRGenerator.createBasicBlock_length,
              IRGenerator.emitBlock_length, IRGenerator.setIteration_length] at hc hbr ⊢
            refine ⟨hl0, by omega, fun _ e => absurd e (by simp), ?_⟩
            refine Touches.seq ?_ (touches_emitBlock _ _ _ _ (by show _ ≤ _; omega))
            refine Touches.seq ?_ (createCondBr_touches _ _ _ _ _ _ hbr (by show _ ≤ _; omega)
              (by show _ ≤ _; omega))
            refine Touches.seq ?_ (visitExpr_touches _ t _ _ _ _ hc)
            exact hbase2.seq (touches_createBasicBlock _ _ _)
      · simp only [Except.ok.injEq, Prod.mk.injEq] at h
        obtain ⟨rfl, rfl⟩ := h
        simp only [IRGenerator.createBasicBlock_snd, IRGenerator.createBasicBlock_length]
        exact ⟨hl0, by omega, fun _ e => absurd e (by simp), hbase2⟩
    · simp only [hu, Bool.false_eq_true, if_false] at h
      have hbase3 : Touches (fun b => g.blocks.length ≤ b) g
          ((((((g0.createBasicBlock "for.cond" none).1.createBasicBlock "for.end" none).1.setIteration
            id { isWhile := false, condBB := some g0.blocks.length, updateBB := none,
                 endBB := some (g0.blocks.length + 1) }).emitBlock g0.blocks.length
              false).createBasicBlock "for.update" none).1.setIteration id
            { isWhile := false, condBB := some g0.blocks.length,
              updateBB := some (g0.blocks.length + 1 + 1),
              endBB := some (g0.blocks.length + 1) }) := by
        refine Touches.seq ?_ (touches_setIteration _ _ _ _ ?_)
        · exact hbase2.seq (touches_createBasicBlock _ _ _)
        · intro x hx
          simp only [IterationStmtNode.handles, Option.toList, List.append_nil, List.mem_append,
            List.mem_singleton, List.mem_cons, List.not_mem_nil, or_false] at hx
          show _ ≤ _
          rcases hx with (rfl | rfl) | rfl <;> omega
      split at h
      · split at h
        · exact absurd h (by simp)
        · rename_i g3 code hc
          split at h
          · exact absurd h (by simp)
          · rename_i g4 hbr
            simp only [Except.ok.injEq, Prod.mk.injEq] at h
            obtain ⟨rfl, rfl⟩ := h
            simp only [IRGenerator.createBasicBlock_snd, IRGenerator.createBasicBlock_length,
              IRGenerator.emitBlock_length, IRGenerator.setIteration_length] at hc hbr ⊢
            refine ⟨hl0, by omega, fun u e => ?_, ?_⟩
            · simp only [Bool.false_eq_true, if_false, Option.some.injEq] at e
              omega
            refine Touches.seq ?_ (touches_emitBlock _ _ _ _ (by show _ ≤ _; omega))
            refine Touches.seq ?_ (createCondBr_touches _ _ _ _ _ _ hbr (by show _ ≤ _; omega)
              (by show _ ≤ _; omega))
            refine Touches.seq ?_ (visitExpr_touches _ t _ _ _ _ hc)
            exact hbase3.seq (touches_createBasicBlock _ _ _)
      · simp only [Except.ok.injEq, Prod.mk.injEq] at h
        obtain ⟨rfl, rfl⟩ := h
        simp only [IRGenerator.createBasicBlock_snd, IRGenerator.createBasicBlock_length,
          IRGenerator.emitBlock_length, IRGenerator.setIteration_length]
        refine ⟨hl0, by omega, fun u e => ?_, hbase3⟩
        simp only [Bool.false_eq_true, if_false, Option.some.injEq] at e
        omega
theorem Touches.lower {n : Nat} {g g1 : IRGenerator}
    (h : Touches (fun b => g.blocks.length ≤ b) g g1) (hn : n ≤ g.blocks.length) :
    Touches (fun b => n ≤ b) g g1 :=
  h.mono (fun _ hb => Nat.le_trans hn hb)

mutual
/-- Visiting a statement names, in what it adds, only blocks it creates and
blocks that were named before: a block that exists and that nothing names
stays so, blocks stay in the block lists and the insertion point stays
attached. -/
theorem visitStmt_touches (t : StaticScriptLexer) :
    ∀ (s : StmtNode) (g g1 : IRGenerator), visitStmt t g s = .ok g1 →
      Touches (fun b => g.blocks.length ≤ b) g g1
  | .exprStmt e, g, g1, h => by
    simp only [visitStmt] at h
    split at h
    · exact absurd h (by simp)
    · rename_i g2 c he
      simp only [Except.ok.injEq] at h
      subst h
      exact visitExpr_touches _ t _ _ _ _ he
  | .compoundStmt l, g, g1, h => by
    simp only [visitStmt] at h
    exact visitStmts_touches t l g g1 h
  | .varDeclStmt ds, g, g1, h => by
    simp only [visitStmt] at h
    exact visitVarDecls_touches _ t _ _ _ h
  | .functionDeclStmt name params returnType body, g, g1, h => by
    simp only [visitStmt] at h
    split at h
    · exact absurd h (by simp)
    · rename_i g2 hh
      split at h
      · exact absurd h (by simp)
      · rename_i g3 hb
        split at h
        · exact absurd h (by simp)
        · rename_i g4 ht
          exact ((functionHead_touches _ _ _ _ _ hh).andThen
            (visitStmt_touches t body g2 g3 hb)).seq
            ((functionTail_touches _ _ _ _ ht).seq (setFuncInsertPoint_touches _ _ _ _ h))
  | .ifStmt c thenBody elseBody, g, g1, h => by
    simp only [visitStmt] at h
    split at h
    · exact absurd h (by simp)
    · rename_i g2 blocks hh
      split at h
      · exact absurd h (by simp)
      · rename_i g3 hb
        split at h
        · exact absurd h (by simp)
        · rename_i g4 he
          simp only [Except.ok.injEq] at h
          subst h
          obtain ⟨hthen, hend, helse, -, hT, -⟩ := ifHead_touches t _ _ _ _ _ hh
          have helse1 : g.blocks.length ≤ blocks.elseBB := by
            rw [helse]; split <;> omega
          have hT1 : Touches (fun b => g.blocks.length ≤ b) g g2 :=
            hT.mono (fun b hb => by
              show _ ≤ _
              rcases hb with rfl | rfl
              · omega
              · exact helse1)
          have hT2 := hT1.andThen (visitStmt_touches t thenBody g2 g3 hb)
          have hT3 := hT2.seq (touches_emitBranch _ g3 blocks.endBB (by show _ ≤ _; omega))
          refine (hT3.seq (visitElse_touches t elseBody _ g4 blocks g.blocks.length he
            hT3.blocksLength helse1 (by omega))).seq
            (touches_emitBlock _ _ _ _ (by show _ ≤ _; omega))
  | .whileStmt id c body, g, g1, h => by
    simp only [visitStmt] at h
    split at h
    · exact absurd h (by simp)
    · rename_i g2 blocks hh
      split at h
      · exact absurd h (by simp)
      · rename_i g3 hb
        simp only [Except.ok.injEq] at h
        subst h
        obtain ⟨hc, he, -, hT⟩ := whileHead_touches t _ _ _ _ _ hh
        exact (hT.andThen (visitStmt_touches t body g2 g3 hb)).seq
          (loopTail_touches _ _ _ hc he)
  | .forStmt id iv ie c u body, g, g1, h => by
    simp only [visitStmt] at h
    split at h
    · exact absurd h (by simp)
    · rename_i g2 blocks hh
      split at h
      · exact absurd h (by simp)
      · rename_i g3 hb
        obtain ⟨hc, he, hu, hT⟩ := forHead_touches t _ _ _ _ _ _ _ _ hh
        exact (hT.andThen (visitStmt_touches t body g2 g3 hb)).seq
          (forTail_touches _ t _ _ _ _ h hc he hu)
  | .continueStmt r, g, g1, h => by
    simp only [visitStmt] at h
    exact visitContinue_touches _ _ _ _ h
  | .breakStmt r, g, g1, h => by
    simp only [visitStmt] at h
    exact visitBreak_touches _ _ _ _ h
  | .returnStmt e, g, g1, h => by
    simp only [visitStmt] at h
    exact visitReturn_touches _ t _ _ _ h
theorem visitElse_touches (t : StaticScriptLexer) :
    ∀ (s : Option StmtNode) (g g1 : IRGenerator) (blocks : IfBlocks) (n : Nat),
      visitElse t g blocks s = .ok g1 → n ≤ g.blocks.length → n ≤ blocks.elseBB →
      n ≤ blocks.endBB → Touches (fun b => n ≤ b) g g1
  | none, g, g1, blocks, n, h, _, _, _ => by
    simp only [visitElse, Except.ok.injEq] at h
    subst h; exact Touches.same _ _
  | some body, g, g1, blocks, n, h, hn, helse, hend => by
    simp only [visitElse] at h
    split at h
    · exact absurd h (by simp)
    · rename_i g2 hb
      simp only [Except.ok.injEq] at h
      subst h
      have h1 := touches_emitBlock (fun b => n ≤ b) g blocks.elseBB false helse
      exact (h1.seq ((visitStmt_touches t body _ g2 hb).lower
        (Nat.le_trans hn h1.blocksLength))).seq (touches_emitBranch _ _ _ hend)
theorem visitStmts_touches (t : StaticScriptLexer) :
    ∀ (l : List StmtNode) (g g1 : IRGenerator), visitStmts t g l = .ok g1 →
      Touches (fun b => g.blocks.length ≤ b) g g1
  | [], g, g1, h => by
    simp only [visitStmts, Except.ok.injEq] at h
    subst h; exact Touches.same _ _
  | s :: rest, g, g1, h => by
    simp only [visitStmts] at h
    split at h
    · exact absurd h (by simp)
    · rename_i g2 hs
      exact (visitStmt_touches t s g g2 hs).andThen (visitStmts_touches t rest g2 g1 h)
end

theorem Instruction.usesBlock_of_not_mem (i : Instruction) (b : Nat)
    (h : b ∉ i.blockOperands) : i.usesBlock b = false := by
  cases i <;> simp [Instruction.usesBlock, Instruction.blockOperands] at h ⊢
  · exact fun e => h e.symm
  · exact ⟨fun e => h.1 e.symm, fun e => h.2 e.symm⟩

/-- In a well-formed generator nothing names a block that is not created
yet. -/
theorem IRGenerator.wellFormed_unreferenced (g : IRGenerator) (h : g.wellFormed = true)
    (b : Nat) (hb : g.blocks.length ≤ b) : Unreferenced g b := by
  unfold IRGenerator.wellFormed at h
  simp only [Bool.and_eq_true, List.all_eq_true, decide_eq_true_eq] at h
  obtain ⟨⟨⟨⟨h1, h2⟩, h3⟩, h4⟩, -⟩ := h
  refine ⟨?_, ?_, ?_, ?_⟩
  · intro blk hblk i hi
    exact i.2.usesBlock_of_not_mem b (fun hm => by have := h1 blk hblk i hi b hm; omega)
  · intro i hi
    exact i.2.usesBlock_of_not_mem b (fun hm => by have := h2 i hi b hm; omega)
  · intro p hp hm
    have := h3 p hp b hm
    omega
  · intro fn hfn hm
    have := h4 fn hfn b hm
    omega

theorem IRGenerator.wellFormed_attached (g : IRGenerator) (h : g.wellFormed = true) :
    g.attached = true := by
  unfold IRGenerator.wellFormed at h
  simp only [Bool.and_eq_true] at h
  exact h.2

theorem IRGenerator.emitBranch_of_cursorTerminated (g : IRGenerator) (bb : Nat)
    (h : g.cursorTerminated = true) : g.emitBranch bb = { g with insertBlock := none } := by
  unfold IRGenerator.cursorTerminated at h
  unfold IRGenerator.emitBranch
  cases hc : g.insertBlock with
  | none => rfl
  | some c =>
    rw [hc] at h
    simp only at h
    simp only [h, if_true]

theorem touches_clear (T : Nat → Prop) (g : IRGenerator) :
    Touches T g { g with insertBlock := none } :=
  ⟨Nat.le_refl _, fun _ _ hU => hU.congr rfl rfl rfl rfl, fun _ hl => hl, fun ha => by
    rw [IRGenerator.attached_iff] at ha ⊢
    exact ⟨ha.1, fun c hc => absurd hc (by simp)⟩⟩

/-! ## Statements without nested control flow -/

theorem inserts_refl (g : IRGenerator) : Inserts g g :=
  ⟨rfl, rfl, rfl, rfl, fun _ _ => rfl⟩

theorem inserts_trans {g g1 g2 : IRGenerator} (h1 : Inserts g g1) (h2 : Inserts g1 g2) :
    Inserts g g2 :=
  ⟨h2.functions.trans h1.functions, h2.insertBlock.trans h1.insertBlock,
   h2.curFn.trans h1.curFn, h2.blocksLength.trans h1.blocksLength,
   fun b hb => by rw [h2.others b (by rw [h1.insertBlock]; exact hb), h1.others b hb]⟩

theorem inserts_of_appends {g g1 : IRGenerator} (h : Appends g g1) : Inserts g g1 :=
  ⟨h.functions, h.insertBlock, h.curFn, h.blocksLength, h.others⟩

theorem inserts_insert (g : IRGenerator) (i : Instruction) : Inserts g (g.insert i).1 :=
  inserts_of_appends (g.appends_insert i)

theorem inserts_setCode (g : IRGenerator) (d : Nat) (v : LLVMValue) :
    Inserts g (g.setCode d v) :=
  ⟨rfl, rfl, rfl, rfl, fun _ _ => rfl⟩

theorem createAlloca_inserts (g g1 : IRGenerator) (ty : LLVMType) (v : LLVMValue)
    (h : g.createAlloca ty = .ok (g1, v)) : Inserts g g1 := by
  unfold IRGenerator.createAlloca at h
  split at h
  · simp only [Except.ok.injEq] at h
    have hg : g1 = (g.insert (.alloca ty (some ty.prefTypeAlign))).1 := by rw [h]
    rw [hg]
    exact inserts_insert _ _
  · exact absurd h (by simp)

theorem visitVarDecl_inserts (t : StaticScriptLexer) (g g1 : IRGenerator)
    (d : VarDeclNode) (h : visitVarDecl t g d = .ok g1) : Inserts g g1 := by
  unfold visitVarDecl at h
  simp only at h
  split at h
  · exact absurd h (by simp)
  · rename_i g0 initCode hv
    have h0 : Inserts g g0 := by
      split at hv
      · exact inserts_of_appends (visitExpr_appends t _ _ _ _ hv)
      · simp only [Except.ok.injEq, Prod.mk.injEq] at hv
        obtain ⟨rfl, -⟩ := hv
        exact inserts_refl _
    split at h
    · split at h
      · exact absurd h (by simp)
      · split at h
        · split at h
          · simp only [Except.ok.injEq] at h
            subst h
            refine inserts_trans h0 ?_
            refine inserts_trans ?_ (inserts_setCode _ _ _)
            refine inserts_trans ?_ (inserts_insert _ _)
            exact ⟨rfl, rfl, rfl, rfl, fun _ _ => rfl⟩
          · exact absurd h (by simp)
        · simp only [Except.ok.injEq] at h
          subst h
          exact inserts_trans h0 ⟨rfl, rfl, rfl, rfl, fun _ _ => rfl⟩
    · split at h
      · exact absurd h (by simp)
      · rename_i g2 alloca ha
        have h2 := createAlloca_inserts _ _ _ _ ha
        split at h
        · split at h
          · simp only [Except.ok.injEq] at h
            subst h
            refine inserts_trans (inserts_trans h0 h2) ?_
            refine inserts_trans ?_ (inserts_setCode _ _ _)
            exact inserts_insert _ _
          · exact absurd h (by simp)
        · simp only [Except.ok.injEq] at h
          subst h
          exact inserts_trans (inserts_trans h0 h2) ⟨rfl, rfl, rfl, rfl, fun _ _ => rfl⟩

theorem visitVarDecls_inserts (t : StaticScriptLexer) :
    ∀ (ds : List VarDeclNode) (g g1 : IRGenerator), visitVarDecls t g ds = .ok g1 →
      Inserts g g1
  | [], g, g1, h => by
    simp only [visitVarDecls, Except.ok.injEq] at h
    subst h; exact inserts_refl _
  | d :: ds, g, g1, h => by
    simp only [visitVarDecls] at h
    split at h
    · exact absurd h (by simp)
    · rename_i g2 hd
      exact inserts_trans (visitVarDecl_inserts t g g2 d hd) (visitVarDecls_inserts t ds g2 g1 h)

theorem createBr_inserts (g g1 : IRGenerator) (dest : Option Nat)
    (h : createBr g dest = .ok g1) : Inserts g g1 := by
  unfold createBr at h
  cases dest with
  | none => exact absurd h (by simp)
  | some c =>
    simp only [Except.ok.injEq] at h
    subst h
    exact inserts_insert _ _

theorem visitContinue_inserts (g g1 : IRGenerator) (ref : Option Nat)
    (h : visitContinue g ref = .ok g1) : Inserts g g1 := by
  unfold visitContinue at h
  split at h
  · exact absurd h (by simp)
  · split at h
    · exact absurd h (by simp)
    · split at h
      · exact createBr_inserts _ _ _ h
      · split at h
        · exact createBr_inserts _ _ _ h
        · exact createBr_inserts _ _ _ h

theorem visitBreak_inserts (g g1 : IRGenerator) (ref : Option Nat)
    (h : visitBreak g ref = .ok g1) : Inserts g g1 := by
  unfold visitBreak at h
  split at h
  · exact absurd h (by simp)
  · split at h
    · exact absurd h (by simp)
    · exact createBr_inserts _ _ _ h

theorem visitReturn_inserts (t : StaticScriptLexer) (g g1 : IRGenerator)
    (e : Option ExprNode) (h : visitReturn t g e = .ok g1) : Inserts g g1 := by
  unfold visitReturn at h
  split at h
  · simp only [Except.ok.injEq] at h
    subst h
    exact inserts_insert _ _
  · split at h
    · exact absurd h (by simp)
    · rename_i g2 v hv
      simp only [Except.ok.injEq] at h
      subst h
      exact inserts_trans (inserts_of_appends (visitExpr_appends t _ _ _ _ hv))
        (inserts_insert _ _)
    · rename_i g2 hv
      simp only [Except.ok.injEq] at h
      subst h
      exact inserts_trans (inserts_of_appends (visitExpr_appends t _ _ _ _ hv))
        (inserts_insert _ _)

mutual
/-- A statement without nested control flow only inserts instructions at the
insertion point. -/
theorem visitStmt_inserts (t : StaticScriptLexer) :
    ∀ (s : StmtNode) (g g1 : IRGenerator), s.straight = true → visitStmt t g s = .ok g1 →
      Inserts g g1
  | .exprStmt e, g, g1, _, h => by
    simp only [visitStmt] at h
    split at h
    · exact absurd h (by simp)
    · rename_i g2 c he
      simp only [Except.ok.injEq] at h
      subst h
      exact inserts_of_appends (visitExpr_appends t _ _ _ _ he)
  | .compoundStmt l, g, g1, hs, h => by
    simp only [visitStmt] at h
    simp only [StmtNode.straight] at hs
    exact visitStmts_inserts t l g g1 hs h
  | .varDeclStmt ds, g, g1, _, h => by
    simp only [visitStmt] at h
    exact visitVarDecls_inserts t _ _ _ h
  | .functionDeclStmt _ _ _ _, g, g1, hs, h => by
    simp [StmtNode.straight] at hs
  | .ifStmt _ _ _, g, g1, hs, h => by
    simp [StmtNode.straight] at hs
  | .whileStmt _ _ _, g, g1, hs, h => by
    simp [StmtNode.straight] at hs
  | .forStmt _ _ _ _ _ _, g, g1, hs, h => by
    simp [StmtNode.straight] at hs
  | .continueStmt r, g, g1, _, h => by
    simp only [visitStmt] at h
    exact visitContinue_inserts _ _ _ h
  | .breakStmt r, g, g1, _, h => by
    simp only [visitStmt] at h
    exact visitBreak_inserts _ _ _ h
  | .returnStmt e, g, g1, _, h => by
    simp only [visitStmt] at h
    exact visitReturn_inserts t _ _ _ h
theorem visitStmts_inserts (t : StaticScriptLexer) :
    ∀ (l : List StmtNode) (g g1 : IRGenerator), straightList l = true →
      visitStmts t g l = .ok g1 → Inserts g g1
  | [], g, g1, _, h => by
    simp only [visitStmts, Except.ok.injEq] at h
    subst h; exact inserts_refl _
  | s :: rest, g, g1, hs, h => by
    simp only [visitStmts] at h
    simp only [straightList, Bool.and_eq_true] at hs
    split at h
    · exact absurd h (by simp)
    · rename_i g2 hv
      exact inserts_trans (visitStmt_inserts t s g g2 hs.1 hv)
        (visitStmts_inserts t rest g2 g1 hs.2 h)
end

/-- The part of `visit(IfStmtNode)` before the then-body, for a statement with
an else branch: three blocks are created, the then block is linked behind the
block that was current or appended to the current function, and it is the
current block afterwards. -/
theorem ifHead_else (t : StaticScriptLexer) (g g1 : IRGenerator) (c : ExprNode)
    (blocks : IfBlocks) (h : ifHead t g c true = .ok (g1, blocks)) :
    g1.blocks.length = g.blocks.length + 3 ∧ g1.curFn = g.curFn ∧
    g1.insertBlock = some blocks.thenBB ∧
    ((∃ cur, g.insertBlock = some cur ∧
        g1.functions = g.functions.map
          (fun fn : LLVMFunction => { fn with blocks := insertAfter cur blocks.thenBB fn.blocks })) ∨
      g1.functions =
        updateAt (fun fn : LLVMFunction => { fn with blocks := fn.blocks ++ [blocks.thenBB] })
          g.curFn g.functions) := by
  unfold ifHead at h
  split at h
  · exact absurd h (by simp)
  · rename_i g2 code hc
    simp only [if_true] at h
    split at h
    · exact absurd h (by simp)
    · rename_i g3 hbr
      simp only [Except.ok.injEq, Prod.mk.injEq] at h
      obtain ⟨rfl, rfl⟩ := h
      have hA := visitExpr_appends t _ _ _ _ hc
      unfold createCondBr at hbr
      cases code with
      | none => exact absurd hbr (by simp)
      | some v =>
        simp only [Except.ok.injEq] at hbr
        subst hbr
        have hI := IRGenerator.appends_insert
          (((g2.createBasicBlock "if.then" none).1.createBasicBlock "if.end" none).1.createBasicBlock
            "if.else" none).1
          (.condBr v (g2.createBasicBlock "if.then" none).2
            (((g2.createBasicBlock "if.then" none).1.createBasicBlock "if.end"
              none).1.createBasicBlock "if.else" none).2)
        have hf := hI.functions.trans hA.functions
        have hcur := hI.curFn.trans hA.curFn
        have hins := hI.insertBlock.trans hA.insertBlock
        refine ⟨?_, ?_, IRGenerator.emitBlock_insertBlock _ _, ?_⟩
        · rw [IRGenerator.emitBlock_length, hI.blocksLength]
          simp only [IRGenerator.createBasicBlock_length, hA.blocksLength]
        · rw [IRGenerator.emitBlock_curFn]; exact hcur
        · rcases IRGenerator.emitBlock_functions_cases _ (g2.createBasicBlock "if.then" none).2
            false with ⟨-, hn⟩ | ⟨cur, hcu, hfn, -⟩ | ⟨hfn, -⟩
          · rw [IRGenerator.emitBlock_insertBlock] at hn
            exact absurd hn (by simp)
          · left
            refine ⟨cur, hins ▸ hcu, ?_⟩
            rw [hfn, hf]
          · right
            rw [hfn, hf, hcur]

/-! ## End blocks and update blocks -/

theorem IRGenerator.emitBranch_of_cleared (g : IRGenerator) (bb : Nat)
    (h : g.insertBlock = none) : g.emitBranch bb = g := by
  unfold IRGenerator.emitBranch
  rw [h]
  cases g
  simp only at h
  subst h
  rfl

theorem IRGenerator.emitBlock_false_of_cleared (g : IRGenerator) (bb : Nat)
    (h : g.insertBlock = none) :
    g.emitBlock bb false =
      { g with
          functions := updateAt (fun fn => { fn with blocks := fn.blocks ++ [bb] }) g.curFn
            g.functions,
          blocks := updateAt (fun b => { b with parent := some g.curFn }) bb g.blocks,
          insertBlock := some bb } := by
  have he := g.emitBranch_of_cleared bb h
  unfold IRGenerator.emitBlock
  simp only [he, h, Bool.false_and, Bool.false_eq_true, if_false]

theorem IRGenerator.getTerminator_congr {g g1 : IRGenerator} (bb : Nat)
    (h : g1.blocks[bb]? = g.blocks[bb]?) :
    g1.instsOf bb = g.instsOf bb ∧ g1.getTerminator bb = g.getTerminator bb := by
  have hi : g1.instsOf bb = g.instsOf bb := by
    unfold IRGenerator.instsOf; rw [h]
  exact ⟨hi, by unfold IRGenerator.getTerminator; rw [hi]⟩

/-- C12, as amended: `visit(IfStmtNode)` on an if statement with an else
branch, visited in a well-formed generator, when the code of the then-body and
the code of the else-body both end in a terminator (after each body the
current block has a terminator, or there is no current block).  The
statement's blocks are three fresh ones.  `emitBranch(endBB)` appends nothing
after either body.  The then block and the else block are in a function's
block list when the statement has been visited.  Nothing names the end block
(no incoming edge, no loop handle), so `emitBlock(endBB, true)` discards it:
the visit returns the generator as the else-body left it, with the insertion
point cleared and the end block deleted, and the end block is in no function's
block list.  When the bodies hold no nested control flow, the three blocks of
the statement are the only blocks created, the block lists are those from
before the statement with the then block linked in (behind the block that was
current, or at the end of the current function) and the else block appended
to the current function, the then-body changes no block but the then block
and the else-body no block but the else block, and each of the two blocks
ends in the terminator its body emitted. -/
theorem visitStmt_ifElse_terminated (t : StaticScriptLexer) (g g1 g2 g3 : IRGenerator)
    (condition : ExprNode) (thenBody elseBody : StmtNode) (blocks : IfBlocks)
    (hWF : g.wellFormed = true)
    (hHead : ifHead t g condition true = .ok (g1, blocks))
    (hThen : visitStmt t g1 thenBody = .ok g2)
    (hThenEnd : g2.cursorTerminated = true)
    (hElse : visitStmt t ((g2.emitBranch blocks.endBB).emitBlock blocks.elseBB false) elseBody =
      .ok g3)
    (hElseEnd : g3.cursorTerminated = true) :
    blocks = { thenBB := g.blocks.length, elseBB := g.blocks.length + 2,
               endBB := g.blocks.length + 1 } ∧
    g2.emitBranch blocks.endBB = { g2 with insertBlock := none } ∧
    g3.emitBranch blocks.endBB = { g3 with insertBlock := none } ∧
    visitStmt t g (.ifStmt condition thenBody (some elseBody)) =
      .ok { g3 with
              insertBlock := none,
              blocks := updateAt (fun b => { b with erased := true }) blocks.endBB g3.blocks } ∧
    blocks.endBB < g3.blocks.length ∧
    g3.useEmpty blocks.endBB = true ∧
    Unreferenced g3 blocks.endBB ∧
    g3.listed blocks.endBB = false ∧
    g3.listed blocks.thenBB = true ∧
    g3.listed blocks.elseBB = true ∧
    (thenBody.straight = true → elseBody.straight = true →
      g3.blocks.length = g.blocks.length + 3 ∧
      g3.functions =
        updateAt (fun fn => { fn with blocks := fn.blocks ++ [blocks.elseBB] }) g.curFn
          g1.functions ∧
      ((∃ cur, g.insertBlock = some cur ∧
          g1.functions = g.functions.map
            (fun fn : LLVMFunction =>
              { fn with blocks := insertAfter cur blocks.thenBB fn.blocks })) ∨
        g1.functions =
          updateAt (fun fn : LLVMFunction => { fn with blocks := fn.blocks ++ [blocks.thenBB] })
            g.curFn g.functions) ∧
      g1.insertBlock = some blocks.thenBB ∧ g2.insertBlock = some blocks.thenBB ∧
      (∀ b, b ≠ blocks.thenBB → g2.blocks[b]? = g1.blocks[b]?) ∧
      g3.instsOf blocks.thenBB = g2.instsOf blocks.thenBB ∧
      (g3.getTerminator blocks.thenBB).isSome = true ∧
      ((g2.emitBranch blocks.endBB).emitBlock blocks.elseBB false).insertBlock =
        some blocks.elseBB ∧
      g3.insertBlock = some blocks.elseBB ∧
      (∀ b, b ≠ blocks.elseBB →
        g3.blocks[b]? = ((g2.emitBranch blocks.endBB).emitBlock blocks.elseBB false).blocks[b]?) ∧
      (g3.getTerminator blocks.elseBB).isSome = true) := by
  obtain ⟨hthen, hend, helse, hlen1, hT1, hlisted⟩ := ifHead_touches t g g1 condition true blocks hHead
  simp only [if_true] at helse
  have hA0 := g.wellFormed_attached hWF
  have hU0 := g.wellFormed_unreferenced hWF blocks.endBB (by omega)
  have hU1 := hT1.unreferenced blocks.endBB (by omega) hU0
  have hB1 := visitStmt_touches t thenBody g1 g2 hThen
  have hU2 := hB1.unreferenced blocks.endBB (by show ¬ (_ ≤ _); omega) hU1
  have hE2 := g2.emitBranch_of_cursorTerminated blocks.endBB hThenEnd
  have hE3 := g3.emitBranch_of_cursorTerminated blocks.endBB hElseEnd
  have hT2 : Touches (fun b => b = blocks.elseBB) g2
      ((g2.emitBranch blocks.endBB).emitBlock blocks.elseBB false) := by
    rw [hE2]
    exact (touches_clear _ g2).seq (touches_emitBlock _ _ _ _ rfl)
  have hA2 := hT2.attached (hB1.attached (hT1.attached hA0))
  have hL2 : ((g2.emitBranch blocks.endBB).emitBlock blocks.elseBB false).listed blocks.elseBB =
      true :=
    ((IRGenerator.attached_iff _).mp hA2).2 _ (IRGenerator.emitBlock_insertBlock _ _)
  have hB2 := visitStmt_touches t elseBody _ g3 hElse
  have hlen2 := hT2.blocksLength
  have hlen3 := hB2.blocksLength
  have hlenB := hB1.blocksLength
  have hU3 := hB2.unreferenced blocks.endBB (by show ¬ (_ ≤ _); omega)
    (hT2.unreferenced blocks.endBB (by omega) hU2)
  refine ⟨?_, hE2, hE3, ?_, by omega, hU3.useEmpty, hU3, hU3.not_listed,
    hB2.listed _ (hT2.listed _ (hB1.listed _ (hlisted hA0))), hB2.listed _ hL2, ?_⟩
  · cases blocks
    simp only at hthen hend helse
    simp only [hthen, hend, helse]
  · simp only [visitStmt, Option.isSome, hHead, hThen, visitElse, hElse]
    rw [hE3]
    have hu : ({ g3 with insertBlock := none } : IRGenerator).useEmpty blocks.endBB = true :=
      hU3.useEmpty
    unfold IRGenerator.emitBlock
    have hb : (({ g3 with insertBlock := none } : IRGenerator).emitBranch blocks.endBB) =
        { g3 with insertBlock := none } := rfl
    simp only [hb, hu, Bool.and_self, if_true]
  · intro hs1 hs2
    obtain ⟨hl1, hc1, hi1, hf1⟩ := ifHead_else t g g1 condition blocks hHead
    have hI1 := visitStmt_inserts t thenBody g1 g2 hs1 hThen
    have hi2 : g2.insertBlock = some blocks.thenBB := hI1.insertBlock.trans hi1
    have hopen : (g2.emitBranch blocks.endBB).emitBlock blocks.elseBB false =
        { g2 with
            functions := updateAt (fun fn => { fn with blocks := fn.blocks ++ [blocks.elseBB] })
              g2.curFn g2.functions,
            blocks := updateAt (fun b => { b with parent := some g2.curFn }) blocks.elseBB
              g2.blocks,
            insertBlock := some blocks.elseBB } := by
      rw [hE2]
      exact IRGenerator.emitBlock_false_of_cleared _ _ rfl
    have hI2 := visitStmt_inserts t elseBody _ g3 hs2 hElse
    have hne : blocks.thenBB ≠ blocks.elseBB := by omega
    have hi3 : g3.insertBlock = some blocks.elseBB :=
      hI2.insertBlock.trans (IRGenerator.emitBlock_insertBlock _ _)
    have hb3 : g3.blocks[blocks.thenBB]? = g2.blocks[blocks.thenBB]? := by
      rw [hI2.others blocks.thenBB (by
        rw [IRGenerator.emitBlock_insertBlock]
        intro e
        exact hne (Option.some.inj e).symm)]
      rw [hopen]
      exact updateAt_getElem?_ne _ _ _ _ hne
    have hg3 := IRGenerator.getTerminator_congr blocks.thenBB hb3
    have ho1 : ∀ b, b ≠ blocks.thenBB → g2.blocks[b]? = g1.blocks[b]? := fun b hb =>
      hI1.others b (by rw [hi1]; intro e; exact hb (Option.some.inj e).symm)
    have ho2 : ∀ b, b ≠ blocks.elseBB → g3.blocks[b]? =
        ((g2.emitBranch blocks.endBB).emitBlock blocks.elseBB false).blocks[b]? := fun b hb =>
      hI2.others b (by
        rw [IRGenerator.emitBlock_insertBlock]; intro e; exact hb (Option.some.inj e).symm)
    refine ⟨?_, ?_, hf1, hi1, hi2, ho1, hg3.1, ?_, IRGenerator.emitBlock_insertBlock _ _, hi3,
      ho2, ?_⟩
    · rw [hI2.blocksLength, IRGenerator.emitBlock_length, IRGenerator.emitBranch_length,
        hI1.blocksLength, hl1]
    · rw [hI2.functions, hopen]
      show updateAt _ g2.curFn g2.functions = _
      rw [hI1.functions, hI1.curFn, hc1]
    · rw [hg3.2]
      unfold IRGenerator.cursorTerminated at hThenEnd
      rw [hi2] at hThenEnd
      exact hThenEnd
    · unfold IRGenerator.cursorTerminated at hElseEnd
      rw [hi3] at hElseEnd
      exact hElseEnd

/-- Scenario C: `if (a > b) { return 1; } else { return 2; }` as the body of
`function f(a, b)` (function 1, entry block 1).  The blocks of `f` are the
entry block, the then block (block 2) and the else block (block 4), each of
the two ending in its return; the end block (block 3) is deleted, has no
predecessor and is not in the list. -/
theorem visitStmt_ifElse_terminated_witness :
    insideF.wellFormed = true ∧
    ∃ g1, visitStmt sampleLexer insideF ifElseReturn = .ok g1 ∧
      g1.blocksOf 1 = [1, 2, 4] ∧
      g1.blocks.length = insideF.blocks.length + 3 ∧
      g1.instsOf 2 = [(8, .ret (.constantInt .int64Ty 1))] ∧
      g1.instsOf 4 = [(9, .ret (.constantInt .int64Ty 2))] ∧
      g1.getTerminator 2 = some (.ret (.constantInt .int64Ty 1)) ∧
      g1.getTerminator 4 = some (.ret (.constantInt .int64Ty 2)) ∧
      (g1.blocks[3]?).map (fun b => b.erased) = some true ∧
      g1.predecessors 1 3 = [] ∧
      g1.insertBlock = none :=
  ⟨rfl, _,
   (visitStmt_ifElse_terminated sampleLexer insideF
      (generatorOf (ifHead sampleLexer insideF aGreaterB true))
      (resultOf (visitStmt sampleLexer (generatorOf (ifHead sampleLexer insideF aGreaterB true))
        returnOne))
      (resultOf (visitStmt sampleLexer
        (((resultOf (visitStmt sampleLexer (generatorOf (ifHead sampleLexer insideF aGreaterB true))
          returnOne)).emitBranch 3).emitBlock 4 false) returnTwo))
      aGreaterB returnOne returnTwo { thenBB := 2, elseBB := 4, endBB := 3 }
      rfl rfl rfl rfl rfl rfl).2.2.2.1,
   rfl, rfl, rfl, rfl, rfl, rfl, rfl, rfl, rfl⟩

/-- C12 fails as stated: in `function f(a, b)`, the statement
`if (a > b) { while (true) { } return 1; } else { return 2; }` has bodies that
both end in a return, and its end block is discarded; but the blocks added to
`f` are not the then block and the else block alone (the loop adds its
condition, body and end block), and the then block (block 2) ends in the
branch to the loop's condition block, not in a return. -/
theorem visitStmt_ifElse_counterexample :
    ∃ g1, visitStmt sampleLexer insideF ifWhileReturn = .ok g1 ∧
      g1.blocksOf 1 = [1, 2, 5, 6, 7, 4] ∧
      g1.instsOf 2 = [(8, .br 5)] ∧
      g1.getTerminator 2 = some (.br 5) ∧
      g1.getTerminator 7 = some (.ret (.constantInt .int64Ty 1)) ∧
      g1.getTerminator 4 = some (.ret (.constantInt .int64Ty 2)) ∧
      (g1.blocks[3]?).map (fun b => (b.name, b.erased)) = some ("if.end", true) :=
  ⟨_, rfl, rfl, rfl, rfl, rfl, rfl, rfl⟩

end StaticScript
